import Mathlib

/-!
# OS-lab: buffer cache (`kernel/bio.c`) and page allocator (`kernel/kalloc.c`)

A sequential model of the two kernel resource pools and the properties the
specification states about them.

Conventions of the embedding:
* `uint` fields are natural numbers below `2^32`; `++`, `--` and `+=` wrap around.
* A C pointer to a `struct buf` is a `Ptr`: null, the list head embedded in a
  bucket (`&hashtable[k].head`) or a pool slot (`&bcache.buf[i]`).
* A routine returns a `Res`: a normal return, a `panic`, a fault (null
  dereference or index outside an array), a self-deadlock on a spinlock, or
  `fuel` when the loop budget handed to it ran out before it finished.
-/

namespace OSLab

/-! ## Outcomes -/

/-- Outcome of running a kernel routine. -/
inductive Res (α : Type) where
  /-- The routine returned normally. -/
  | ret (a : α)
  /-- The routine called `panic(msg)`. -/
  | panic (msg : String)
  /-- A null pointer was dereferenced or an array was indexed outside its bounds. -/
  | fault
  /-- The running CPU tried to acquire a spinlock it already holds. -/
  | deadlock
  /-- The loop budget ran out: the routine was still running. -/
  | fuel
deriving DecidableEq, Repr

/-- Sequencing of routines: the first abnormal outcome ends the run. -/
def Res.bind {α β : Type} (r : Res α) (f : α → Res β) : Res β :=
  match r with
  | .ret a => f a
  | .panic m => .panic m
  | .fault => .fault
  | .deadlock => .deadlock
  | .fuel => .fuel

instance : Monad Res where
  pure := Res.ret
  bind := Res.bind

/-! ## Buffer cache: data model -/

/-- A value of type `struct buf *`. -/
inductive Ptr where
  /-- The null pointer. -/
  | null
  /-- The address `&hashtable[k].head`. -/
  | head (k : Nat)
  /-- The address `&bcache.buf[i]`. -/
  | buf (i : Nat)
deriving DecidableEq, Repr

/-- The fields of `struct buf` that `bio.c` reads or writes; `buf.h` is not among
the sources. `valid` is the flag the code only tests, clears and sets; `lock`
is the state of the buffer's sleep lock as seen by the caller (held or not). -/
structure Buf where
  valid : Bool
  dev : Nat
  blockno : Nat
  lock : Bool
  refcnt : Nat
  timestamp : Nat
  next : Ptr
deriving DecidableEq, Repr

/-- A zero-initialised `struct buf`, as every static object is at boot. -/
def Buf.zero : Buf :=
  { valid := false, dev := 0, blockno := 0, lock := false, refcnt := 0, timestamp := 0,
    next := Ptr.null }

/-- The globals of `bio.c`: the pool `bcache.buf[NBUF]`, the bucket heads
`hashtable[NBUCKET].head`, and the record of calls made to the disk driver
(buffer, write flag), oldest first. -/
structure BCache where
  buf : List Buf
  hashtable : List Buf
  disk : List (Ptr × Nat)
deriving DecidableEq, Repr

/-- The pool size `NBUF`. -/
def BCache.NBUF (s : BCache) : Nat := s.buf.length

/-- The number of buckets `NBUCKET`. -/
def BCache.NBUCKET (s : BCache) : Nat := s.hashtable.length

/-- Read through a pointer, `*p`. -/
def BCache.rd (s : BCache) : Ptr → Res Buf
  | .null => .fault
  | .head k => match s.hashtable[k]? with
    | some b => .ret b
    | none => .fault
  | .buf i => match s.buf[i]? with
    | some b => .ret b
    | none => .fault

/-- Store through a pointer, `*p = v`; a store through a pointer that cannot be
read is left out (the routines below fault before they get there). -/
def BCache.set (s : BCache) : Ptr → Buf → BCache
  | .null, _ => s
  | .head k, v => { s with hashtable := s.hashtable.set k v }
  | .buf i, v => { s with buf := s.buf.set i v }

/-- Update through a pointer, `*p = f (*p)`. -/
def BCache.upd (s : BCache) (p : Ptr) (f : Buf → Buf) : Res BCache :=
  match s.rd p with
  | .ret x => .ret (s.set p (f x))
  | _ => .fault

/-! ## Locks -/

/-- The spinlocks of `bio.c` and `kalloc.c`. -/
inductive Lock where
  /-- The global `bcache.lock`. -/
  | bcache
  /-- The per-bucket `hashtable[k].lock`. -/
  | bucket (k : Nat)
  /-- The free-list lock `kmem.lock`. -/
  | kmem
  /-- The reference-count lock `ref_list.lock`. -/
  | ref_list
deriving DecidableEq, Repr

/-- Modelled from the spec: `acquire` of `spinlock.c`, which is not among the
sources. The lock is non-reentrant: `held` lists the spinlocks the running CPU
holds, and acquiring one of them again never completes. Waiting for another
CPU is outside the sequential model. -/
def acquire (held : List Lock) (l : Lock) : Res (List Lock) :=
  if l ∈ held then .deadlock else .ret (l :: held)

/-- Modelled from the spec: `release` of `spinlock.c`. -/
def release (held : List Lock) (l : Lock) : List Lock := held.erase l

/-- Modelled from the spec: `acquiresleep` of `sleeplock.c`, which is not among
the sources. The lock is held by at most one caller at a time, and acquiring it
suspends the caller until the holder releases it. In a sequential run nobody
releases a held lock, so acquiring a held lock never completes; acquiring a
free lock returns with the lock held. -/
def acquiresleep (s : BCache) (b : Ptr) : Res BCache := do
  let x ← s.rd b
  if x.lock then .deadlock else s.upd b (fun x => { x with lock := true })

/-- Modelled from the spec: `releasesleep` of `sleeplock.c`. -/
def releasesleep (s : BCache) (b : Ptr) : Res BCache :=
  s.upd b (fun x => { x with lock := false })

/-- Modelled from the spec: `holdingsleep` of `sleeplock.c`: whether the caller
holds the buffer's exclusive-access lock. -/
def holdingsleep (s : BCache) (b : Ptr) : Res Bool := do
  let x ← s.rd b
  return x.lock

/-- Modelled from the spec: the disk driver's `virtio_disk_rw(b, write)`, an
external collaborator that transfers the payload synchronously; the model
records the call. -/
def virtio_disk_rw (s : BCache) (b : Ptr) (write : Nat) : BCache :=
  { s with disk := s.disk ++ [(b, write)] }

/-! ## Buffer cache: routines -/

/-- The decrement `n--` of a `uint`: one less, and `2^32 - 1` from 0. -/
def uint_dec (n : Nat) : Nat := if n = 0 then 4294967295 else n - 1

/-- Source `ihash`: `blockno % NBUCKET`. -/
def ihash (NBUCKET blockno : Nat) : Nat := blockno % NBUCKET

/-- The body of the inner loop of `binit`: push `*b` on the list of bucket `i`. -/
def binit_link (s : BCache) (i : Nat) (b : Nat) : Res BCache := do
  let h ← s.rd (.head i)
  let s ← s.upd (.buf b) (fun x => { x with next := h.next })
  s.upd (.head i) (fun x => { x with next := .buf b })

/-- The inner loop of `binit`, `for (j = 0; j < NBUF / NBUCKET; j++)`, with
the running pointer `b` as a pool index. -/
def binit_inner (i : Nat) : Nat → BCache × Nat → Res (BCache × Nat)
  | 0, sb => .ret sb
  | n + 1, (s, b) => do
    let s ← binit_link s i b
    binit_inner i n (s, b + 1)

/-- The outer loop of `binit`, `for (i = 0; i < NBUCKET; i++)`, started at
bucket `i` with `n` buckets to go. -/
def binit_outer (NBUF NBUCKET : Nat) : Nat → Nat → BCache × Nat → Res (BCache × Nat)
  | 0, _, sb => .ret sb
  | n + 1, i, sb => do
    let sb ← binit_inner i (NBUF / NBUCKET) sb
    binit_outer NBUF NBUCKET n (i + 1) sb

/-- The zero-initialised globals of `bio.c` for the given `NBUF`, `NBUCKET`. -/
def BCache.zero (NBUF NBUCKET : Nat) : BCache :=
  { buf := List.replicate NBUF Buf.zero, hashtable := List.replicate NBUCKET Buf.zero,
    disk := [] }

/-- Source `binit`, run on the zero-initialised globals. -/
def binit (NBUF NBUCKET : Nat) : Res BCache := do
  let (s, _) ← binit_outer NBUF NBUCKET NBUCKET 0 (BCache.zero NBUF NBUCKET, 0)
  return s

/-- The first loop of `bget`: `for (b = head.next; b; b = b->next)` looking for
a buffer with identity `(dev, blockno)`; null when the list ends without one. -/
def bget_scan (s : BCache) (dev blockno : Nat) : Nat → Ptr → Res Ptr
  | 0, _ => .fuel
  | _ + 1, .null => .ret .null
  | n + 1, b => do
    let x ← s.rd b
    if x.dev = dev ∧ x.blockno = blockno then return b
    else bget_scan s dev blockno n x.next

/-- The second loop of `bget`: the bucket's unreferenced buffer with the
smallest timestamp below the running `min_stamp`. -/
def bget_lru (s : BCache) : Nat → Ptr → Ptr → Nat → Res (Ptr × Nat)
  | 0, _, _, _ => .fuel
  | _ + 1, .null, lru_buf, min_stamp => .ret (lru_buf, min_stamp)
  | n + 1, b, lru_buf, min_stamp => do
    let x ← s.rd b
    if x.refcnt = 0 ∧ x.timestamp < min_stamp then bget_lru s n x.next b x.timestamp
    else bget_lru s n x.next lru_buf min_stamp

/-- The pool scan of `loop_find`: `for (b = bcache.buf; b < bcache.buf + NBUF; b++)`,
over the slots from index `i` on. -/
def loop_find_scan : Nat → List Buf → Ptr → Nat → Ptr × Nat
  | _, [], lru_buf, min_stamp => (lru_buf, min_stamp)
  | i, x :: xs, lru_buf, min_stamp =>
    if x.refcnt = 0 ∧ x.timestamp < min_stamp then loop_find_scan (i + 1) xs (.buf i) x.timestamp
    else loop_find_scan (i + 1) xs lru_buf min_stamp

/-- The unlink walk of `loop_find`: `while (p != lru_buf) { pre = pre->next; p = p->next; }`. -/
def loop_find_walk (s : BCache) (lru_buf : Ptr) : Nat → Ptr → Ptr → Res (Ptr × Ptr)
  | 0, _, _ => .fuel
  | n + 1, pre, p =>
    if p = lru_buf then .ret (pre, p)
    else do
      let a ← s.rd pre
      let b ← s.rd p
      loop_find_walk s lru_buf n a.next b.next

/-- Source `loop_find`. `held` are the spinlocks the caller holds; `fuel`
bounds the unlink walk and the first numeric argument bounds the iterations of
the outer `for (;;)`. -/
def loop_find (fuel : Nat) (s : BCache) (held : List Lock) :
    Nat → Ptr → Nat → Res (BCache × List Lock × Ptr)
  | 0, _, _ => .fuel
  | n + 1, lru_buf, min_stamp =>
    match loop_find_scan 0 s.buf lru_buf min_stamp with
    | (lru_buf, min_stamp) =>
      if lru_buf ≠ .null then do
        let v ← s.rd lru_buf
        let rbuf_index := ihash s.NBUCKET v.blockno
        let held ← acquire held (.bucket rbuf_index)
        if v.refcnt ≠ 0 then
          loop_find fuel s (release held (.bucket rbuf_index)) n lru_buf min_stamp
        else do
          let h ← s.rd (.head rbuf_index)
          let (pre, p) ← loop_find_walk s lru_buf fuel (.head rbuf_index) h.next
          let x ← s.rd p
          let s ← s.upd pre (fun y => { y with next := x.next })
          return (s, release held (.bucket rbuf_index), lru_buf)
      else loop_find fuel s held n lru_buf min_stamp

/-- The label `find:` of `bget`: claim `lru_buf` for `(dev, blockno)`. -/
def bget_find (s : BCache) (held : List Lock) (lru_buf : Ptr) (dev blockno : Nat) :
    Res (BCache × Ptr) := do
  let s ← s.upd lru_buf
    (fun x => { x with dev := dev, blockno := blockno, valid := false, refcnt := 1 })
  let _held := release held (.bucket (ihash s.NBUCKET blockno))
  let s ← acquiresleep s lru_buf
  return (s, lru_buf)

/-- Source `bget`, entered with no spinlock held. -/
def bget (fuel : Nat) (s : BCache) (dev blockno : Nat) : Res (BCache × Ptr) := do
  let index := ihash s.NBUCKET blockno
  let held ← acquire [] (.bucket index)
  let h ← s.rd (.head index)
  let b ← bget_scan s dev blockno fuel h.next
  if b ≠ .null then do
    let s ← s.upd b (fun x => { x with refcnt := (x.refcnt + 1) % 2 ^ 32 })
    let _held := release held (.bucket index)
    let s ← acquiresleep s b
    return (s, b)
  else do
    let (lru_buf, _) ← bget_lru s fuel h.next .null (1 <<< 20)
    if lru_buf ≠ .null then bget_find s held lru_buf dev blockno
    else do
      let held ← acquire held .bcache
      let (s, held, lru_buf) ← loop_find fuel s held fuel lru_buf (1 <<< 20)
      if lru_buf ≠ .null then do
        let h ← s.rd (.head index)
        let s ← s.upd lru_buf (fun x => { x with next := h.next })
        let s ← s.upd (.head index) (fun x => { x with next := lru_buf })
        let held := release held .bcache
        bget_find s held lru_buf dev blockno
      else .panic "bget: no buffers"

/-- Source `bread`. -/
def bread (fuel : Nat) (s : BCache) (dev blockno : Nat) : Res (BCache × Ptr) := do
  let (s, b) ← bget fuel s dev blockno
  let x ← s.rd b
  if !x.valid then do
    let s := virtio_disk_rw s b 0
    let s ← s.upd b (fun x => { x with valid := true })
    return (s, b)
  else return (s, b)

/-- Source `bwrite`. -/
def bwrite (s : BCache) (b : Ptr) : Res BCache := do
  if !(← holdingsleep s b) then .panic "bwrite"
  else return virtio_disk_rw s b 1

/-- Source `brelse`; `ticks` is the value of the kernel's tick counter. -/
def brelse (ticks : Nat) (s : BCache) (b : Ptr) : Res BCache := do
  if !(← holdingsleep s b) then .panic "brelse"
  else do
    let s ← releasesleep s b
    let x ← s.rd b
    let index := ihash s.NBUCKET x.blockno
    let held ← acquire [] (.bucket index)
    let s ← s.upd b (fun x => { x with refcnt := uint_dec x.refcnt })
    let x ← s.rd b
    let s ← if x.refcnt = 0 then s.upd b (fun x => { x with timestamp := ticks }) else pure s
    let _held := release held (.bucket index)
    return s

/-- Source `bpin`. -/
def bpin (s : BCache) (b : Ptr) : Res BCache := do
  let x ← s.rd b
  let held ← acquire [] (.bucket (ihash s.NBUCKET x.blockno))
  let s ← s.upd b (fun x => { x with refcnt := (x.refcnt + 1) % 2 ^ 32 })
  let x ← s.rd b
  let _held := release held (.bucket (ihash s.NBUCKET x.blockno))
  return s

/-- Source `bunpin`. -/
def bunpin (s : BCache) (b : Ptr) : Res BCache := do
  let x ← s.rd b
  let held ← acquire [] (.bucket (ihash s.NBUCKET x.blockno))
  let s ← s.upd b (fun x => { x with refcnt := uint_dec x.refcnt })
  let x ← s.rd b
  let _held := release held (.bucket (ihash s.NBUCKET x.blockno))
  return s


/-! ## Page allocator: data model -/

/-- The page size `PGSIZE`: `kalloc.c` allocates whole 4096-byte pages. -/
def PGSIZE : Nat := 4096

/-- The layout constants `kalloc.c` takes from `memlayout.h` and the linker
script, which are not among the sources: `KERNBASE`, `PHYSTOP` and `end`, the
first address after the kernel. -/
structure Layout where
  KERNBASE : Nat
  PHYSTOP : Nat
  kend : Nat
deriving DecidableEq, Repr

/-- The globals of `kalloc.c` and the physical memory they live in:
`kmem.freelist` (0 is the null pointer), the table `ref_list.refCount`, and
memory as bytes by address. -/
structure KMem where
  freelist : Nat
  refCount : List Nat
  mem : Nat → Nat

/-- Library `memset(dst, c, n)`. -/
def memset (m : Nat → Nat) (dst c n : Nat) : Nat → Nat :=
  fun a => if dst ≤ a ∧ a < dst + n then c else m a

/-- Read of the 8-byte little-endian pointer `((struct run*)r)->next`. -/
def load64 (m : Nat → Nat) (r : Nat) : Nat :=
  m r + 256 * (m (r + 1) + 256 * (m (r + 2) + 256 * (m (r + 3) + 256 * (m (r + 4) +
    256 * (m (r + 5) + 256 * (m (r + 6) + 256 * m (r + 7)))))))

/-- Write of the 8-byte little-endian pointer `((struct run*)r)->next = v`. -/
def store64 (m : Nat → Nat) (r v : Nat) : Nat → Nat :=
  fun a => if r ≤ a ∧ a < r + 8 then v / 256 ^ (a - r) % 256 else m a

/-- Read of `ref_list.refCount[i]`. -/
def KMem.ref (s : KMem) (i : Nat) : Res Nat :=
  match s.refCount[i]? with
  | some n => .ret n
  | none => .fault

/-- Write of `ref_list.refCount[i] = n`. -/
def KMem.setRef (s : KMem) (i n : Nat) : KMem :=
  { s with refCount := s.refCount.set i n }

/-! ## Page allocator: routines -/

/-- Source `acquire_reflock`. -/
def acquire_reflock (held : List Lock) : Res (List Lock) := acquire held .ref_list

/-- Source `release_reflock`. -/
def release_reflock (held : List Lock) : List Lock := release held .ref_list

/-- Source `ipage`: `(pa - KERNBASE) / PGSIZE` on `uint64`. -/
def ipage (c : Layout) (pa : Nat) : Nat :=
  (pa + 2 ^ 64 - c.KERNBASE) % 2 ^ 64 / PGSIZE

/-- Source `refcnt_incr_n`: `refCount[ipage(pa)] += n` on `uint`, `n` an `int`. -/
def refcnt_incr_n (c : Layout) (s : KMem) (pa : Nat) (n : Int) : Res KMem := do
  let r ← s.ref (ipage c pa)
  return s.setRef (ipage c pa) (((r : Int) + n) % 2 ^ 32).toNat

/-- Source `r_refcnt`. -/
def r_refcnt (c : Layout) (s : KMem) (pa : Nat) : Res Nat :=
  s.ref (ipage c pa)

/-- Source `w_refcnt`: `refCount[ipage(pa)] = n`, `n` an `int`. -/
def w_refcnt (c : Layout) (s : KMem) (pa : Nat) (n : Int) : Res KMem := do
  let _ ← s.ref (ipage c pa)
  return s.setRef (ipage c pa) (n % 2 ^ 32).toNat

/-- Source `kfree`, entered with no spinlock held. -/
def kfree (c : Layout) (s : KMem) (pa : Nat) : Res KMem := do
  let held ← acquire_reflock []
  let r ← s.ref (ipage c pa)
  if r > 1 then
    let s := s.setRef (ipage c pa) (r - 1)
    let _held := release_reflock held
    return s
  else if pa % PGSIZE ≠ 0 ∨ pa < c.kend ∨ pa ≥ c.PHYSTOP then .panic "kfree"
  else do
    let s := { s with mem := memset s.mem pa 1 PGSIZE }
    let s := s.setRef (ipage c pa) 0
    let held := release_reflock held
    let held ← acquire held .kmem
    let s := { s with mem := store64 s.mem pa s.freelist }
    let s := { s with freelist := pa }
    let _held := release held .kmem
    return s

/-- Source `kalloc`, entered with no spinlock held. -/
def kalloc (c : Layout) (s : KMem) : Res (KMem × Nat) := do
  let held ← acquire [] .kmem
  let r := s.freelist
  let s := if r ≠ 0 then { s with freelist := load64 s.mem r } else s
  let held := release held .kmem
  let s := if r ≠ 0 then { s with mem := memset s.mem r 5 PGSIZE } else s
  if r ≠ 0 then do
    let held ← acquire_reflock held
    let s ← refcnt_incr_n c s r 1
    let _held := release_reflock held
    return (s, r)
  else return (s, r)

/-- Source `kalloc_freelock`; `held` are the spinlocks the caller holds. -/
def kalloc_freelock (held : List Lock) (c : Layout) (s : KMem) : Res (KMem × Nat) := do
  let held ← acquire held .kmem
  let r := s.freelist
  let s := if r ≠ 0 then { s with freelist := load64 s.mem r } else s
  let _held := release held .kmem
  let s := if r ≠ 0 then { s with mem := memset s.mem r 5 PGSIZE } else s
  if r ≠ 0 then do
    let s ← refcnt_incr_n c s r 1
    return (s, r)
  else return (s, r)

/-- The macro `PGROUNDUP` of `riscv.h`, which is not among the sources:
`(sz + PGSIZE - 1) & ~(PGSIZE - 1)` on `uint64`. -/
def PGROUNDUP (sz : Nat) : Nat := (sz + PGSIZE - 1) % 2 ^ 64 / PGSIZE * PGSIZE

/-- The loop of `freerange`: `for (; p + PGSIZE <= pa_end; p += PGSIZE) kfree(p)`. -/
def freerange_loop (c : Layout) (pa_end : Nat) : Nat → KMem → Nat → Res KMem
  | 0, _, _ => .fuel
  | n + 1, s, p =>
    if p + PGSIZE ≤ pa_end then do
      let s ← kfree c s p
      freerange_loop c pa_end n s (p + PGSIZE)
    else .ret s

/-- Source `freerange`. -/
def freerange (fuel : Nat) (c : Layout) (s : KMem) (pa_start pa_end : Nat) : Res KMem :=
  freerange_loop c pa_end fuel s (PGROUNDUP pa_start)

/-- Source `kinit`. -/
def kinit (fuel : Nat) (c : Layout) (s : KMem) : Res KMem :=
  freerange fuel c s c.kend c.PHYSTOP

/-! ## Vocabulary of the specification -/

/-- List segment: following `next` links from `p` visits exactly the nodes `l`,
in order, and arrives at `q`. The list of bucket `k` is the `l` with
`Seg s (hashtable[k].head.next) l null`. -/
def Seg (s : BCache) : Ptr → List Ptr → Ptr → Prop
  | p, [], q => p = q
  | p, a :: l, q => p = a ∧ a ≠ .null ∧
    match s.rd a with
    | .ret x => Seg s x.next l q
    | _ => False

instance Seg.dec (s : BCache) : (p : Ptr) → (l : List Ptr) → (q : Ptr) → Decidable (Seg s p l q)
  | p, [], q => inferInstanceAs (Decidable (p = q))
  | p, a :: l, q =>
    match h : s.rd a with
    | .ret x =>
      have := Seg.dec s x.next l q
      decidable_of_iff (p = a ∧ a ≠ .null ∧ Seg s x.next l q) (by simp [Seg, h])
    | .panic _ => isFalse (by simp [Seg, h])
    | .fault => isFalse (by simp [Seg, h])
    | .deadlock => isFalse (by simp [Seg, h])
    | .fuel => isFalse (by simp [Seg, h])

/-- The buffer `b` has identity `(dev, blockno)`. -/
def Buf.is (b : Buf) (dev blockno : Nat) : Prop := b.dev = dev ∧ b.blockno = blockno

instance (b : Buf) (dev blockno : Nat) : Decidable (b.is dev blockno) :=
  inferInstanceAs (Decidable (_ ∧ _))

/-- No node of `l` has identity `(dev, blockno)`: a lookup along `l` misses. -/
def Misses (s : BCache) (l : List Ptr) (dev blockno : Nat) : Prop :=
  ∀ a ∈ l, ∀ x, s.rd a = .ret x → ¬ x.is dev blockno

/-- The buffer after a cache hit: one more reference, exclusive lock held. -/
def Buf.hit (x : Buf) : Buf := { x with refcnt := (x.refcnt + 1) % 2 ^ 32, lock := true }

/-- The buffer after the four assignments at `find:`. -/
def Buf.recycled (x : Buf) (dev blockno : Nat) : Buf :=
  { x with dev := dev, blockno := blockno, valid := false, refcnt := 1 }

/-- The buffer after it was claimed for `(dev, blockno)`: new identity, not
valid, one reference, exclusive lock held. -/
def Buf.claim (x : Buf) (dev blockno : Nat) : Buf :=
  { x with dev := dev, blockno := blockno, valid := false, refcnt := 1, lock := true }

/-- The buffer after `brelse` at tick `ticks`: lock released, one reference
fewer, and stamped if that was the last one. -/
def Buf.released (x : Buf) (ticks : Nat) : Buf :=
  { x with lock := false, refcnt := uint_dec x.refcnt,
           timestamp := if uint_dec x.refcnt = 0 then ticks else x.timestamp }

/-- A lookup of `(dev, blockno)` in `s` finds `b`: `b` is the first node with
that identity on the list of bucket `ihash(blockno)`, at most `fuel` links in. -/
def Found (s : BCache) (fuel dev blockno : Nat) (b : Ptr) : Prop :=
  b ≠ .null ∧ ∃ h l x, s.rd (.head (ihash s.NBUCKET blockno)) = .ret h ∧ Seg s h.next l b ∧
    Misses s l dev blockno ∧ l.length < fuel ∧ s.rd b = .ret x ∧ x.is dev blockno

/-- The pool slots `a`, ..., `a + c - 1` in the order `binit` leaves them on a
list: the last one linked first. -/
def desc (a : Nat) : Nat → List Ptr
  | 0 => []
  | c + 1 => .buf (a + c) :: desc a c

/-- Every field of the buffer but its link is still zero. -/
def Buf.zeroed (x : Buf) : Prop := x = { Buf.zero with next := x.next }

/-- The number of slots `binit` has linked into bucket `k` once it has done the
buckets before `i` and `j` slots of bucket `i`, with `n` slots per bucket. -/
def linked (n i j k : Nat) : Nat := if k < i then n else if k = i then j else 0

/-- The state of `binit` after the buckets before `i` and `j` slots of bucket
`i`: each bucket's list holds, last linked first, the slots linked into it so
far, and nothing but links was written. -/
def BinitInv (NBUF NBUCKET n : Nat) (s : BCache) (i j : Nat) : Prop :=
  s.NBUF = NBUF ∧ s.NBUCKET = NBUCKET ∧ s.disk = [] ∧
  (∀ k, k < NBUF → ∃ x, s.rd (.buf k) = .ret x ∧ x.zeroed) ∧
  (∀ k, k < NBUCKET → ∃ h, s.rd (.head k) = .ret h ∧ h.zeroed ∧
    Seg s h.next (desc (k * n) (linked n i j k)) .null)

/-- A page of the allocatable range: a page-aligned address in `[end, PHYSTOP)`. -/
def Page (c : Layout) (a : Nat) : Prop := a % PGSIZE = 0 ∧ c.kend ≤ a ∧ a < c.PHYSTOP

instance (c : Layout) (a : Nat) : Decidable (Page c a) := inferInstanceAs (Decidable (_ ∧ _))

/-- The free list as a sequence: following the `next` links stored in memory
from `p` visits exactly the addresses `l`, in order, and ends at null. -/
def Chain (m : Nat → Nat) : Nat → List Nat → Prop
  | p, [] => p = 0
  | p, a :: l => p = a ∧ a ≠ 0 ∧ Chain m (load64 m a) l

instance Chain.dec (m : Nat → Nat) : (p : Nat) → (l : List Nat) → Decidable (Chain m p l)
  | p, [] => inferInstanceAs (Decidable (p = 0))
  | p, a :: l =>
    have := Chain.dec m (load64 m a) l
    inferInstanceAs (Decidable (p = a ∧ a ≠ 0 ∧ Chain m (load64 m a) l))

/-- The free list of `s` is the sequence of pages `l`. -/
def FreeList (c : Layout) (s : KMem) (l : List Nat) : Prop :=
  Chain s.mem s.freelist l ∧ ∀ a ∈ l, Page c a

instance (c : Layout) (s : KMem) (l : List Nat) : Decidable (FreeList c s l) :=
  inferInstanceAs (Decidable (_ ∧ _))

/-- The addresses `freerange` frees when it starts at `p0` and runs `n` times,
the last one freed first: `p0 + (n-1) * PGSIZE`, ..., `p0 + PGSIZE`, `p0`. -/
def pages (p0 : Nat) : Nat → List Nat
  | 0 => []
  | n + 1 => (p0 + n * PGSIZE) :: pages p0 n

/-- The allocator before `kinit`: an empty free list and the all-zero table
`refCount[(PHYSTOP - KERNBASE) / PGSIZE]`, over memory `m`. -/
def KMem.boot (c : Layout) (m : Nat → Nat) : KMem :=
  { freelist := 0, refCount := List.replicate ((c.PHYSTOP - c.KERNBASE) / PGSIZE) 0, mem := m }

/-- The layout is one of a 64-bit machine with the kernel above `KERNBASE`. -/
def Layout.ok (c : Layout) : Prop := c.KERNBASE ≤ c.kend ∧ c.PHYSTOP ≤ 2 ^ 64

instance (c : Layout) : Decidable c.ok := inferInstanceAs (Decidable (_ ∧ _))

/-- The allocator states reachable from `kinit`, run on the allocator as it is
at boot over memory `m`, by `kalloc`, by `kfree` of a page whose count is at
least 1, and by a share `refcnt_incr_n(pa, 1)` of a page whose count `n` is at
least 1 and satisfies `shareable n`. -/
inductive KReach (c : Layout) (m : Nat → Nat) (shareable : Nat → Prop) : KMem → Prop where
  | boot (fuel : Nat) (s : KMem) : kinit fuel c (KMem.boot c m) = .ret s →
      KReach c m shareable s
  | alloc (s s' : KMem) (p : Nat) : KReach c m shareable s → kalloc c s = .ret (s', p) →
      KReach c m shareable s'
  | free (s s' : KMem) (pa n : Nat) : KReach c m shareable s → Page c pa →
      s.ref (ipage c pa) = .ret n → 1 ≤ n → kfree c s pa = .ret s' → KReach c m shareable s'
  | share (s s' : KMem) (pa n : Nat) : KReach c m shareable s → Page c pa →
      s.ref (ipage c pa) = .ret n → 1 ≤ n → shareable n →
      refcnt_incr_n c s pa 1 = .ret s' → KReach c m shareable s'

/-- Free list and counts agree: the free list is a sequence `l` of pages, every
page of the allocatable range has a count, and it is on the list exactly when
that count is 0. -/
def KInv (c : Layout) (s : KMem) : Prop :=
  ∃ l, FreeList c s l ∧ ∀ p, Page c p → ∃ n, s.ref (ipage c p) = .ret n ∧ (p ∈ l ↔ n = 0)

/-! ## Scenarios -/

/-- The scenario of the specification on a cache of 2 buckets and 4 buffers:
after `binit`, blocks (0,0) and (0,2) are requested and both kept held. -/
def two_held (fuel : Nat) : Res BCache := do
  let s ← binit 4 2
  let (s, _) ← bget fuel s 0 0
  let (s, _) ← bget fuel s 0 2
  return s

/-- The same scenario continued until all four buffers are held: blocks (0,1)
and (0,3) are requested from the other bucket and kept held. -/
def all_held (fuel : Nat) : Res BCache := do
  let s ← two_held fuel
  let (s, _) ← bget fuel s 0 1
  let (s, _) ← bget fuel s 0 3
  return s

/-- A cache of 2 buckets and 2 buffers in which blocks (0,1) and (0,0) were
fetched, (0,1) was released at tick 5 and (0,0) at tick `2^20`. -/
def late_release (fuel : Nat) : Res BCache := do
  let s ← binit 2 2
  let (s, b1) ← bget fuel s 0 1
  let (s, b0) ← bget fuel s 0 0
  let s ← brelse 5 s b1
  brelse (1 <<< 20) s b0

/-- A cache of 1 bucket and 3 buffers, all three held: block (0,0) in slot 2,
(0,1) in slot 1 and (0,2) in slot 0, so the bucket's list is slot 2, 1, 0. -/
def three_held (fuel : Nat) : Res BCache := do
  let s ← binit 3 1
  let (s, _) ← bget fuel s 0 0
  let (s, _) ← bget fuel s 0 1
  let (s, _) ← bget fuel s 0 2
  return s

/-- The state `two_held` arrives at: slots 1 and 0, the list of bucket 0, hold
blocks (0,0) and (0,2); slots 3 and 2, the list of bucket 1, are unreferenced
and still carry block number 0. -/
def two_held_state : BCache :=
  { buf := [⟨false, 0, 2, true, 1, 0, .null⟩, ⟨false, 0, 0, true, 1, 0, .buf 0⟩,
            ⟨false, 0, 0, false, 0, 0, .null⟩, ⟨false, 0, 0, false, 0, 0, .buf 2⟩],
    hashtable := [⟨false, 0, 0, false, 0, 0, .buf 1⟩, ⟨false, 0, 0, false, 0, 0, .buf 3⟩],
    disk := [] }

/-- The state `all_held` arrives at: every slot is referenced. -/
def all_held_state : BCache :=
  { buf := [⟨false, 0, 2, true, 1, 0, .null⟩, ⟨false, 0, 0, true, 1, 0, .buf 0⟩,
            ⟨false, 0, 3, true, 1, 0, .null⟩, ⟨false, 0, 1, true, 1, 0, .buf 2⟩],
    hashtable := [⟨false, 0, 0, false, 0, 0, .buf 1⟩, ⟨false, 0, 0, false, 0, 0, .buf 3⟩],
    disk := [] }

/-- The state `late_release` arrives at: slot 0, alone on the list of bucket 0,
is unreferenced with timestamp `2^20`; slot 1, alone on the list of bucket 1,
is unreferenced with timestamp 5. -/
def late_state : BCache :=
  { buf := [⟨false, 0, 0, false, 0, 1048576, .null⟩, ⟨false, 0, 1, false, 0, 5, .null⟩],
    hashtable := [⟨false, 0, 0, false, 0, 0, .buf 0⟩, ⟨false, 0, 0, false, 0, 0, .buf 1⟩],
    disk := [] }

/-- The state after block (0,2) was requested in `late_state`: slot 1 was moved
to the front of the list of bucket 0 and the list of bucket 1 is empty. -/
def late_moved_state : BCache :=
  { buf := [⟨false, 0, 0, false, 0, 1048576, .null⟩, ⟨false, 0, 2, true, 1, 5, .buf 0⟩],
    hashtable := [⟨false, 0, 0, false, 0, 0, .buf 1⟩, ⟨false, 0, 0, false, 0, 0, .null⟩],
    disk := [] }

/-- The state of `three_held` after slots 0, 1 and 2 were released, in that
order, all at tick 7. -/
def three_released_state : BCache :=
  { buf := [⟨false, 0, 2, false, 0, 7, .null⟩, ⟨false, 0, 1, false, 0, 7, .buf 0⟩,
            ⟨false, 0, 0, false, 0, 7, .buf 1⟩],
    hashtable := [⟨false, 0, 0, false, 0, 0, .buf 2⟩],
    disk := [] }

/-- The state `three_held` arrives at. -/
def three_held_state : BCache :=
  { buf := [⟨false, 0, 2, true, 1, 0, .null⟩, ⟨false, 0, 1, true, 1, 0, .buf 0⟩,
            ⟨false, 0, 0, true, 1, 0, .buf 1⟩],
    hashtable := [⟨false, 0, 0, false, 0, 0, .buf 2⟩],
    disk := [] }

/-- A small machine: `KERNBASE` is 8192, the kernel ends at 12288 and physical
memory at 24576, so the pages are 12288, 16384 and 20480 and the
reference-count table has four entries. -/
def small : Layout := { KERNBASE := 8192, PHYSTOP := 24576, kend := 12288 }

/-- An allocator state on the small machine: the free list is the page 12288
alone and every reference count is 0. -/
def one_free : KMem :=
  { freelist := 12288, refCount := [0, 0, 0, 0], mem := fun _ => 0 }

/-- An allocator state on the small machine: the free list is empty and page
12288 has two owners. -/
def two_owners : KMem :=
  { freelist := 0, refCount := [0, 2, 0, 0], mem := fun _ => 0 }

/-- The state `one_free` after the count of its free page was raised to 1. -/
def counted_free : Res KMem := refcnt_incr_n small one_free 12288 1

/-- The state `one_free` after its page was allocated and shared once. -/
def shared_page : Res KMem := do
  let (s, p) ← kalloc small one_free
  refcnt_incr_n small s p 1


/-! ## Buffer cache: reachable states -/

/-- The node `a` is on the list `l` and no node before it has identity
`(dev, blockno)`: a lookup of `(dev, blockno)` along `l` stops at `a` or earlier. -/
def First (s : BCache) (l : List Ptr) (dev blockno : Nat) (a : Ptr) : Prop :=
  ∃ l1 l2, l = l1 ++ a :: l2 ∧ Misses s l1 dev blockno

/-- The caller holds the buffer `b`: it has the buffer's exclusive lock, or the
buffer carries a reference (a pin). -/
def Holds (s : BCache) (b : Ptr) : Prop :=
  ∃ x, s.rd b = .ret x ∧ (x.lock = true ∨ x.refcnt ≠ 0)

/-- The cache states reachable from `binit` (with the given `NBUF`, `NBUCKET`)
by calls of `bget`, `bread`, `brelse`, `bpin` and `bunpin` that return, the
last three only on buffers the caller holds. -/
inductive Reach (NBUF NBUCKET : Nat) : BCache → Prop where
  /-- The state `binit` leaves. -/
  | boot {s : BCache} : binit NBUF NBUCKET = .ret s → Reach NBUF NBUCKET s
  /-- A returning `bget`. -/
  | bget {s s' : BCache} {b : Ptr} (fuel dev blockno : Nat) :
      Reach NBUF NBUCKET s → bget fuel s dev blockno = .ret (s', b) → Reach NBUF NBUCKET s'
  /-- A returning `bread`. -/
  | bread {s s' : BCache} {b : Ptr} (fuel dev blockno : Nat) :
      Reach NBUF NBUCKET s → bread fuel s dev blockno = .ret (s', b) → Reach NBUF NBUCKET s'
  /-- A returning `brelse` of a held buffer. -/
  | brelse {s s' : BCache} (ticks : Nat) (b : Ptr) :
      Reach NBUF NBUCKET s → Holds s b → brelse ticks s b = .ret s' → Reach NBUF NBUCKET s'
  /-- A returning `bpin` of a held buffer. -/
  | bpin {s s' : BCache} (b : Ptr) :
      Reach NBUF NBUCKET s → Holds s b → bpin s b = .ret s' → Reach NBUF NBUCKET s'
  /-- A returning `bunpin` of a held buffer. -/
  | bunpin {s s' : BCache} (b : Ptr) :
      Reach NBUF NBUCKET s → Holds s b → bunpin s b = .ret s' → Reach NBUF NBUCKET s'

/-- The shape of the cache between calls, with `L k` the list of bucket `k`:
every bucket's list is a duplicate-free, null-terminated chain of pool slots
behind a head that carries nothing but its link; no slot is on two lists; a
slot that is referenced or locked is on the list of the bucket its block number
hashes to; and a valid slot is there the first with its identity. The slot `e`
is exempt from the last two (it is being moved); `e` is null between calls. -/
structure CacheInv (NBUF NBUCKET : Nat) (s : BCache) (L : Nat → List Ptr) (e : Ptr) : Prop where
  nbuf : s.NBUF = NBUF
  nbucket : s.NBUCKET = NBUCKET
  lists : ∀ k, k < NBUCKET → ∃ h, s.rd (.head k) = .ret h ∧ h.zeroed ∧
    Seg s h.next (L k) .null ∧ (L k).Nodup ∧ ∀ a ∈ L k, ∃ m, a = .buf m
  disjoint : ∀ k1 k2, k1 < NBUCKET → k2 < NBUCKET → ∀ a, a ∈ L k1 → a ∈ L k2 → k1 = k2
  homed : ∀ m x, .buf m ≠ e → s.rd (.buf m) = .ret x → (x.refcnt ≠ 0 ∨ x.lock = true) →
    ihash NBUCKET x.blockno < NBUCKET ∧ .buf m ∈ L (ihash NBUCKET x.blockno)
  first : ∀ m x, .buf m ≠ e → s.rd (.buf m) = .ret x → x.valid = true →
    ihash NBUCKET x.blockno < NBUCKET ∧
      First s (L (ihash NBUCKET x.blockno)) x.dev x.blockno (.buf m)


/-- A cache with one bucket and two buffers on its list: slot 0 holds block
(0,1), lock free, with the largest `refcnt` a `uint` can hold; slot 1 holds
block (0,2) with its exclusive lock held by the caller. -/
def full_count_state : BCache :=
  { buf := [⟨true, 0, 1, false, 4294967295, 0, .buf 1⟩, ⟨true, 0, 2, true, 1, 0, .null⟩],
    hashtable := [⟨false, 0, 0, false, 0, 0, .buf 0⟩],
    disk := [] }

/-- The state `binit` leaves for `NBUF = 4`, `NBUCKET = 2`: slots 1, 0 on the
list of bucket 0 and slots 3, 2 on the list of bucket 1. -/
def boot_state : BCache :=
  { buf := [⟨false, 0, 0, false, 0, 0, .null⟩, ⟨false, 0, 0, false, 0, 0, .buf 0⟩,
            ⟨false, 0, 0, false, 0, 0, .null⟩, ⟨false, 0, 0, false, 0, 0, .buf 2⟩],
    hashtable := [⟨false, 0, 0, false, 0, 0, .buf 1⟩, ⟨false, 0, 0, false, 0, 0, .buf 3⟩],
    disk := [] }

/-- The state after blocks (1,5) and (1,7) were read in `boot_state`: slots 3
and 2 hold them, valid, locked and referenced once. -/
def two_read_state : BCache :=
  { buf := [⟨false, 0, 0, false, 0, 0, .null⟩, ⟨false, 0, 0, false, 0, 0, .buf 0⟩,
            ⟨true, 1, 7, true, 1, 0, .null⟩, ⟨true, 1, 5, true, 1, 0, .buf 2⟩],
    hashtable := [⟨false, 0, 0, false, 0, 0, .buf 1⟩, ⟨false, 0, 0, false, 0, 0, .buf 3⟩],
    disk := [(.buf 3, 0), (.buf 2, 0)] }


/-! ## Runs that keep the globals at the point where they stop

The routines above pass the globals along and drop them when a routine
panics. To say what a routine had done by the time it panicked, the routines
that check a precondition are given once more as runs. -/

/-- A routine run from the globals `σ`: the globals at the point where it
stopped, and how it stopped. A panic stops the run where it is raised, so the
globals that come with it show every store and driver call made before it. -/
def Run (σ α : Type) : Type := σ → σ × Res α

/-- Sequencing of runs: the second part runs from the globals the first left,
and only if the first returned. -/
def Run.bind {σ α β : Type} (m : Run σ α) (f : α → Run σ β) : Run σ β := fun s =>
  match m s with
  | (s', .ret a) => f a s'
  | (s', .panic msg) => (s', .panic msg)
  | (s', .fault) => (s', .fault)
  | (s', .deadlock) => (s', .deadlock)
  | (s', .fuel) => (s', .fuel)

instance {σ : Type} : Monad (Run σ) where
  pure a := fun s => (s, .ret a)
  bind := Run.bind

/-- An expression evaluated on the globals, which stay as they are. -/
def Run.read {σ α : Type} (f : σ → Res α) : Run σ α := fun s => (s, f s)

/-- A single statement given in state-passing form: when it returns, the
globals are the ones it returns; otherwise it stopped before its store and the
globals stay as they are. -/
def Run.stmt {σ : Type} (f : σ → Res σ) : Run σ Unit := fun s =>
  match f s with
  | .ret s' => (s', .ret ())
  | .panic msg => (s, .panic msg)
  | .fault => (s, .fault)
  | .deadlock => (s, .deadlock)
  | .fuel => (s, .fuel)

/-- The call `panic(msg)`: the run stops with the globals as they are. -/
def Run.panic {σ α : Type} (msg : String) : Run σ α := fun s => (s, .panic msg)

/-- The outcome of a run in state-passing form: the globals it returned with,
or how it stopped. -/
def Run.result {σ : Type} : σ × Res Unit → Res σ
  | (s, .ret _) => .ret s
  | (_, .panic msg) => .panic msg
  | (_, .fault) => .fault
  | (_, .deadlock) => .deadlock
  | (_, .fuel) => .fuel

/-- Source `bwrite`, as a run. -/
def bwrite_run (b : Ptr) : Run BCache Unit := do
  if !(← Run.read (fun s => holdingsleep s b)) then Run.panic "bwrite"
  else Run.stmt (fun s => .ret (virtio_disk_rw s b 1))

/-- Source `brelse`, as a run; `ticks` is the value of the kernel's tick counter. -/
def brelse_run (ticks : Nat) (b : Ptr) : Run BCache Unit := do
  if !(← Run.read (fun s => holdingsleep s b)) then Run.panic "brelse"
  else do
    Run.stmt (fun s => releasesleep s b)
    let x ← Run.read (fun s => s.rd b)
    let index ← Run.read (fun s => .ret (ihash s.NBUCKET x.blockno))
    let held ← Run.read (fun _ => acquire [] (.bucket index))
    Run.stmt (fun s => s.upd b (fun x => { x with refcnt := uint_dec x.refcnt }))
    let x ← Run.read (fun s => s.rd b)
    if x.refcnt = 0 then Run.stmt (fun s => s.upd b (fun x => { x with timestamp := ticks }))
    let _held := release held (.bucket index)
    return ()

/-- Source `kfree`, entered with no spinlock held, as a run. -/
def kfree_run (c : Layout) (pa : Nat) : Run KMem Unit := do
  let held ← Run.read (fun _ => acquire_reflock [])
  let r ← Run.read (fun s => s.ref (ipage c pa))
  if r > 1 then do
    Run.stmt (fun s => .ret (s.setRef (ipage c pa) (r - 1)))
    let _held := release_reflock held
    return ()
  else if pa % PGSIZE ≠ 0 ∨ pa < c.kend ∨ pa ≥ c.PHYSTOP then Run.panic "kfree"
  else do
    Run.stmt (fun s => .ret { s with mem := memset s.mem pa 1 PGSIZE })
    Run.stmt (fun s => .ret (s.setRef (ipage c pa) 0))
    let held := release_reflock held
    let held ← Run.read (fun _ => acquire held .kmem)
    Run.stmt (fun s => .ret { s with mem := store64 s.mem pa s.freelist })
    Run.stmt (fun s => .ret { s with freelist := pa })
    let _held := release held .kmem
    return ()

end OSLab
/-! ## Basic facts -/

namespace OSLab

@[simp] theorem Res.ret_bind {α β : Type} (a : α) (f : α → Res β) :
    (Res.ret a >>= f) = f a := rfl

@[simp] theorem Res.pure_eq {α : Type} (a : α) : (pure a : Res α) = Res.ret a := rfl

@[simp] theorem Res.fuel_bind {α β : Type} (f : α → Res β) :
    ((Res.fuel : Res α) >>= f) = Res.fuel := rfl

@[simp] theorem Res.fault_bind {α β : Type} (f : α → Res β) :
    ((Res.fault : Res α) >>= f) = Res.fault := rfl

@[simp] theorem Res.deadlock_bind {α β : Type} (f : α → Res β) :
    ((Res.deadlock : Res α) >>= f) = Res.deadlock := rfl

@[simp] theorem Res.panic_bind {α β : Type} (m : String) (f : α → Res β) :
    ((Res.panic m : Res α) >>= f) = Res.panic m := rfl

/-- A sequenced run returns only if its first part returned. -/
theorem Res.bind_eq_ret {α β : Type} {r : Res α} {f : α → Res β} {b : β}
    (h : (r >>= f) = Res.ret b) : ∃ a, r = Res.ret a ∧ f a = Res.ret b := by
  cases r with
  | ret a => exact ⟨a, rfl, h⟩
  | panic m => cases h
  | fault => cases h
  | deadlock => cases h
  | fuel => cases h

/-- Reading after a store: the stored slot holds the new value, every other
slot is unchanged. -/
theorem rd_set (s : BCache) (p q : Ptr) (x v : Buf) (h : s.rd p = .ret x) :
    (s.set p v).rd q = if q = p then .ret v else s.rd q := by
  cases p with
  | null => simp [BCache.rd] at h
  | head k =>
    cases q with
    | null => simp [BCache.rd, BCache.set]
    | buf i => simp [BCache.rd, BCache.set]
    | head j =>
      simp only [BCache.rd, BCache.set] at h ⊢
      by_cases hjk : j = k
      · subst hjk
        cases hk : s.hashtable[j]? with
        | none => simp [hk] at h
        | some y =>
          have : j < s.hashtable.length := by
            by_contra hc
            rw [List.getElem?_eq_none (by omega)] at hk
            cases hk
          simp [List.getElem?_set_self this]
      · have : k ≠ j := fun e => hjk e.symm
        simp [List.getElem?_set_ne this, hjk]
  | buf k =>
    cases q with
    | null => simp [BCache.rd, BCache.set]
    | head i => simp [BCache.rd, BCache.set]
    | buf j =>
      simp only [BCache.rd, BCache.set] at h ⊢
      by_cases hjk : j = k
      · subst hjk
        cases hk : s.buf[j]? with
        | none => simp [hk] at h
        | some y =>
          have : j < s.buf.length := by
            by_contra hc
            rw [List.getElem?_eq_none (by omega)] at hk
            cases hk
          simp [List.getElem?_set_self this]
      · have : k ≠ j := fun e => hjk e.symm
        simp [List.getElem?_set_ne this, hjk]

theorem rd_set_self (s : BCache) (p : Ptr) (x v : Buf) (h : s.rd p = .ret x) :
    (s.set p v).rd p = .ret v := by
  rw [rd_set s p p x v h]; simp

theorem rd_set_ne (s : BCache) (p q : Ptr) (x v : Buf) (h : s.rd p = .ret x) (hq : q ≠ p) :
    (s.set p v).rd q = s.rd q := by
  rw [rd_set s p q x v h]; simp [hq]

theorem upd_eq (s : BCache) (p : Ptr) (f : Buf → Buf) (x : Buf) (h : s.rd p = .ret x) :
    s.upd p f = .ret (s.set p (f x)) := by
  simp [BCache.upd, h]

/-- An update returns only the stored state. -/
theorem upd_ret {s s' : BCache} {p : Ptr} {f : Buf → Buf} (h : s.upd p f = .ret s') :
    ∃ x, s.rd p = .ret x ∧ s' = s.set p (f x) := by
  unfold BCache.upd at h
  cases hx : s.rd p with
  | ret x => rw [hx] at h; exact ⟨x, rfl, by cases h; rfl⟩
  | panic m => rw [hx] at h; cases h
  | fault => rw [hx] at h; cases h
  | deadlock => rw [hx] at h; cases h
  | fuel => rw [hx] at h; cases h

@[simp] theorem NBUCKET_set (s : BCache) (p : Ptr) (v : Buf) :
    (s.set p v).NBUCKET = s.NBUCKET := by
  cases p <;> simp [BCache.set, BCache.NBUCKET]

@[simp] theorem NBUF_set (s : BCache) (p : Ptr) (v : Buf) : (s.set p v).NBUF = s.NBUF := by
  cases p <;> simp [BCache.set, BCache.NBUF]

@[simp] theorem disk_set (s : BCache) (p : Ptr) (v : Buf) : (s.set p v).disk = s.disk := by
  cases p <;> rfl

/-- A read returns only a value or a fault. -/
theorem rd_cases (s : BCache) (p : Ptr) : (∃ x, s.rd p = .ret x) ∨ s.rd p = .fault := by
  cases p with
  | null => right; rfl
  | head k =>
    simp only [BCache.rd]
    cases s.hashtable[k]? with
    | none => right; rfl
    | some b => left; exact ⟨b, rfl⟩
  | buf k =>
    simp only [BCache.rd]
    cases s.buf[k]? with
    | none => right; rfl
    | some b => left; exact ⟨b, rfl⟩

theorem rd_null (s : BCache) : s.rd .null = .fault := rfl

/-! ## The pool scan and the outer loop of `loop_find` -/

/-- With every slot referenced the pool scan selects nothing. -/
theorem loop_find_scan_all_held (bufs : List Buf) (h : ∀ x ∈ bufs, x.refcnt ≠ 0)
    (i : Nat) (lru_buf : Ptr) (min_stamp : Nat) :
    loop_find_scan i bufs lru_buf min_stamp = (lru_buf, min_stamp) := by
  induction bufs generalizing i with
  | nil => rfl
  | cons x xs ih =>
    have hx : x.refcnt ≠ 0 := h x (List.mem_cons_self _ _)
    simp only [loop_find_scan, hx, false_and, if_false]
    exact ih (fun y hy => h y (List.mem_cons_of_mem _ hy)) (i + 1)

/-- With every slot referenced `loop_find` started on a null candidate is
still running after any number of rounds. -/
theorem loop_find_all_held (fuel : Nat) (s : BCache) (held : List Lock)
    (h : ∀ x ∈ s.buf, x.refcnt ≠ 0) (min_stamp : Nat) (n : Nat) :
    loop_find fuel s held n .null min_stamp = .fuel := by
  induction n with
  | zero => rfl
  | succ n ih =>
    simp only [loop_find, loop_find_scan_all_held s.buf h]
    simpa using ih

/-- Whenever `loop_find` returns, it returns a non-null buffer. -/
theorem loop_find_ne_null (fuel : Nat) (s : BCache) (n : Nat) :
    ∀ (held : List Lock) (lru_buf : Ptr) (min_stamp : Nat) (r : BCache × List Lock × Ptr),
      loop_find fuel s held n lru_buf min_stamp = .ret r → r.2.2 ≠ .null := by
  induction n with
  | zero => intro held lru_buf min_stamp r h; cases h
  | succ n ih =>
    intro held lru_buf min_stamp r h
    simp only [loop_find] at h
    split at h
    next hne =>
      obtain ⟨v, _, h⟩ := Res.bind_eq_ret h
      obtain ⟨held', _, h⟩ := Res.bind_eq_ret h
      split at h
      · exact ih _ _ _ _ h
      · obtain ⟨h0, _, h⟩ := Res.bind_eq_ret h
        obtain ⟨w, _, h⟩ := Res.bind_eq_ret h
        obtain ⟨x, _, h⟩ := Res.bind_eq_ret h
        obtain ⟨s', _, h⟩ := Res.bind_eq_ret h
        cases h
        exact hne
    next => exact ih _ _ _ _ h

/-! ## No routine of the lookup path panics -/

/-- A sequenced run panics only if one of its parts does. -/
theorem Res.bind_eq_panic {α β : Type} {r : Res α} {f : α → Res β} {m : String}
    (h : (r >>= f) = Res.panic m) : r = Res.panic m ∨ ∃ a, r = Res.ret a ∧ f a = Res.panic m := by
  cases r with
  | ret a => exact Or.inr ⟨a, rfl, h⟩
  | panic m' => left; simpa using h
  | fault => cases h
  | deadlock => cases h
  | fuel => cases h

theorem rd_ne_panic (s : BCache) (p : Ptr) (m : String) : s.rd p ≠ .panic m := by
  rcases rd_cases s p with ⟨x, hx⟩ | hx <;> simp [hx]

theorem upd_ne_panic (s : BCache) (p : Ptr) (f : Buf → Buf) (m : String) :
    s.upd p f ≠ .panic m := by
  unfold BCache.upd
  split <;> simp

theorem acquire_ne_panic (held : List Lock) (l : Lock) (m : String) :
    acquire held l ≠ .panic m := by
  unfold acquire
  split <;> simp

theorem bget_scan_ne_panic (s : BCache) (dev blockno : Nat) (m : String) (n : Nat) :
    ∀ b, bget_scan s dev blockno n b ≠ .panic m := by
  induction n with
  | zero => intro b; simp [bget_scan]
  | succ n ih =>
    intro b h
    cases b with
    | null => simp [bget_scan] at h
    | head k =>
      simp only [bget_scan] at h
      rcases Res.bind_eq_panic h with h | ⟨x, _, h⟩
      · exact rd_ne_panic _ _ _ h
      · split at h
        · cases h
        · exact ih _ h
    | buf k =>
      simp only [bget_scan] at h
      rcases Res.bind_eq_panic h with h | ⟨x, _, h⟩
      · exact rd_ne_panic _ _ _ h
      · split at h
        · cases h
        · exact ih _ h

theorem bget_lru_ne_panic (s : BCache) (m : String) (n : Nat) :
    ∀ b lru_buf min_stamp, bget_lru s n b lru_buf min_stamp ≠ .panic m := by
  induction n with
  | zero => intro b l k; simp [bget_lru]
  | succ n ih =>
    intro b l k h
    cases b with
    | null => simp [bget_lru] at h
    | head j =>
      simp only [bget_lru] at h
      rcases Res.bind_eq_panic h with h | ⟨x, _, h⟩
      · exact rd_ne_panic _ _ _ h
      · split at h <;> exact ih _ _ _ h
    | buf j =>
      simp only [bget_lru] at h
      rcases Res.bind_eq_panic h with h | ⟨x, _, h⟩
      · exact rd_ne_panic _ _ _ h
      · split at h <;> exact ih _ _ _ h

theorem loop_find_walk_ne_panic (s : BCache) (lru_buf : Ptr) (m : String) (n : Nat) :
    ∀ pre p, loop_find_walk s lru_buf n pre p ≠ .panic m := by
  induction n with
  | zero => intro pre p; simp [loop_find_walk]
  | succ n ih =>
    intro pre p h
    simp only [loop_find_walk] at h
    split at h
    · cases h
    · rcases Res.bind_eq_panic h with h | ⟨x, _, h⟩
      · exact rd_ne_panic _ _ _ h
      · rcases Res.bind_eq_panic h with h | ⟨y, _, h⟩
        · exact rd_ne_panic _ _ _ h
        · exact ih _ _ h

theorem loop_find_ne_panic (fuel : Nat) (s : BCache) (m : String) (n : Nat) :
    ∀ held lru_buf min_stamp, loop_find fuel s held n lru_buf min_stamp ≠ .panic m := by
  induction n with
  | zero => intro held l k; simp [loop_find]
  | succ n ih =>
    intro held l k h
    simp only [loop_find] at h
    split at h
    · rcases Res.bind_eq_panic h with h | ⟨v, _, h⟩
      · exact rd_ne_panic _ _ _ h
      · rcases Res.bind_eq_panic h with h | ⟨held', _, h⟩
        · exact acquire_ne_panic _ _ _ h
        · split at h
          · exact ih _ _ _ h
          · rcases Res.bind_eq_panic h with h | ⟨h0, _, h⟩
            · exact rd_ne_panic _ _ _ h
            · rcases Res.bind_eq_panic h with h | ⟨w, _, h⟩
              · exact loop_find_walk_ne_panic _ _ _ _ _ _ h
              · rcases Res.bind_eq_panic h with h | ⟨x, _, h⟩
                · exact rd_ne_panic _ _ _ h
                · rcases Res.bind_eq_panic h with h | ⟨s', _, h⟩
                  · exact upd_ne_panic _ _ _ _ h
                  · cases h
    · exact ih _ _ _ h

theorem acquiresleep_ne_panic (s : BCache) (b : Ptr) (m : String) :
    acquiresleep s b ≠ .panic m := by
  intro h
  simp only [acquiresleep] at h
  rcases Res.bind_eq_panic h with h | ⟨x, _, h⟩
  · exact rd_ne_panic _ _ _ h
  · split at h
    · cases h
    · exact upd_ne_panic _ _ _ _ h

theorem bget_find_ne_panic (s : BCache) (held : List Lock) (lru_buf : Ptr) (dev blockno : Nat)
    (m : String) : bget_find s held lru_buf dev blockno ≠ .panic m := by
  intro h
  simp only [bget_find] at h
  rcases Res.bind_eq_panic h with h | ⟨s1, _, h⟩
  · exact upd_ne_panic _ _ _ _ h
  · rcases Res.bind_eq_panic h with h | ⟨s2, _, h⟩
    · exact acquiresleep_ne_panic _ _ _ h
    · cases h

/-- The lookup `bget` never panics: the call `panic("bget: no buffers")` is
not reachable, because `loop_find` only ever returns a buffer. -/
theorem bget_ne_panic (fuel : Nat) (s : BCache) (dev blockno : Nat) (m : String) :
    bget fuel s dev blockno ≠ .panic m := by
  intro h
  simp only [bget] at h
  rcases Res.bind_eq_panic h with h | ⟨held, _, h⟩
  · exact acquire_ne_panic _ _ _ h
  rcases Res.bind_eq_panic h with h | ⟨h0, _, h⟩
  · exact rd_ne_panic _ _ _ h
  rcases Res.bind_eq_panic h with h | ⟨b, _, h⟩
  · exact bget_scan_ne_panic _ _ _ _ _ _ h
  split at h
  · rcases Res.bind_eq_panic h with h | ⟨s1, _, h⟩
    · exact upd_ne_panic _ _ _ _ h
    · rcases Res.bind_eq_panic h with h | ⟨s2, _, h⟩
      · exact acquiresleep_ne_panic _ _ _ h
      · cases h
  · rcases Res.bind_eq_panic h with h | ⟨r, _, h⟩
    · exact bget_lru_ne_panic _ _ _ _ _ _ h
    split at h
    · exact bget_find_ne_panic _ _ _ _ _ _ h
    · rcases Res.bind_eq_panic h with h | ⟨held', _, h⟩
      · exact acquire_ne_panic _ _ _ h
      rcases Res.bind_eq_panic h with h | ⟨r', hr', h⟩
      · exact loop_find_ne_panic _ _ _ _ _ _ _ h
      split at h
      · rcases Res.bind_eq_panic h with h | ⟨h1, _, h⟩
        · exact rd_ne_panic _ _ _ h
        rcases Res.bind_eq_panic h with h | ⟨s1, _, h⟩
        · exact upd_ne_panic _ _ _ _ h
        rcases Res.bind_eq_panic h with h | ⟨s2, _, h⟩
        · exact upd_ne_panic _ _ _ _ h
        exact bget_find_ne_panic _ _ _ _ _ _ h
      · next hnull =>
        exact hnull (loop_find_ne_null _ _ _ _ _ _ _ hr')

end OSLab

/-! ## List segments and the two scans of `bget` -/

namespace OSLab

theorem seg_cons {s : BCache} {p a q : Ptr} {l : List Ptr} :
    Seg s p (a :: l) q ↔ p = a ∧ a ≠ .null ∧ ∃ x, s.rd a = .ret x ∧ Seg s x.next l q := by
  simp only [Seg]
  constructor
  · rintro ⟨h1, h2, h3⟩
    refine ⟨h1, h2, ?_⟩
    split at h3
    next x hx => exact ⟨x, hx, h3⟩
    next => exact h3.elim
  · rintro ⟨h1, h2, x, hx, h3⟩
    refine ⟨h1, h2, ?_⟩
    rw [hx]
    exact h3

/-- A segment survives any change of state that keeps the `next` link of each
of its nodes. -/
theorem seg_congr {s s' : BCache} {l : List Ptr} :
    ∀ {p q : Ptr}, Seg s p l q →
      (∀ a ∈ l, ∀ x, s.rd a = .ret x → ∃ y, s'.rd a = .ret y ∧ y.next = x.next) →
      Seg s' p l q := by
  induction l with
  | nil => intro p q h _; exact h
  | cons a l ih =>
    intro p q h hs
    obtain ⟨h1, h2, x, hx, h3⟩ := seg_cons.mp h
    obtain ⟨y, hy, hyx⟩ := hs a (List.mem_cons_self _ _) x hx
    refine seg_cons.mpr ⟨h1, h2, y, hy, ?_⟩
    rw [hyx]
    exact ih h3 (fun b hb => hs b (List.mem_cons_of_mem _ hb))

/-- The prefix of a segment up to the first occurrence of one of its nodes. -/
theorem seg_to_mem {s : BCache} {l : List Ptr} {v : Ptr} :
    ∀ {p q : Ptr}, Seg s p l q → v ∈ l →
      ∃ l1, Seg s p l1 v ∧ v ∉ l1 ∧ l1.length < l.length ∧ (∀ a ∈ l1, a ∈ l) ∧
        ∃ x, s.rd v = .ret x := by
  induction l with
  | nil => intro p q _ hv; cases hv
  | cons a l ih =>
    intro p q h hv
    obtain ⟨h1, h2, x, hx, h3⟩ := seg_cons.mp h
    by_cases hav : v = a
    · subst hav
      exact ⟨[], h1, by simp, by simp, by simp, x, hx⟩
    · have hvl : v ∈ l := by
        cases hv with
        | head => exact (hav rfl).elim
        | tail _ h => exact h
      obtain ⟨l1, hl1, hn, hlen, hsub, y, hy⟩ := ih h3 hvl
      refine ⟨a :: l1, seg_cons.mpr ⟨h1, h2, x, hx, hl1⟩, ?_, by simpa using hlen, ?_, y, hy⟩
      · simp only [List.mem_cons, not_or]
        exact ⟨hav, hn⟩
      · intro b hb
        cases hb with
        | head => exact List.mem_cons_self _ _
        | tail _ h => exact List.mem_cons_of_mem _ (hsub b h)

theorem bget_scan_step (s : BCache) (dev blockno n : Nat) (b : Ptr) (x : Buf)
    (hx : s.rd b = .ret x) :
    bget_scan s dev blockno (n + 1) b =
      if x.dev = dev ∧ x.blockno = blockno then .ret b else bget_scan s dev blockno n x.next := by
  cases b with
  | null => cases hx
  | head k => simp only [bget_scan, hx]; rfl
  | buf k => simp only [bget_scan, hx]; rfl

theorem bget_lru_step (s : BCache) (n : Nat) (b lru_buf : Ptr) (min_stamp : Nat) (x : Buf)
    (hx : s.rd b = .ret x) :
    bget_lru s (n + 1) b lru_buf min_stamp =
      if x.refcnt = 0 ∧ x.timestamp < min_stamp then bget_lru s n x.next b x.timestamp
      else bget_lru s n x.next lru_buf min_stamp := by
  cases b with
  | null => cases hx
  | head k => simp only [bget_lru, hx]; rfl
  | buf k => simp only [bget_lru, hx]; rfl

/-- The lookup scan along a segment whose nodes all miss continues from the
segment's end with the budget that is left. -/
theorem bget_scan_seg (s : BCache) (dev blockno : Nat) (l : List Ptr) :
    ∀ (p q : Ptr) (n : Nat), Seg s p l q → Misses s l dev blockno →
      bget_scan s dev blockno (n + l.length) p = bget_scan s dev blockno n q := by
  induction l with
  | nil => intro p q n h _; cases h; rfl
  | cons a l ih =>
    intro p q n h hm
    obtain ⟨h1, h2, x, hx, h3⟩ := seg_cons.mp h
    subst h1
    have hne : ¬ (x.dev = dev ∧ x.blockno = blockno) := hm p (List.mem_cons_self _ _) x hx
    have : n + (p :: l).length = (n + l.length) + 1 := by simp; omega
    rw [this, bget_scan_step s dev blockno _ p x hx, if_neg hne]
    exact ih _ _ _ h3 (fun b hb => hm b (List.mem_cons_of_mem _ hb))

/-- A lookup along a null-terminated list whose nodes all miss returns null. -/
theorem bget_scan_miss (s : BCache) (dev blockno fuel : Nat) (l : List Ptr) (p : Ptr)
    (h : Seg s p l .null) (hm : Misses s l dev blockno) (hf : l.length < fuel) :
    bget_scan s dev blockno fuel p = .ret .null := by
  obtain ⟨n, rfl⟩ : ∃ n, fuel = (n + 1) + l.length := ⟨fuel - l.length - 1, by omega⟩
  rw [bget_scan_seg s dev blockno l p .null (n + 1) h hm]
  rfl

/-- A lookup returns the first node of the list that has the identity. -/
theorem bget_scan_hit (s : BCache) (dev blockno fuel : Nat) (l : List Ptr) (p b : Ptr) (x : Buf)
    (h : Seg s p l b) (hm : Misses s l dev blockno) (hx : s.rd b = .ret x)
    (hid : x.is dev blockno) (hf : l.length < fuel) :
    bget_scan s dev blockno fuel p = .ret b := by
  obtain ⟨n, rfl⟩ : ∃ n, fuel = (n + 1) + l.length := ⟨fuel - l.length - 1, by omega⟩
  rw [bget_scan_seg s dev blockno l p b (n + 1) h hm, bget_scan_step s dev blockno n b x hx]
  exact if_pos hid

/-- What a lookup that returned has seen: the nodes before the returned one
all miss, and the returned one is null or has the identity. -/
theorem bget_scan_ret (s : BCache) (dev blockno : Nat) (fuel : Nat) :
    ∀ (p b : Ptr), bget_scan s dev blockno fuel p = .ret b →
      ∃ l, Seg s p l b ∧ Misses s l dev blockno ∧ l.length < fuel ∧
        (b = .null ∨ ∃ x, s.rd b = .ret x ∧ x.is dev blockno) := by
  induction fuel with
  | zero => intro p b h; cases h
  | succ n ih =>
    intro p b h
    by_cases hp : p = .null
    · subst hp
      simp only [bget_scan] at h
      cases h
      refine ⟨[], ?_, ?_, ?_, Or.inl rfl⟩
      · exact rfl
      · intro a ha; cases ha
      · simp
    · rcases rd_cases s p with ⟨x, hx⟩ | hx
      · rw [bget_scan_step s dev blockno n p x hx] at h
        split at h
        next hid =>
          cases h
          refine ⟨[], ?_, ?_, ?_, Or.inr ⟨x, hx, hid⟩⟩
          · exact rfl
          · intro a ha; cases ha
          · simp
        next hid =>
          obtain ⟨l, hl, hm, hlen, hb⟩ := ih _ _ h
          refine ⟨p :: l, seg_cons.mpr ⟨rfl, hp, x, hx, hl⟩, ?_, by simpa using hlen, hb⟩
          intro a ha y hy
          cases ha with
          | head => rw [hx] at hy; cases hy; exact hid
          | tail _ ha => exact hm a ha y hy
      · cases p with
        | null => exact (hp rfl).elim
        | head k => simp only [bget_scan, hx] at h; cases h
        | buf k => simp only [bget_scan, hx] at h; cases h

/-- The victim scan along a null-terminated list with no eligible node keeps
its running candidate. -/
theorem bget_lru_none (s : BCache) (l : List Ptr) :
    ∀ (p lru_buf : Ptr) (min_stamp fuel : Nat), Seg s p l .null → l.length < fuel →
      (∀ a ∈ l, ∀ x, s.rd a = .ret x → ¬ (x.refcnt = 0 ∧ x.timestamp < min_stamp)) →
      bget_lru s fuel p lru_buf min_stamp = .ret (lru_buf, min_stamp) := by
  induction l with
  | nil =>
    intro p lru_buf min_stamp fuel h hf _
    cases h
    obtain ⟨n, rfl⟩ : ∃ n, fuel = n + 1 := ⟨fuel - 1, by simp at hf; omega⟩
    rfl
  | cons a l ih =>
    intro p lru_buf min_stamp fuel h hf hno
    obtain ⟨h1, h2, x, hx, h3⟩ := seg_cons.mp h
    subst h1
    obtain ⟨n, rfl⟩ : ∃ n, fuel = n + 1 := ⟨fuel - 1, by simp at hf; omega⟩
    rw [bget_lru_step s n p lru_buf min_stamp x hx, if_neg (hno p (List.mem_cons_self _ _) x hx)]
    exact ih _ _ _ _ h3 (by simpa using hf) (fun b hb => hno b (List.mem_cons_of_mem _ hb))

/-- The victim scan selects the node `v` when `v` is unreferenced and every
other unreferenced node of the list carries a strictly larger timestamp. -/
theorem bget_lru_unique (s : BCache) (v : Ptr) (xv : Buf) (hv : s.rd v = .ret xv)
    (hv0 : xv.refcnt = 0) (l : List Ptr) :
    ∀ (p lru_buf : Ptr) (min_stamp fuel : Nat), Seg s p l .null → l.length < fuel →
      (∀ a ∈ l, ∀ x, s.rd a = .ret x → x.refcnt = 0 → a = v ∨ xv.timestamp < x.timestamp) →
      ((v ∈ l ∧ xv.timestamp < min_stamp) ∨ (lru_buf = v ∧ min_stamp = xv.timestamp)) →
      bget_lru s fuel p lru_buf min_stamp = .ret (v, xv.timestamp) := by
  induction l with
  | nil =>
    intro p lru_buf min_stamp fuel h hf _ hc
    cases h
    obtain ⟨n, rfl⟩ : ∃ n, fuel = n + 1 := ⟨fuel - 1, by simp at hf; omega⟩
    rcases hc with ⟨hm, _⟩ | ⟨h1, h2⟩
    · cases hm
    · subst h1 h2; rfl
  | cons a l ih =>
    intro p lru_buf min_stamp fuel h hf hothers hc
    obtain ⟨h1, h2, x, hx, h3⟩ := seg_cons.mp h
    subst h1
    obtain ⟨n, rfl⟩ : ∃ n, fuel = n + 1 := ⟨fuel - 1, by simp at hf; omega⟩
    have hf' : l.length < n := by simpa using hf
    have hothers' : ∀ a ∈ l, ∀ x, s.rd a = .ret x → x.refcnt = 0 →
        a = v ∨ xv.timestamp < x.timestamp :=
      fun b hb => hothers b (List.mem_cons_of_mem _ hb)
    rw [bget_lru_step s n p lru_buf min_stamp x hx]
    split
    next hsel =>
      rcases hothers p (List.mem_cons_self _ _) x hx hsel.1 with hpv | hlt
      · subst hpv
        rw [hv] at hx; cases hx
        exact ih _ _ _ _ h3 hf' hothers' (Or.inr ⟨rfl, rfl⟩)
      · rcases hc with ⟨hm, _⟩ | ⟨_, h2⟩
        · have hpv : p ≠ v := by
            intro e; subst e; rw [hv] at hx; cases hx; omega
          have : v ∈ l := by
            cases hm with
            | head => exact (hpv rfl).elim
            | tail _ h => exact h
          exact ih _ _ _ _ h3 hf' hothers' (Or.inl ⟨this, hlt⟩)
        · omega
    next hsel =>
      rcases hc with ⟨hm, hlt⟩ | hc
      · have hpv : p ≠ v := by
          intro e; subst e; rw [hv] at hx; cases hx; exact hsel ⟨hv0, hlt⟩
        have : v ∈ l := by
          cases hm with
          | head => exact (hpv rfl).elim
          | tail _ h => exact h
        exact ih _ _ _ _ h3 hf' hothers' (Or.inl ⟨this, hlt⟩)
      · exact ih _ _ _ _ h3 hf' hothers' (Or.inr hc)

/-- The victim scan returns its initial candidate or a node of the list. -/
theorem bget_lru_mem (s : BCache) (l : List Ptr) :
    ∀ (p lru_buf v : Ptr) (min_stamp m fuel : Nat), Seg s p l .null →
      bget_lru s fuel p lru_buf min_stamp = .ret (v, m) → v = lru_buf ∨ v ∈ l := by
  induction l with
  | nil =>
    intro p lru_buf v min_stamp m fuel h hr
    cases h
    cases fuel with
    | zero => cases hr
    | succ n => simp only [bget_lru] at hr; cases hr; exact Or.inl rfl
  | cons a l ih =>
    intro p lru_buf v min_stamp m fuel h hr
    obtain ⟨h1, h2, x, hx, h3⟩ := seg_cons.mp h
    subst h1
    cases fuel with
    | zero => cases hr
    | succ n =>
      rw [bget_lru_step s n p lru_buf min_stamp x hx] at hr
      split at hr
      · rcases ih _ _ _ _ _ _ h3 hr with h | h
        · exact Or.inr (h ▸ List.mem_cons_self _ _)
        · exact Or.inr (List.mem_cons_of_mem _ h)
      · rcases ih _ _ _ _ _ _ h3 hr with h | h
        · exact Or.inl h
        · exact Or.inr (List.mem_cons_of_mem _ h)

end OSLab

/-! ## The three paths of `bget` -/

namespace OSLab

/-- Reading after two stores to the same slot. -/
theorem rd_set_set (s : BCache) (p q : Ptr) (x v w : Buf) (h : s.rd p = .ret x) :
    ((s.set p v).set p w).rd q = if q = p then .ret w else s.rd q := by
  rw [rd_set (s.set p v) p q v w (rd_set_self s p x v h)]
  split
  · rfl
  · next hq => exact rd_set_ne s p q x v h hq

theorem acquire_nil (l : Lock) : acquire [] l = .ret [l] := by
  simp [acquire]

/-- The label `find:` on a readable buffer: the claimed buffer is returned. -/
theorem bget_find_eq (s : BCache) (held : List Lock) (v : Ptr) (dev blockno : Nat) (x : Buf)
    (hx : s.rd v = .ret x) (hlk : x.lock = false) :
    bget_find s held v dev blockno =
      .ret ((s.set v (x.recycled dev blockno)).set v (x.claim dev blockno), v) := by
  simp only [bget_find, acquiresleep, upd_eq s v _ x hx, Res.ret_bind,
    rd_set_self s v x _ hx, hlk, Bool.false_eq_true, if_false,
    upd_eq _ v _ _ (rd_set_self s v x _ hx), Res.pure_eq, Buf.recycled, Buf.claim]

/-- The label `find:` on a buffer whose exclusive lock is held: the caller
waits for the lock. -/
theorem bget_find_held (s : BCache) (held : List Lock) (v : Ptr) (dev blockno : Nat) (x : Buf)
    (hx : s.rd v = .ret x) (hlk : x.lock = true) :
    bget_find s held v dev blockno = .deadlock := by
  simp only [bget_find, acquiresleep, upd_eq s v _ x hx, Res.ret_bind,
    rd_set_self s v x _ hx, hlk, if_true]
  rfl

/-- The hit path of `bget`. -/
theorem bget_hit (fuel : Nat) (s : BCache) (dev blockno : Nat) (h x : Buf) (b : Ptr)
    (hh : s.rd (.head (ihash s.NBUCKET blockno)) = .ret h)
    (hs : bget_scan s dev blockno fuel h.next = .ret b) (hb : b ≠ .null)
    (hx : s.rd b = .ret x) (hlk : x.lock = false) :
    bget fuel s dev blockno =
      .ret ((s.set b { x with refcnt := (x.refcnt + 1) % 2 ^ 32 }).set b x.hit, b) := by
  simp only [bget, acquire_nil, Res.ret_bind, hh, hs, hb, ne_eq, not_false_eq_true, if_true,
    acquiresleep, upd_eq s b _ x hx, rd_set_self s b x _ hx, hlk, Bool.false_eq_true, if_false,
    upd_eq _ b _ _ (rd_set_self s b x _ hx), Res.pure_eq, Buf.hit]

/-- The hit path of `bget` on a buffer whose exclusive lock is held: the
reference is taken and the caller waits for the lock. -/
theorem bget_hit_held (fuel : Nat) (s : BCache) (dev blockno : Nat) (h x : Buf) (b : Ptr)
    (hh : s.rd (.head (ihash s.NBUCKET blockno)) = .ret h)
    (hs : bget_scan s dev blockno fuel h.next = .ret b) (hb : b ≠ .null)
    (hx : s.rd b = .ret x) (hlk : x.lock = true) :
    bget fuel s dev blockno = .deadlock := by
  simp only [bget, acquire_nil, Res.ret_bind, hh, hs, hb, ne_eq, not_false_eq_true, if_true,
    acquiresleep, upd_eq s b _ x hx, rd_set_self s b x _ hx, hlk]
  rfl

/-- The miss path of `bget`: the victim scan, then `find:` or `loop_find`. -/
theorem bget_miss (fuel : Nat) (s : BCache) (dev blockno : Nat) (h : Buf)
    (hh : s.rd (.head (ihash s.NBUCKET blockno)) = .ret h)
    (hs : bget_scan s dev blockno fuel h.next = .ret .null) :
    bget fuel s dev blockno =
      (bget_lru s fuel h.next .null (1 <<< 20) >>= fun r =>
        if r.1 ≠ .null then
          bget_find s [.bucket (ihash s.NBUCKET blockno)] r.1 dev blockno
        else
          loop_find fuel s [.bcache, .bucket (ihash s.NBUCKET blockno)] fuel r.1 (1 <<< 20) >>=
          fun r =>
            if r.2.2 ≠ .null then do
              let h ← r.1.rd (.head (ihash s.NBUCKET blockno))
              let s1 ← r.1.upd r.2.2 (fun x => { x with next := h.next })
              let s2 ← s1.upd (.head (ihash s.NBUCKET blockno)) (fun x => { x with next := r.2.2 })
              bget_find s2 (release r.2.1 .bcache) r.2.2 dev blockno
            else .panic "bget: no buffers") := by
  simp only [bget, acquire_nil, Res.ret_bind, hh, hs, ne_eq, not_true_eq_false, if_false,
    acquire, List.mem_singleton, reduceCtorEq]
  rfl

/-- The local path of `bget`: a miss served from the bucket's own list. -/
theorem bget_local (fuel : Nat) (s : BCache) (dev blockno : Nat) (h x : Buf) (v : Ptr) (m : Nat)
    (hh : s.rd (.head (ihash s.NBUCKET blockno)) = .ret h)
    (hs : bget_scan s dev blockno fuel h.next = .ret .null)
    (hl : bget_lru s fuel h.next .null (1 <<< 20) = .ret (v, m)) (hv : v ≠ .null)
    (hx : s.rd v = .ret x) (hlk : x.lock = false) :
    bget fuel s dev blockno =
      .ret ((s.set v (x.recycled dev blockno)).set v (x.claim dev blockno), v) := by
  simp only [bget, acquire_nil, Res.ret_bind, hh, hs, ne_eq, not_true_eq_false, if_false, hl, hv,
    not_false_eq_true, if_true]
  exact bget_find_eq s _ v dev blockno x hx hlk

/-- The local path of `bget` on a victim whose exclusive lock is held. -/
theorem bget_local_held (fuel : Nat) (s : BCache) (dev blockno : Nat) (h x : Buf) (v : Ptr)
    (m : Nat) (hh : s.rd (.head (ihash s.NBUCKET blockno)) = .ret h)
    (hs : bget_scan s dev blockno fuel h.next = .ret .null)
    (hl : bget_lru s fuel h.next .null (1 <<< 20) = .ret (v, m)) (hv : v ≠ .null)
    (hx : s.rd v = .ret x) (hlk : x.lock = true) :
    bget fuel s dev blockno = .deadlock := by
  simp only [bget, acquire_nil, Res.ret_bind, hh, hs, ne_eq, not_true_eq_false, if_false, hl, hv,
    not_false_eq_true, if_true]
  exact bget_find_held s _ v dev blockno x hx hlk

/-- A returning `find:` found the lock of the buffer free. -/
theorem bget_find_ret (s : BCache) (held : List Lock) (v : Ptr) (dev blockno : Nat) (x : Buf)
    (r : BCache × Ptr) (hx : s.rd v = .ret x) (h : bget_find s held v dev blockno = .ret r) :
    x.lock = false ∧
      r = ((s.set v (x.recycled dev blockno)).set v (x.claim dev blockno), v) := by
  by_cases hlk : x.lock = true
  · rw [bget_find_held s held v dev blockno x hx hlk] at h; cases h
  · have hlk' : x.lock = false := by simpa using hlk
    rw [bget_find_eq s held v dev blockno x hx hlk'] at h; cases h; exact ⟨hlk', rfl⟩

/-- A returning hit found the lock of the buffer free. -/
theorem bget_hit_ret (fuel : Nat) (s : BCache) (dev blockno : Nat) (h x : Buf) (b : Ptr)
    (r : BCache × Ptr) (hh : s.rd (.head (ihash s.NBUCKET blockno)) = .ret h)
    (hs : bget_scan s dev blockno fuel h.next = .ret b) (hb : b ≠ .null)
    (hx : s.rd b = .ret x) (hr : bget fuel s dev blockno = .ret r) :
    x.lock = false ∧
      r = ((s.set b { x with refcnt := (x.refcnt + 1) % 2 ^ 32 }).set b x.hit, b) := by
  by_cases hlk : x.lock = true
  · rw [bget_hit_held fuel s dev blockno h x b hh hs hb hx hlk] at hr; cases hr
  · have hlk' : x.lock = false := by simpa using hlk
    rw [bget_hit fuel s dev blockno h x b hh hs hb hx hlk'] at hr; cases hr; exact ⟨hlk', rfl⟩

/-- A returning local miss found the lock of the victim free. -/
theorem bget_local_ret (fuel : Nat) (s : BCache) (dev blockno : Nat) (h x : Buf) (v : Ptr)
    (m : Nat) (r : BCache × Ptr) (hh : s.rd (.head (ihash s.NBUCKET blockno)) = .ret h)
    (hs : bget_scan s dev blockno fuel h.next = .ret .null)
    (hl : bget_lru s fuel h.next .null (1 <<< 20) = .ret (v, m)) (hv : v ≠ .null)
    (hx : s.rd v = .ret x) (hr : bget fuel s dev blockno = .ret r) :
    x.lock = false ∧
      r = ((s.set v (x.recycled dev blockno)).set v (x.claim dev blockno), v) := by
  by_cases hlk : x.lock = true
  · rw [bget_local_held fuel s dev blockno h x v m hh hs hl hv hx hlk] at hr; cases hr
  · have hlk' : x.lock = false := by simpa using hlk
    rw [bget_local fuel s dev blockno h x v m hh hs hl hv hx hlk'] at hr; cases hr
    exact ⟨hlk', rfl⟩

/-- The cross-bucket path of `bget`: a miss with no local victim goes through
`loop_find`. -/
theorem bget_cross (fuel : Nat) (s : BCache) (dev blockno : Nat) (h : Buf) (m : Nat)
    (hh : s.rd (.head (ihash s.NBUCKET blockno)) = .ret h)
    (hs : bget_scan s dev blockno fuel h.next = .ret .null)
    (hl : bget_lru s fuel h.next .null (1 <<< 20) = .ret (.null, m)) :
    bget fuel s dev blockno =
      (loop_find fuel s [.bcache, .bucket (ihash s.NBUCKET blockno)] fuel .null (1 <<< 20) >>=
        fun r =>
          if r.2.2 ≠ .null then do
            let h ← r.1.rd (.head (ihash s.NBUCKET blockno))
            let s1 ← r.1.upd r.2.2 (fun x => { x with next := h.next })
            let s2 ← s1.upd (.head (ihash s.NBUCKET blockno)) (fun x => { x with next := r.2.2 })
            bget_find s2 (release r.2.1 .bcache) r.2.2 dev blockno
          else .panic "bget: no buffers") := by
  simp only [bget, acquire_nil, Res.ret_bind, hh, hs, ne_eq, not_true_eq_false, if_false, hl,
    acquire, List.mem_singleton, reduceCtorEq]
  rfl

end OSLab

/-! ## Claims C1 to C3: the miss paths of `bget` on the specification's scenario -/

namespace OSLab

/-- C1 (code evaluated at the claim's own witness). With `NBUCKET = 2` and
`NBUF = 4`, after `binit` and the requests (0,0) and (0,2), both kept held, the
list of bucket 0 holds no unreferenced buffer while the list of bucket 1 holds
two. The request (0,4) misses in bucket 0 and does not return: the pool scan of
`loop_find` selects slot 2, whose block number is still 0, so `loop_find` takes
the lock of bucket `ihash(0) = 0`, which `bget` already holds. Were that lock
granted, the unlink walk would look for slot 2 on the list of bucket 0 and
dereference the null link at its end. -/
theorem C1_cross_bucket_witness_does_not_return :
    (∀ fuel, two_held (fuel + 3) = .ret two_held_state) ∧
    two_held_state.rd (.head (ihash two_held_state.NBUCKET 4)) =
      .ret ⟨false, 0, 0, false, 0, 0, .buf 1⟩ ∧
    Seg two_held_state (.buf 1) [.buf 1, .buf 0] .null ∧
    Misses two_held_state [.buf 1, .buf 0] 0 4 ∧
    (∀ a ∈ [Ptr.buf 1, Ptr.buf 0], ∀ x, two_held_state.rd a = .ret x → x.refcnt ≠ 0) ∧
    two_held_state.rd (.head 1) = .ret ⟨false, 0, 0, false, 0, 0, .buf 3⟩ ∧
    Seg two_held_state (.buf 3) [.buf 3, .buf 2] .null ∧
    two_held_state.rd (.buf 2) = .ret ⟨false, 0, 0, false, 0, 0, .null⟩ ∧
    loop_find_scan 0 two_held_state.buf .null (1 <<< 20) = (.buf 2, 0) ∧
    (∀ fuel, bget (fuel + 3) two_held_state 0 4 = .deadlock) ∧
    (∀ fuel r, bget fuel two_held_state 0 4 ≠ .ret r) ∧
    (∀ fuel, loop_find_walk two_held_state (.buf 2) (fuel + 3) (.head 0) (.buf 1) = .fault) := by
  refine ⟨fun _ => rfl, rfl, by decide, ?_, ?_, rfl, by decide, rfl, rfl, fun _ => rfl, ?_,
    fun _ => rfl⟩
  · intro a ha x hx
    simp only [List.mem_cons, List.mem_singleton, List.not_mem_nil, or_false] at ha
    rcases ha with rfl | rfl <;> cases hx <;> decide
  · intro a ha x hx
    simp only [List.mem_cons, List.mem_singleton, List.not_mem_nil, or_false] at ha
    rcases ha with rfl | rfl <;> cases hx <;> decide
  · intro fuel r
    match fuel with
    | 0 => exact fun h => by cases h
    | 1 => exact fun h => by cases h
    | 2 => exact fun h => by cases h
    | n + 3 =>
      have : bget (n + 3) two_held_state 0 4 = .deadlock := rfl
      rw [this]
      exact fun h => by cases h

/-- C2 (code evaluated at a failing input). In the same scenario continued
until all four buffers are held, the request (0,4) misses and no buffer is
unreferenced, yet `bget` does not reach `panic("bget: no buffers")`: whatever
the budget it is still running, inside the `for (;;)` of `loop_find`, which has
no exit while no candidate is found. In no state at all does `bget` panic. -/
theorem C2_exhausted_cache_spins :
    (∀ fuel, all_held (fuel + 3) = .ret all_held_state) ∧
    (∀ x ∈ all_held_state.buf, 0 < x.refcnt) ∧
    Seg all_held_state (.buf 1) [.buf 1, .buf 0] .null ∧
    Misses all_held_state [.buf 1, .buf 0] 0 4 ∧
    (∀ fuel, bget fuel all_held_state 0 4 = .fuel) ∧
    (∀ fuel s dev blockno m, bget fuel s dev blockno ≠ .panic m) := by
  refine ⟨fun _ => rfl, by decide, by decide, ?_, ?_, bget_ne_panic⟩
  · intro a ha x hx
    simp only [List.mem_cons, List.mem_singleton, List.not_mem_nil, or_false] at ha
    rcases ha with rfl | rfl <;> cases hx <;> decide
  · intro fuel
    match fuel with
    | 0 => rfl
    | 1 => rfl
    | 2 => rfl
    | n + 3 =>
      rw [bget_cross (n + 3) all_held_state 0 4 ⟨false, 0, 0, false, 0, 0, .buf 1⟩ (1 <<< 20) rfl rfl
        rfl]
      rw [loop_find_all_held (n + 3) all_held_state _ (by decide) _ (n + 3)]
      rfl

/-- C3 (code evaluated at a failing input). After slot 0 was released at tick
`2^20`, it is the only buffer on the list of bucket 0 and it is unreferenced.
The request (0,2) misses in bucket 0, and `bget` does not claim slot 0: its
timestamp is not below the initial `min_stamp` of `1 << 20`. The request is
served through `loop_find` with slot 1, which is moved from the list of bucket
1 to the list of bucket 0. -/
theorem C3_local_victim_skipped_at_large_timestamp :
    (∀ fuel, late_release (fuel + 3) = .ret late_state) ∧
    late_state.rd (.head (ihash late_state.NBUCKET 2)) = .ret ⟨false, 0, 0, false, 0, 0, .buf 0⟩ ∧
    Seg late_state (.buf 0) [.buf 0] .null ∧
    Misses late_state [.buf 0] 0 2 ∧
    late_state.rd (.buf 0) = .ret ⟨false, 0, 0, false, 0, 1048576, .null⟩ ∧
    late_state.rd (.head 1) = .ret ⟨false, 0, 0, false, 0, 0, .buf 1⟩ ∧
    Seg late_state (.buf 1) [.buf 1] .null ∧
    (∀ fuel, bget (fuel + 3) late_state 0 2 = .ret (late_moved_state, .buf 1)) ∧
    late_moved_state.rd (.head 0) = .ret ⟨false, 0, 0, false, 0, 0, .buf 1⟩ ∧
    Seg late_moved_state (.buf 1) [.buf 1, .buf 0] .null ∧
    late_moved_state.rd (.head 1) = .ret ⟨false, 0, 0, false, 0, 0, .null⟩ := by
  refine ⟨fun _ => rfl, rfl, by decide, ?_, rfl, rfl, by decide, fun _ => rfl, rfl, by decide,
    rfl⟩
  intro a ha x hx
  simp only [List.mem_singleton] at ha
  subst ha
  cases hx
  decide

end OSLab

/-! ## What a returning `bget` leaves behind -/

namespace OSLab

theorem loop_find_scan_ptr (bufs : List Buf) :
    ∀ (i : Nat) (lru_buf : Ptr) (min_stamp : Nat),
      (loop_find_scan i bufs lru_buf min_stamp).1 = lru_buf ∨
        ∃ j, (loop_find_scan i bufs lru_buf min_stamp).1 = .buf j := by
  induction bufs with
  | nil => intro i lru_buf min_stamp; exact Or.inl rfl
  | cons x xs ih =>
    intro i lru_buf min_stamp
    simp only [loop_find_scan]
    split
    · rcases ih (i + 1) (.buf i) x.timestamp with h | h
      · exact Or.inr ⟨i, h⟩
      · exact Or.inr h
    · exact ih (i + 1) lru_buf min_stamp

/-- Whenever `loop_find` returns, the buffer is a pool slot (or the caller's
candidate), and the state differs from the one it started in by one store. -/
theorem loop_find_ret (fuel : Nat) (s : BCache) (n : Nat) :
    ∀ (held : List Lock) (lru_buf : Ptr) (min_stamp : Nat) (r : BCache × List Lock × Ptr),
      loop_find fuel s held n lru_buf min_stamp = .ret r →
        (r.2.2 = lru_buf ∨ ∃ j, r.2.2 = .buf j) ∧
        ∃ pre y v, s.rd pre = .ret y ∧ r.1 = s.set pre v := by
  induction n with
  | zero => intro held lru_buf min_stamp r h; cases h
  | succ n ih =>
    intro held lru_buf min_stamp r h
    simp only [loop_find] at h
    have hp := loop_find_scan_ptr s.buf 0 lru_buf min_stamp
    split at h
    next hne =>
      obtain ⟨v, _, h⟩ := Res.bind_eq_ret h
      obtain ⟨held', _, h⟩ := Res.bind_eq_ret h
      split at h
      · obtain ⟨h1, h2⟩ := ih _ _ _ _ h
        refine ⟨?_, h2⟩
        rcases h1 with h1 | h1
        · rw [h1]; exact hp
        · exact Or.inr h1
      · obtain ⟨h0, _, h⟩ := Res.bind_eq_ret h
        obtain ⟨w, _, h⟩ := Res.bind_eq_ret h
        obtain ⟨x, _, h⟩ := Res.bind_eq_ret h
        obtain ⟨s', hs', h⟩ := Res.bind_eq_ret h
        cases h
        obtain ⟨y, hy, hs'⟩ := upd_ret hs'
        exact ⟨hp, w.1, y, _, hy, hs'⟩
    next =>
      obtain ⟨h1, h2⟩ := ih _ _ _ _ h
      refine ⟨?_, h2⟩
      rcases h1 with h1 | h1
      · rw [h1]; exact hp
      · exact Or.inr h1

/-- A lookup result survives a store that changes neither the identity nor the
link of the stored slot. -/
theorem found_of_rd {s s' : BCache} {b0 : Ptr} {x v : Buf} {fuel dev blockno : Nat} {b : Ptr}
    (hx : s.rd b0 = .ret x) (hrd : ∀ q, s'.rd q = if q = b0 then .ret v else s.rd q)
    (hN : s'.NBUCKET = s.NBUCKET) (hnext : v.next = x.next) (hdev : v.dev = x.dev)
    (hblk : v.blockno = x.blockno) (hf : Found s fuel dev blockno b) :
    Found s' fuel dev blockno b := by
  obtain ⟨hb, hd, l, y, hh, hl, hm, hlen, hy, hid⟩ := hf
  have key : ∀ p z, s.rd p = .ret z →
      ∃ z', s'.rd p = .ret z' ∧ z'.next = z.next ∧ z'.dev = z.dev ∧ z'.blockno = z.blockno := by
    intro p z hz
    rw [hrd p]
    by_cases hp : p = b0
    · subst hp
      rw [hx] at hz; cases hz
      exact ⟨v, by simp, hnext, hdev, hblk⟩
    · exact ⟨z, by simp [hp, hz], rfl, rfl, rfl⟩
  obtain ⟨hd', hh', hdn, _, _⟩ := key _ _ hh
  obtain ⟨y', hy', _, hyd, hyb⟩ := key _ _ hy
  refine ⟨hb, hd', l, y', by rw [hN]; exact hh', ?_, ?_, hlen, hy', ?_⟩
  · rw [hdn]
    exact seg_congr hl (fun a _ z hz => by
      obtain ⟨z', hz', hn, _, _⟩ := key a z hz
      exact ⟨z', hz', hn⟩)
  · intro a ha z' hz'
    rw [hrd a] at hz'
    by_cases hp : a = b0
    · subst hp
      simp only [if_true] at hz'
      cases hz'
      have := hm a ha x hx
      unfold Buf.is at this ⊢
      rw [hdev, hblk]
      exact this
    · simp only [hp, if_false] at hz'
      exact hm a ha z' hz'
  · unfold Buf.is at hid ⊢
    rw [hyd, hyb]
    exact hid

/-- After `bget` returned `b`, a lookup of the same block finds `b`, whose
exclusive lock is held; the record of driver calls is as before. -/
theorem bget_post (fuel : Nat) (s : BCache) (dev blockno : Nat) (s1 : BCache) (b : Ptr)
    (h : bget fuel s dev blockno = .ret (s1, b)) :
    Found s1 fuel dev blockno b ∧ (∃ x, s1.rd b = .ret x ∧ x.lock = true) ∧ s1.disk = s.disk := by
  rcases rd_cases s (.head (ihash s.NBUCKET blockno)) with ⟨hd, hh⟩ | hh
  swap
  · simp [bget, acquire_nil, hh] at h
  cases hsc : bget_scan s dev blockno fuel hd.next with
  | panic m => simp [bget, acquire_nil, hh, hsc] at h
  | fault => simp [bget, acquire_nil, hh, hsc] at h
  | deadlock => simp [bget, acquire_nil, hh, hsc] at h
  | fuel => simp [bget, acquire_nil, hh, hsc] at h
  | ret b0 =>
    obtain ⟨l, hl, hm, hlen, hb0⟩ := bget_scan_ret s dev blockno fuel _ _ hsc
    by_cases hnull : b0 = .null
    · subst hnull
      cases hlr : bget_lru s fuel hd.next .null (1 <<< 20) with
      | panic m => rw [bget_miss fuel s dev blockno hd hh hsc, hlr] at h; exact absurd h (by simp)
      | fault => rw [bget_miss fuel s dev blockno hd hh hsc, hlr] at h; exact absurd h (by simp)
      | deadlock => rw [bget_miss fuel s dev blockno hd hh hsc, hlr] at h; exact absurd h (by simp)
      | fuel => rw [bget_miss fuel s dev blockno hd hh hsc, hlr] at h; exact absurd h (by simp)
      | ret vm =>
        obtain ⟨v, m⟩ := vm
        by_cases hv : v = .null
        · -- the cross-bucket path
          subst hv
          rw [bget_cross fuel s dev blockno hd m hh hsc hlr] at h
          obtain ⟨r, hr, h⟩ := Res.bind_eq_ret h
          obtain ⟨s', held', w⟩ := r
          obtain ⟨hw, pre, y, u, hy, hs'⟩ := loop_find_ret _ _ _ _ _ _ _ hr
          have hwn : w ≠ .null := loop_find_ne_null _ _ _ _ _ _ _ hr
          simp only [ne_eq] at hs' hw h
          rw [if_pos hwn] at h
          obtain ⟨j, hj⟩ : ∃ j, w = .buf j := by
            rcases hw with hw | hw
            · exact (hwn hw).elim
            · exact hw
          obtain ⟨h', hh', h⟩ := Res.bind_eq_ret h
          obtain ⟨t1, ht1, h⟩ := Res.bind_eq_ret h
          obtain ⟨t2, ht2, h⟩ := Res.bind_eq_ret h
          obtain ⟨xw, hxw, ht1⟩ := upd_ret ht1
          obtain ⟨xh, hxh, ht2⟩ := upd_ret ht2
          have hne : Ptr.head (ihash s.NBUCKET blockno) ≠ w := by rw [hj]; simp
          have hw2 : t2.rd w = .ret { xw with next := h'.next } := by
            rw [ht2, rd_set_ne t1 _ w xh _ hxh (fun e => hne e.symm), ht1]
            exact rd_set_self s' w xw _ hxw
          obtain ⟨-, e⟩ := bget_find_ret t2 _ w dev blockno _ _ hw2 h
          cases e
          have hN : t2.NBUCKET = s.NBUCKET := by
            rw [ht2, NBUCKET_set, ht1, NBUCKET_set, hs', NBUCKET_set]
          have hB := rd_set_self _ b _ (Buf.claim { xw with next := h'.next } dev blockno)
            (rd_set_self t2 b _ (Buf.recycled { xw with next := h'.next } dev blockno) hw2)
          refine ⟨⟨hwn, { xh with next := b }, [],
            Buf.claim { xw with next := h'.next } dev blockno, ?_, ?_, ?_, ?_, hB, ?_⟩,
            ⟨_, hB, rfl⟩, ?_⟩
          · rw [NBUCKET_set, NBUCKET_set, hN, rd_set_set t2 b _ _ _ _ hw2, if_neg hne, ht2]
            exact rd_set_self t1 _ xh _ hxh
          · exact rfl
          · intro a ha; cases ha
          · simp only [List.length_nil]; omega
          · exact ⟨rfl, rfl⟩
          · rw [disk_set, disk_set, ht2, disk_set, ht1, disk_set, hs', disk_set]
        · -- the local path
          have hvl : v ∈ l := by
            rcases bget_lru_mem s l _ _ _ _ _ _ hl hlr with e | e
            · exact (hv e).elim
            · exact e
          obtain ⟨l1, hl1, hvn, hlen1, hsub, x, hx⟩ := seg_to_mem hl hvl
          obtain ⟨-, e⟩ := bget_local_ret fuel s dev blockno hd x v m _ hh hsc hlr hv hx h
          cases e
          have hrd : ∀ q, ((s.set b (x.recycled dev blockno)).set b (x.claim dev blockno)).rd q =
              if q = b then .ret (x.claim dev blockno) else s.rd q :=
            fun q => rd_set_set s b q x _ _ hx
          have hhead : ∃ hd', ((s.set b (x.recycled dev blockno)).set b
              (x.claim dev blockno)).rd (.head (ihash s.NBUCKET blockno)) =
              .ret hd' ∧ hd'.next = hd.next := by
            rw [hrd]
            by_cases e : Ptr.head (ihash s.NBUCKET blockno) = b
            · rw [if_pos e]
              rw [e, hx] at hh; cases hh
              exact ⟨_, rfl, rfl⟩
            · rw [if_neg e]
              exact ⟨hd, hh, rfl⟩
          obtain ⟨hd', hhd', hnx⟩ := hhead
          refine ⟨⟨hv, hd', l1, x.claim dev blockno, by simpa using hhd', ?_, ?_, by omega, ?_,
            ⟨rfl, rfl⟩⟩, ⟨x.claim dev blockno, by rw [hrd]; simp, rfl⟩, by simp⟩
          · rw [hnx]
            refine seg_congr hl1 (fun a ha z hz => ⟨z, ?_, rfl⟩)
            have hab : a ≠ b := fun e => hvn (e ▸ ha)
            rw [hrd, if_neg hab]
            exact hz
          · intro a ha z hz
            have hab : a ≠ b := fun e => hvn (e ▸ ha)
            rw [hrd, if_neg hab] at hz
            exact hm a (hsub a ha) z hz
          · rw [hrd]; simp
    · rcases hb0 with hb0 | ⟨x, hx, hid⟩
      · exact (hnull hb0).elim
      obtain ⟨-, e⟩ := bget_hit_ret fuel s dev blockno hd x b0 _ hh hsc hnull hx h
      cases e
      have hrd : ∀ q, ((s.set b { x with refcnt := (x.refcnt + 1) % 2 ^ 32 }).set b x.hit).rd q =
          if q = b then .ret x.hit else s.rd q := fun q => rd_set_set s b q x _ _ hx
      refine ⟨?_, ⟨x.hit, by rw [hrd]; simp, rfl⟩, by simp⟩
      exact found_of_rd hx hrd (by simp) rfl rfl rfl ⟨hnull, hd, l, x, hh, hl, hm, hlen, hx, hid⟩

end OSLab

/-! ## Claims C5 and C6: cache hits -/

namespace OSLab

@[simp] theorem rd_virtio_disk_rw (s : BCache) (b q : Ptr) (w : Nat) :
    (virtio_disk_rw s b w).rd q = s.rd q := by
  cases q <;> rfl

@[simp] theorem NBUCKET_virtio_disk_rw (s : BCache) (b : Ptr) (w : Nat) :
    (virtio_disk_rw s b w).NBUCKET = s.NBUCKET := rfl

/-- The effect of `brelse` on a buffer whose exclusive lock is held. -/
theorem brelse_eq (ticks : Nat) (s : BCache) (b : Ptr) (y : Buf) (hy : s.rd b = .ret y)
    (hl : y.lock = true) :
    ∃ s', brelse ticks s b = .ret s' ∧
      (∀ q, s'.rd q = if q = b then .ret (y.released ticks) else s.rd q) ∧
      s'.NBUCKET = s.NBUCKET ∧ s'.NBUF = s.NBUF ∧ s'.disk = s.disk := by
  have e1 := rd_set_self s b y { y with lock := false } hy
  by_cases hz : uint_dec y.refcnt = 0
  · have e2 := rd_set_self _ b _ { y with lock := false, refcnt := 0 } e1
    have hrel : y.released ticks = { y with lock := false, refcnt := 0, timestamp := ticks } := by
      simp only [Buf.released, hz, if_true]
    refine ⟨((s.set b { y with lock := false }).set b { y with lock := false, refcnt := 0 }).set b
      { y with lock := false, refcnt := 0, timestamp := ticks }, ?_, ?_, by simp, by simp,
      by simp⟩
    · simp only [brelse, holdingsleep, hy, Res.ret_bind, Res.pure_eq, hl, Bool.not_true,
        Bool.false_eq_true, if_false, releasesleep, upd_eq s b _ y hy, e1, acquire_nil,
        upd_eq _ b _ _ e1, hz, e2, if_true, upd_eq _ b _ _ e2]
    · intro q
      rw [rd_set _ b q _ _ e2, rd_set_set s b q y _ _ hy, hrel]
      split <;> rfl
  · have e2 := rd_set_self _ b _
      { y with lock := false, refcnt := uint_dec y.refcnt } e1
    have hrel : y.released ticks =
        { y with lock := false, refcnt := uint_dec y.refcnt } := by
      simp only [Buf.released, hz, if_false]
    refine ⟨(s.set b { y with lock := false }).set b
      { y with lock := false, refcnt := uint_dec y.refcnt }, ?_, ?_,
      by simp, by simp, by simp⟩
    · simp only [brelse, holdingsleep, hy, Res.ret_bind, Res.pure_eq, hl, Bool.not_true,
        Bool.false_eq_true, if_false, releasesleep, upd_eq s b _ y hy, e1, acquire_nil,
        upd_eq _ b _ _ e1, e2, hz]
    · intro q
      rw [hrel]
      exact rd_set_set s b q y _ _ hy

/-- C5 as stated fails in two states. In `full_count_state` slot 0, first on
the only list, holds block (0,1) with a free lock and `refcnt = 2^32 - 1`: the
hit returns it with `refcnt` 0, not one more. Slot 1 holds block (0,2) with its
exclusive lock held: the hit takes the reference and then waits for the lock,
which in a sequential run is never released, so `bget` does not return. -/
theorem C5_counterexample_full_count_or_held_lock :
    full_count_state.rd (.head (ihash full_count_state.NBUCKET 1)) =
      .ret ⟨false, 0, 0, false, 0, 0, .buf 0⟩ ∧
    Seg full_count_state (.buf 0) [.buf 0, .buf 1] .null ∧
    full_count_state.rd (.buf 0) = .ret ⟨true, 0, 1, false, 4294967295, 0, .buf 1⟩ ∧
    full_count_state.rd (.buf 1) = .ret ⟨true, 0, 2, true, 1, 0, .null⟩ ∧
    (∃ s', bget 3 full_count_state 0 1 = .ret (s', .buf 0) ∧
      s'.rd (.buf 0) = .ret ⟨true, 0, 1, true, 0, 0, .buf 1⟩ ∧ (0 : Nat) ≠ 4294967295 + 1) ∧
    (∀ fuel, bget (fuel + 3) full_count_state 0 2 = .deadlock) :=
  ⟨rfl, by decide, rfl, rfl, ⟨_, rfl, rfl, by decide⟩, fun _ => rfl⟩

/-- C5, amended. Cache hit of `bget`: when the list of bucket `ihash(blockno)`
leads, through nodes `l` that do not have the identity `(dev, blockno)`, to a
buffer `b` that has it, whose exclusive lock is free and whose `refcnt` is
below `2^32 - 1`, `bget` returns `b`, the first such buffer in list order, with
`refcnt` increased by exactly 1 and the exclusive lock held. The buffer's
`dev`, `blockno`, `valid`, `timestamp` and `next` link are unchanged, and so is
every other buffer and bucket head (hence every list) and the driver record. -/
theorem C5_bget_hit (fuel : Nat) (s : BCache) (dev blockno : Nat) (h x : Buf) (l : List Ptr)
    (b : Ptr) (hh : s.rd (.head (ihash s.NBUCKET blockno)) = .ret h) (hl : Seg s h.next l b)
    (hm : Misses s l dev blockno) (hx : s.rd b = .ret x) (hid : x.is dev blockno)
    (hf : l.length < fuel) (hlk : x.lock = false) (hcnt : x.refcnt + 1 < 2 ^ 32) :
    ∃ s', bget fuel s dev blockno = .ret (s', b) ∧
      s'.rd b = .ret { x with refcnt := x.refcnt + 1, lock := true } ∧
      (∀ q, q ≠ b → s'.rd q = s.rd q) ∧
      (∀ p l' q, Seg s p l' q → Seg s' p l' q) ∧
      s'.NBUF = s.NBUF ∧ s'.NBUCKET = s.NBUCKET ∧ s'.disk = s.disk := by
  have hb : b ≠ .null := by
    intro e; rw [e] at hx; cases hx
  have hsc := bget_scan_hit s dev blockno fuel l h.next b x hl hm hx hid hf
  have hrd : ∀ q, ((s.set b { x with refcnt := (x.refcnt + 1) % 2 ^ 32 }).set b x.hit).rd q =
      if q = b then .ret x.hit else s.rd q := fun q => rd_set_set s b q x _ _ hx
  refine ⟨_, bget_hit fuel s dev blockno h x b hh hsc hb hx hlk, ?_, ?_, ?_, by simp, by simp,
    by simp⟩
  · rw [hrd, if_pos rfl]
    simp only [Buf.hit, Nat.mod_eq_of_lt hcnt]
  · intro q hq; rw [hrd, if_neg hq]
  · intro p l' q hseg
    refine seg_congr hseg (fun a _ z hz => ?_)
    rw [hrd]
    by_cases e : a = b
    · subst e
      rw [hx] at hz; cases hz
      exact ⟨_, if_pos rfl, rfl⟩
    · exact ⟨z, by rw [if_neg e]; exact hz, rfl⟩

/-- C5, amended, at a concrete input: in `three_released_state` the request
(0,1) walks past slot 2 and hits slot 1, whose lock is free. -/
theorem C5_bget_hit_witness :
    Seg three_released_state (.buf 2) [.buf 2] (.buf 1) ∧
    ∃ s', bget 2 three_released_state 0 1 = .ret (s', .buf 1) ∧
      s'.rd (.buf 1) = .ret ⟨false, 0, 1, true, 0 + 1, 7, .buf 0⟩ ∧
      (∀ q, q ≠ .buf 1 → s'.rd q = three_released_state.rd q) ∧
      (∀ p l' q, Seg three_released_state p l' q → Seg s' p l' q) ∧
      s'.NBUF = three_released_state.NBUF ∧ s'.NBUCKET = three_released_state.NBUCKET ∧
      s'.disk = three_released_state.disk :=
  ⟨by decide,
    C5_bget_hit 2 three_released_state 0 1 ⟨false, 0, 0, false, 0, 0, .buf 2⟩
      ⟨false, 0, 1, false, 0, 7, .buf 0⟩ [.buf 2] (.buf 1) rfl (by decide)
      (by
        intro a ha y hy
        simp only [List.mem_singleton] at ha
        subst ha
        cases hy
        decide)
      rfl (by decide) (by decide) rfl (by decide)⟩

/-- What a returning `bread` leaves behind. -/
theorem bread_post (fuel : Nat) (s : BCache) (dev blockno : Nat) (s1 : BCache) (b : Ptr)
    (h : bread fuel s dev blockno = .ret (s1, b)) :
    Found s1 fuel dev blockno b ∧ (∃ x, s1.rd b = .ret x ∧ x.lock = true ∧ x.valid = true) ∧
      (s1.disk = s.disk ∨ s1.disk = s.disk ++ [(b, 0)]) := by
  simp only [bread] at h
  obtain ⟨r, hr, h⟩ := Res.bind_eq_ret h
  obtain ⟨s0, b0⟩ := r
  obtain ⟨hF, ⟨x, hx, hlk⟩, hdisk⟩ := bget_post fuel s dev blockno s0 b0 hr
  simp only [hx, Res.ret_bind] at h
  by_cases hv : x.valid = true
  · simp only [hv, Bool.not_true, Bool.false_eq_true, if_false, Res.pure_eq] at h
    cases h
    exact ⟨hF, ⟨x, hx, hlk, hv⟩, Or.inl hdisk⟩
  · have hv' : x.valid = false := by simpa using hv
    have hx' : (virtio_disk_rw s0 b0 0).rd b0 = .ret x := by simpa using hx
    simp only [hv', Bool.not_false, if_true, upd_eq _ b0 _ x hx', Res.ret_bind,
      Res.pure_eq] at h
    cases h
    have hrd : ∀ q, ((virtio_disk_rw s0 b 0).set b { x with valid := true }).rd q =
        if q = b then .ret { x with valid := true } else s0.rd q := by
      intro q
      rw [rd_set _ b q x _ hx']
      simp
    refine ⟨found_of_rd hx hrd (by simp) rfl rfl rfl hF,
      ⟨{ x with valid := true }, by rw [hrd]; simp, hlk, rfl⟩, Or.inr ?_⟩
    simp [virtio_disk_rw, hdisk]

/-- C6. Single fill, sequential form: whenever `bread(dev, blockno)` returns a
buffer `b`, releasing `b` and reading the same block again returns the same
`b`, valid, and the second `bread` makes no call to the disk driver: the
driver record after it is the record after the first `bread`, which made at
most one call. -/
theorem C6_second_bread_hits_without_disk_read (fuel ticks : Nat) (s : BCache)
    (dev blockno : Nat) (s1 : BCache) (b : Ptr)
    (h : bread fuel s dev blockno = .ret (s1, b)) :
    ∃ s2 s3 y, brelse ticks s1 b = .ret s2 ∧ bread fuel s2 dev blockno = .ret (s3, b) ∧
      s3.rd b = .ret y ∧ y.valid = true ∧ s2.disk = s1.disk ∧ s3.disk = s1.disk ∧
      (s1.disk = s.disk ∨ s1.disk = s.disk ++ [(b, 0)]) := by
  obtain ⟨hF, ⟨x, hx, hlk, hv⟩, hdisk⟩ := bread_post fuel s dev blockno s1 b h
  obtain ⟨s2, hs2, hrd2, hN2, _, hd2⟩ := brelse_eq ticks s1 b x hx hlk
  have hF2 : Found s2 fuel dev blockno b := found_of_rd hx hrd2 hN2 rfl rfl rfl hF
  obtain ⟨hb, hd, l, y, hh, hl, hm, hlen, hy, hid⟩ := hF2
  have hy' : y = x.released ticks := by
    have := hrd2 b
    rw [if_pos rfl, hy] at this
    cases this; rfl
  have hsc := bget_scan_hit s2 dev blockno fuel l hd.next b y hl hm hy hid hlen
  have hget := bget_hit fuel s2 dev blockno hd y b hh hsc hb hy (by rw [hy']; rfl)
  have hrd3 : ((s2.set b { y with refcnt := (y.refcnt + 1) % 2 ^ 32 }).set b y.hit).rd b =
      .ret y.hit := by
    rw [rd_set_set s2 b b y _ _ hy, if_pos rfl]
  have hvalid : y.hit.valid = true := by rw [hy']; exact hv
  refine ⟨s2, _, y.hit, hs2, ?_, hrd3, hvalid, hd2, ?_, hdisk⟩
  · simp only [bread, hget, Res.ret_bind, hrd3, hvalid, Bool.not_true, Bool.false_eq_true,
      if_false, Res.pure_eq]
  · simp [hd2]

/-- C6 at a concrete input: in `late_state` block (0,1) is read, released at
tick 9 and read again. -/
theorem C6_second_bread_witness :
    ∃ s1, bread 2 late_state 0 1 = .ret (s1, .buf 1) ∧
    ∃ s2 s3 y, brelse 9 s1 (.buf 1) = .ret s2 ∧ bread 2 s2 0 1 = .ret (s3, .buf 1) ∧
      s3.rd (.buf 1) = .ret y ∧ y.valid = true ∧ s2.disk = s1.disk ∧ s3.disk = s1.disk ∧
      (s1.disk = late_state.disk ∨ s1.disk = late_state.disk ++ [(.buf 1, 0)]) :=
  ⟨_, rfl, C6_second_bread_hits_without_disk_read 2 9 late_state 0 1 _ (.buf 1) rfl⟩

end OSLab

/-! ## Claim C4: least-recently-used order within a bucket -/

namespace OSLab

/-- A store that keeps the link of the stored slot keeps every link. -/
theorem next_of_rd {s s' : BCache} {v : Ptr} {xv x' : Buf} (hv : s.rd v = .ret xv)
    (hrd : ∀ q, s'.rd q = if q = v then .ret x' else s.rd q) (hn : x'.next = xv.next) :
    ∀ p z, s.rd p = .ret z → ∃ z', s'.rd p = .ret z' ∧ z'.next = z.next := by
  intro p z hz
  rw [hrd p]
  by_cases hp : p = v
  · subst hp
    rw [hv] at hz; cases hz
    exact ⟨x', if_pos rfl, hn⟩
  · exact ⟨z, by rw [if_neg hp]; exact hz, rfl⟩

/-- A store of a buffer without the identity keeps a list missing it. -/
theorem misses_of_rd {s s' : BCache} {l : List Ptr} {dev blockno : Nat} {v : Ptr} {x' : Buf}
    (hrd : ∀ q, s'.rd q = if q = v then .ret x' else s.rd q) (hm : Misses s l dev blockno)
    (hx' : ¬ x'.is dev blockno) : Misses s' l dev blockno := by
  intro a ha z hz
  rw [hrd a] at hz
  by_cases hp : a = v
  · rw [if_pos hp] at hz
    cases hz
    exact hx'
  · rw [if_neg hp] at hz
    exact hm a ha z hz

/-- Local victim selection: on a miss in a bucket whose list holds an
unreferenced buffer `v` with a timestamp below `2^20` that is strictly smaller
than that of every other unreferenced buffer of the list, `bget` claims `v` and
changes nothing else. -/
theorem bget_local_unique (fuel : Nat) (s : BCache) (dev blockno : Nat) (h : Buf)
    (l : List Ptr) (v : Ptr) (xv : Buf)
    (hh : s.rd (.head (ihash s.NBUCKET blockno)) = .ret h) (hl : Seg s h.next l .null)
    (hf : l.length < fuel) (hm : Misses s l dev blockno) (hv : s.rd v = .ret xv)
    (hv0 : xv.refcnt = 0) (hvl : v ∈ l) (hts : xv.timestamp < 2 ^ 20)
    (hothers : ∀ a ∈ l, ∀ x, s.rd a = .ret x → x.refcnt = 0 →
      a = v ∨ xv.timestamp < x.timestamp) (hlk : xv.lock = false) :
    ∃ s', bget fuel s dev blockno = .ret (s', v) ∧
      (∀ q, s'.rd q = if q = v then .ret (xv.claim dev blockno) else s.rd q) ∧
      s'.NBUCKET = s.NBUCKET ∧ s'.disk = s.disk := by
  have hsc := bget_scan_miss s dev blockno fuel l h.next hl hm hf
  have hts' : xv.timestamp < 1 <<< 20 := hts
  have hlr := bget_lru_unique s v xv hv hv0 l h.next .null (1 <<< 20) fuel hl hf hothers
    (Or.inl ⟨hvl, hts'⟩)
  have hvn : v ≠ .null := by
    intro e; rw [e] at hv; cases hv
  exact ⟨_, bget_local fuel s dev blockno h xv v _ hh hsc hlr hvn hv hlk,
    fun q => rd_set_set s v q xv _ _ hv, by simp, by simp⟩

end OSLab

namespace OSLab

/-- C4 as stated fails when the tick counter does not advance between the
releases. In `three_held` slot 0 (A), slot 1 (B) and slot 2 (C) are on the
list of the only bucket, held. They are released in the order A, B, C, all at
tick 7. The next miss, for block (0,3), claims C (slot 2, first on the list),
not A. -/
theorem C4_counterexample_equal_ticks :
    ∃ s0 s1 s2 s', three_held 4 = .ret s0 ∧
      Seg s0 (.buf 2) [.buf 2, .buf 1, .buf 0] .null ∧
      s0.rd (.head 0) = .ret ⟨false, 0, 0, false, 0, 0, .buf 2⟩ ∧
      s0.rd (.buf 0) = .ret ⟨false, 0, 2, true, 1, 0, .null⟩ ∧
      s0.rd (.buf 1) = .ret ⟨false, 0, 1, true, 1, 0, .buf 0⟩ ∧
      s0.rd (.buf 2) = .ret ⟨false, 0, 0, true, 1, 0, .buf 1⟩ ∧
      brelse 7 s0 (.buf 0) = .ret s1 ∧ brelse 7 s1 (.buf 1) = .ret s2 ∧
      brelse 7 s2 (.buf 2) = .ret three_released_state ∧
      bget_scan three_released_state 0 3 4 (.buf 2) = .ret .null ∧
      bget 4 three_released_state 0 3 = .ret (s', .buf 2) ∧ Ptr.buf 2 ≠ Ptr.buf 0 :=
  ⟨_, _, _, _, rfl, by decide, rfl, rfl, rfl, rfl, rfl, rfl, rfl, rfl, rfl, by decide⟩

/-- C4, amended. Let A, B, C be distinct buffers on the list of one bucket,
each held with one reference, every other buffer of the list referenced. If
`brelse` releases A, then B, then C while the tick counter strictly increases
and stays below `2^20`, then three subsequent misses on that bucket, for three
different blocks none of which is on the list, each kept held, claim A first,
then B, then C. -/
theorem C4_lru_order_within_bucket (fuel : Nat) (s : BCache) (h : Buf) (l : List Ptr)
    (A B C : Ptr) (xA xB xC : Buf) (tA tB tC d1 b1 d2 b2 d3 b3 : Nat)
    (hh : s.rd (.head (ihash s.NBUCKET b1)) = .ret h) (hl : Seg s h.next l .null)
    (hf : l.length < fuel)
    (hk2 : ihash s.NBUCKET b2 = ihash s.NBUCKET b1) (hk3 : ihash s.NBUCKET b3 = ihash s.NBUCKET b1)
    (hA : A ∈ l) (hB : B ∈ l) (hC : C ∈ l) (hAB : A ≠ B) (hAC : A ≠ C) (hBC : B ≠ C)
    (hxA : s.rd A = .ret xA) (hxB : s.rd B = .ret xB) (hxC : s.rd C = .ret xC)
    (hrA : xA.refcnt = 1) (hrB : xB.refcnt = 1) (hrC : xC.refcnt = 1)
    (hlA : xA.lock = true) (hlB : xB.lock = true) (hlC : xC.lock = true)
    (hothers : ∀ a ∈ l, a ≠ A → a ≠ B → a ≠ C → ∀ x, s.rd a = .ret x → x.refcnt ≠ 0)
    (htAB : tA < tB) (htBC : tB < tC) (htC : tC < 2 ^ 20)
    (hm1 : Misses s l d1 b1) (hm2 : Misses s l d2 b2) (hm3 : Misses s l d3 b3)
    (hne12 : ¬ (d1 = d2 ∧ b1 = b2)) (hne13 : ¬ (d1 = d3 ∧ b1 = b3))
    (hne23 : ¬ (d2 = d3 ∧ b2 = b3)) :
    ∃ s1 s2 s3 s4 s5 s6, brelse tA s A = .ret s1 ∧ brelse tB s1 B = .ret s2 ∧
      brelse tC s2 C = .ret s3 ∧
      (∃ yA yB yC, s3.rd A = .ret yA ∧ s3.rd B = .ret yB ∧ s3.rd C = .ret yC ∧
        yA.refcnt = 0 ∧ yB.refcnt = 0 ∧ yC.refcnt = 0) ∧
      bget fuel s3 d1 b1 = .ret (s4, A) ∧ bget fuel s4 d2 b2 = .ret (s5, B) ∧
      bget fuel s5 d3 b3 = .ret (s6, C) := by
  have hBA : B ≠ A := fun e => hAB e.symm
  have hCA : C ≠ A := fun e => hAC e.symm
  have hCB : C ≠ B := fun e => hBC e.symm
  have relA : xA.released tA = { xA with lock := false, refcnt := 0, timestamp := tA } := by
    simp [Buf.released, uint_dec, hrA]
  have relB : xB.released tB = { xB with lock := false, refcnt := 0, timestamp := tB } := by
    simp [Buf.released, uint_dec, hrB]
  have relC : xC.released tC = { xC with lock := false, refcnt := 0, timestamp := tC } := by
    simp [Buf.released, uint_dec, hrC]
  -- the three releases
  obtain ⟨s1, e1, R1, N1, -, -⟩ := brelse_eq tA s A xA hxA hlA
  have hB1 : s1.rd B = .ret xB := by rw [R1, if_neg hBA]; exact hxB
  obtain ⟨s2, e2, R2, N2, -, -⟩ := brelse_eq tB s1 B xB hB1 hlB
  have hC2 : s2.rd C = .ret xC := by rw [R2, if_neg hCB, R1, if_neg hCA]; exact hxC
  obtain ⟨s3, e3, R3, N3, -, -⟩ := brelse_eq tC s2 C xC hC2 hlC
  rw [relA] at R1; rw [relB] at R2; rw [relC] at R3
  have hA1 : s1.rd A = .ret { xA with lock := false, refcnt := 0, timestamp := tA } := by
    rw [R1, if_pos rfl]
  have hA3 : s3.rd A = .ret { xA with lock := false, refcnt := 0, timestamp := tA } := by
    rw [R3, if_neg hAC, R2, if_neg hAB]; exact hA1
  have hB3 : s3.rd B = .ret { xB with lock := false, refcnt := 0, timestamp := tB } := by
    rw [R3, if_neg hBC, R2, if_pos rfl]
  have hC3 : s3.rd C = .ret { xC with lock := false, refcnt := 0, timestamp := tC } := by
    rw [R3, if_pos rfl]
  have hO3 : ∀ a, a ≠ A → a ≠ B → a ≠ C → s3.rd a = s.rd a := by
    intro a h1 h2 h3
    rw [R3, if_neg h3, R2, if_neg h2, R1, if_neg h1]
  have NB3 : s3.NBUCKET = s.NBUCKET := by rw [N3, N2, N1]
  -- links are as in `s`
  have L1 := next_of_rd hxA R1 rfl
  have L2 := next_of_rd hB1 R2 rfl
  have L3 := next_of_rd hC2 R3 rfl
  have L : ∀ p z, s.rd p = .ret z → ∃ z', s3.rd p = .ret z' ∧ z'.next = z.next := by
    intro p z hz
    obtain ⟨z1, h1, n1⟩ := L1 p z hz
    obtain ⟨z2, h2, n2⟩ := L2 p z1 h1
    obtain ⟨z3, h3, n3⟩ := L3 p z2 h2
    exact ⟨z3, h3, by rw [n3, n2, n1]⟩
  have M : ∀ d b, Misses s l d b → Misses s3 l d b := by
    intro d b hm
    have m1 : Misses s1 l d b := misses_of_rd R1 hm (hm A hA xA hxA)
    have m2 : Misses s2 l d b := misses_of_rd R2 m1 (hm B hB xB hxB)
    exact misses_of_rd R3 m2 (hm C hC xC hxC)
  -- first miss: A
  obtain ⟨g3, hg3, hgn3⟩ := L _ _ hh
  have hl3 : Seg s3 g3.next l .null := by
    rw [hgn3]
    exact seg_congr hl (fun a _ z hz => L a z hz)
  have hh3 : s3.rd (.head (ihash s3.NBUCKET b1)) = .ret g3 := by rw [NB3]; exact hg3
  have oth3 : ∀ a ∈ l, ∀ x, s3.rd a = .ret x → x.refcnt = 0 → a = A ∨ tA < x.timestamp := by
    intro a ha x hx hx0
    by_cases eA : a = A
    · exact Or.inl eA
    by_cases eB : a = B
    · subst eB; rw [hB3] at hx; cases hx; exact Or.inr htAB
    by_cases eC : a = C
    · subst eC; rw [hC3] at hx; cases hx; exact Or.inr (by show tA < tC; omega)
    · rw [hO3 a eA eB eC] at hx
      exact (hothers a ha eA eB eC x hx hx0).elim
  obtain ⟨s4, e4, R4, N4, -⟩ := bget_local_unique fuel s3 d1 b1 g3 l A _ hh3 hl3 hf (M _ _ hm1)
    hA3 rfl hA (by show tA < 2 ^ 20; omega) oth3 rfl
  -- second miss: B
  have L4 := next_of_rd hA3 R4 rfl
  obtain ⟨g4, hg4, hgn4⟩ := L4 _ _ hg3
  have hl4 : Seg s4 g4.next l .null := by
    rw [hgn4]
    exact seg_congr hl3 (fun a _ z hz => L4 a z hz)
  have hh4 : s4.rd (.head (ihash s4.NBUCKET b2)) = .ret g4 := by
    rw [N4, NB3, hk2]; exact hg4
  have hB4 : s4.rd B = .ret { xB with lock := false, refcnt := 0, timestamp := tB } := by
    rw [R4, if_neg hBA]; exact hB3
  have hC4 : s4.rd C = .ret { xC with lock := false, refcnt := 0, timestamp := tC } := by
    rw [R4, if_neg hCA]; exact hC3
  have m4 : ∀ d b, Misses s l d b → ¬ (d1 = d ∧ b1 = b) → Misses s4 l d b :=
    fun d b hm hne => misses_of_rd R4 (M d b hm) hne
  have oth4 : ∀ a ∈ l, ∀ x, s4.rd a = .ret x → x.refcnt = 0 → a = B ∨ tB < x.timestamp := by
    intro a ha x hx hx0
    by_cases eA : a = A
    · subst eA; rw [R4, if_pos rfl] at hx; cases hx; cases hx0
    by_cases eB : a = B
    · exact Or.inl eB
    by_cases eC : a = C
    · subst eC; rw [hC4] at hx; cases hx; exact Or.inr htBC
    · rw [R4, if_neg eA, hO3 a eA eB eC] at hx
      exact (hothers a ha eA eB eC x hx hx0).elim
  obtain ⟨s5, e5, R5, N5, -⟩ := bget_local_unique fuel s4 d2 b2 g4 l B _ hh4 hl4 hf
    (m4 _ _ hm2 hne12) hB4 rfl hB (by show tB < 2 ^ 20; omega) oth4 rfl
  -- third miss: C
  have L5 := next_of_rd hB4 R5 rfl
  obtain ⟨g5, hg5, hgn5⟩ := L5 _ _ hg4
  have hl5 : Seg s5 g5.next l .null := by
    rw [hgn5]
    exact seg_congr hl4 (fun a _ z hz => L5 a z hz)
  have hh5 : s5.rd (.head (ihash s5.NBUCKET b3)) = .ret g5 := by
    rw [N5, N4, NB3, hk3]; exact hg5
  have hC5 : s5.rd C = .ret { xC with lock := false, refcnt := 0, timestamp := tC } := by
    rw [R5, if_neg hCB]; exact hC4
  have m5 : Misses s5 l d3 b3 := misses_of_rd R5 (m4 _ _ hm3 hne13) hne23
  have oth5 : ∀ a ∈ l, ∀ x, s5.rd a = .ret x → x.refcnt = 0 → a = C ∨ tC < x.timestamp := by
    intro a ha x hx hx0
    by_cases eB : a = B
    · subst eB; rw [R5, if_pos rfl] at hx; cases hx; cases hx0
    by_cases eA : a = A
    · subst eA; rw [R5, if_neg eB, R4, if_pos rfl] at hx; cases hx; cases hx0
    by_cases eC : a = C
    · exact Or.inl eC
    · rw [R5, if_neg eB, R4, if_neg eA, hO3 a eA eB eC] at hx
      exact (hothers a ha eA eB eC x hx hx0).elim
  obtain ⟨s6, e6, -, -, -⟩ := bget_local_unique fuel s5 d3 b3 g5 l C _ hh5 hl5 hf m5 hC5 rfl hC
    htC oth5 rfl
  exact ⟨s1, s2, s3, s4, s5, s6, e1, e2, e3, ⟨_, _, _, hA3, hB3, hC3, rfl, rfl, rfl⟩, e4, e5, e6⟩

end OSLab

/-! ## Page allocator: memory and the free list -/

namespace OSLab

theorem load64_congr (m m' : Nat → Nat) (r : Nat)
    (h : ∀ a, r ≤ a → a < r + 8 → m' a = m a) : load64 m' r = load64 m r := by
  simp only [load64]
  rw [h r (by omega) (by omega), h (r + 1) (by omega) (by omega),
    h (r + 2) (by omega) (by omega), h (r + 3) (by omega) (by omega),
    h (r + 4) (by omega) (by omega), h (r + 5) (by omega) (by omega),
    h (r + 6) (by omega) (by omega), h (r + 7) (by omega) (by omega)]

theorem load64_store64_self (m : Nat → Nat) (r v : Nat) (hv : v < 2 ^ 64) :
    load64 (store64 m r v) r = v := by
  simp only [load64, store64]
  simp
  omega

/-- The bytes of two distinct page-aligned addresses do not overlap. -/
theorem page_disjoint (p q a : Nat) (hp : p % PGSIZE = 0) (hq : q % PGSIZE = 0) (hne : q ≠ p)
    (h1 : q ≤ a) (h2 : a < q + 8) : ¬ (p ≤ a ∧ a < p + PGSIZE) := by
  unfold PGSIZE at *
  omega

theorem load64_memset_page (m : Nat → Nat) (p q c : Nat) (hp : p % PGSIZE = 0)
    (hq : q % PGSIZE = 0) (hne : q ≠ p) : load64 (memset m p c PGSIZE) q = load64 m q := by
  apply load64_congr
  intro a h1 h2
  simp only [memset]
  rw [if_neg (page_disjoint p q a hp hq hne h1 h2)]

theorem load64_store64_page (m : Nat → Nat) (p q v : Nat) (hp : p % PGSIZE = 0)
    (hq : q % PGSIZE = 0) (hne : q ≠ p) : load64 (store64 m p v) q = load64 m q := by
  apply load64_congr
  intro a h1 h2
  simp only [store64]
  have := page_disjoint p q a hp hq hne h1 h2
  rw [if_neg (by unfold PGSIZE at this; omega)]

theorem chain_cons {m : Nat → Nat} {p a : Nat} {l : List Nat} :
    Chain m p (a :: l) ↔ p = a ∧ a ≠ 0 ∧ Chain m (load64 m a) l := Iff.rfl

/-- A chain survives a change of memory that keeps the link of each node. -/
theorem chain_congr {m m' : Nat → Nat} {l : List Nat} :
    ∀ {p : Nat}, Chain m p l → (∀ a ∈ l, load64 m' a = load64 m a) → Chain m' p l := by
  induction l with
  | nil => intro p h _; exact h
  | cons a l ih =>
    intro p h hs
    obtain ⟨h1, h2, h3⟩ := chain_cons.mp h
    refine chain_cons.mpr ⟨h1, h2, ?_⟩
    rw [hs a (List.mem_cons_self _ _)]
    exact ih h3 (fun b hb => hs b (List.mem_cons_of_mem _ hb))

/-- The sequence reached from a pointer is determined by memory. -/
theorem chain_unique {m : Nat → Nat} {l1 : List Nat} :
    ∀ {l2 : List Nat} {p : Nat}, Chain m p l1 → Chain m p l2 → l1 = l2 := by
  induction l1 with
  | nil =>
    intro l2 p h1 h2
    cases l2 with
    | nil => rfl
    | cons b l2 =>
      obtain ⟨e, hb, _⟩ := chain_cons.mp h2
      have : p = 0 := h1
      omega
  | cons a l1 ih =>
    intro l2 p h1 h2
    obtain ⟨e, ha, h3⟩ := chain_cons.mp h1
    cases l2 with
    | nil =>
      have : p = 0 := h2
      omega
    | cons b l2 =>
      obtain ⟨e', _, h3'⟩ := chain_cons.mp h2
      have hab : a = b := by omega
      subst hab
      rw [ih h3 h3']

theorem chain_suffix {m : Nat → Nat} {l1 : List Nat} :
    ∀ {p a : Nat} {l2 : List Nat}, Chain m p (l1 ++ a :: l2) → Chain m a (a :: l2) := by
  induction l1 with
  | nil =>
    intro p a l2 h
    obtain ⟨_, ha, h3⟩ := chain_cons.mp h
    exact chain_cons.mpr ⟨rfl, ha, h3⟩
  | cons b l1 ih =>
    intro p a l2 h
    obtain ⟨_, _, h3⟩ := chain_cons.mp h
    exact ih h3

/-- The free list is acyclic: its head is not among the pages behind it. -/
theorem chain_head_not_mem {m : Nat → Nat} {p a : Nat} {l : List Nat} (h : Chain m p (a :: l)) :
    a ∉ l := by
  intro hmem
  obtain ⟨l1, l2, rfl⟩ := List.append_of_mem hmem
  obtain ⟨e, ha, h3⟩ := chain_cons.mp h
  have h4 : Chain m a (a :: l2) := chain_suffix h3
  have h5 : Chain m a (a :: (l1 ++ a :: l2)) := chain_cons.mpr ⟨rfl, ha, h3⟩
  have := chain_unique h4 h5
  have hlen := congrArg List.length this
  simp at hlen
  omega

/-- The head pointer of a free list is a 64-bit value. -/
theorem freelist_head_lt {c : Layout} {s : KMem} {l : List Nat} (hok : c.ok)
    (h : FreeList c s l) : s.freelist < 2 ^ 64 := by
  cases l with
  | nil =>
    have : s.freelist = 0 := h.1
    omega
  | cons a l =>
    obtain ⟨e, _, _⟩ := chain_cons.mp h.1
    have := (h.2 a (List.mem_cons_self _ _)).2.2
    have := hok.2
    omega

theorem ref_setRef (s : KMem) (i j n k : Nat) (h : s.ref i = .ret k) :
    (s.setRef i n).ref j = if j = i then .ret n else s.ref j := by
  simp only [KMem.ref, KMem.setRef] at h ⊢
  have hi : i < s.refCount.length := by
    by_contra hc
    rw [List.getElem?_eq_none (by omega)] at h
    cases h
  rw [List.getElem?_set]
  by_cases e : j = i
  · subst e; simp [hi]
  · have : i ≠ j := fun x => e x.symm
    simp [this, e]

/-- The outcome of `kalloc` on a non-empty free list whose head has a count. -/
theorem kalloc_eq (c : Layout) (s : KMem) (n : Nat) (h0 : s.freelist ≠ 0)
    (hn : s.ref (ipage c s.freelist) = .ret n) :
    kalloc c s =
      .ret ({ freelist := load64 s.mem s.freelist,
              refCount := s.refCount.set (ipage c s.freelist) ((n + 1) % 2 ^ 32),
              mem := memset s.mem s.freelist 5 PGSIZE }, s.freelist) := by
  have hn' : KMem.ref ⟨load64 s.mem s.freelist, s.refCount, memset s.mem s.freelist 5 PGSIZE⟩
      (ipage c s.freelist) = .ret n := hn
  have hi : (((n : Int) + 1) % 2 ^ 32).toNat = (n + 1) % 2 ^ 32 := by omega
  simp only [kalloc, acquire_nil, Res.ret_bind, h0, ne_eq, not_false_eq_true, if_true,
    acquire_reflock, acquire, release, List.erase_cons_head, List.not_mem_nil, if_false,
    refcnt_incr_n, hn', Res.pure_eq, KMem.setRef, hi]

/-- The outcome of `kfree` on a page that is shared. -/
theorem kfree_shared (c : Layout) (s : KMem) (pa n : Nat) (hn : s.ref (ipage c pa) = .ret n)
    (h1 : 1 < n) : kfree c s pa = .ret (s.setRef (ipage c pa) (n - 1)) := by
  simp only [kfree, acquire_reflock, acquire_nil, Res.ret_bind, hn, gt_iff_lt, h1, if_true,
    Res.pure_eq]

/-- The outcome of `kfree` on a page with at most one owner. -/
theorem kfree_last (c : Layout) (s : KMem) (pa n : Nat) (hn : s.ref (ipage c pa) = .ret n)
    (h1 : n ≤ 1) (hp : Page c pa) :
    kfree c s pa =
      .ret { freelist := pa, refCount := s.refCount.set (ipage c pa) 0,
             mem := store64 (memset s.mem pa 1 PGSIZE) pa s.freelist } := by
  have h1' : ¬ 1 < n := by omega
  have hv : ¬ (pa % PGSIZE ≠ 0 ∨ pa < c.kend ∨ pa ≥ c.PHYSTOP) := by
    obtain ⟨a, b, d⟩ := hp
    omega
  simp only [kfree, acquire_reflock, acquire_nil, Res.ret_bind, hn, gt_iff_lt, h1', if_false,
    hv, release_reflock, release, List.erase_cons_head, acquire, List.not_mem_nil, Res.pure_eq,
    KMem.setRef]

/-- The outcome of `kfree` on an address that is no page, when the count read
for it is at most 1. -/
theorem kfree_invalid (c : Layout) (s : KMem) (pa n : Nat) (hn : s.ref (ipage c pa) = .ret n)
    (h1 : n ≤ 1) (hp : pa % PGSIZE ≠ 0 ∨ pa < c.kend ∨ pa ≥ c.PHYSTOP) :
    kfree c s pa = .panic "kfree" := by
  have h1' : ¬ 1 < n := by omega
  simp only [kfree, acquire_reflock, acquire_nil, Res.ret_bind, hn, gt_iff_lt, h1', if_false, hp,
    if_true]

end OSLab

/-! ## Page allocator: pop and push of the free list -/

namespace OSLab

theorem ref_of_refCount {s s' : KMem} (h : s'.refCount = s.refCount) (j : Nat) :
    s'.ref j = s.ref j := by
  simp only [KMem.ref, h]

theorem ref_set (s s' : KMem) (i j n k : Nat) (h : s.ref i = .ret k)
    (hs : s'.refCount = s.refCount.set i n) :
    s'.ref j = if j = i then .ret n else s.ref j := by
  rw [← ref_setRef s i j n k h]
  exact ref_of_refCount hs j

/-- Allocation pops the head of the free list: the rest of the list is the new
free list, the page is filled with 5 and its count is incremented. -/
theorem kalloc_pop (c : Layout) (s : KMem) (P n : Nat) (t : List Nat)
    (hfl : FreeList c s (P :: t)) (hn : s.ref (ipage c P) = .ret n) :
    ∃ s', kalloc c s = .ret (s', P) ∧ FreeList c s' t ∧ P ∉ t ∧
      s'.refCount = s.refCount.set (ipage c P) ((n + 1) % 2 ^ 32) ∧
      s'.mem = memset s.mem P 5 PGSIZE := by
  obtain ⟨hch, hpg⟩ := hfl
  obtain ⟨e, h0, hrest⟩ := chain_cons.mp hch
  have hnot : P ∉ t := chain_head_not_mem hch
  have hP : Page c P := hpg P (List.mem_cons_self _ _)
  have hn' : s.ref (ipage c s.freelist) = .ret n := by rw [e]; exact hn
  have h0' : s.freelist ≠ 0 := by rw [e]; exact h0
  have hk := kalloc_eq c s n h0' hn'
  rw [e] at hk
  refine ⟨_, hk, ⟨?_, fun a ha => hpg a (List.mem_cons_of_mem _ ha)⟩, hnot, rfl, rfl⟩
  show Chain (memset s.mem P 5 PGSIZE) (load64 s.mem P) t
  refine chain_congr hrest (fun q hq => ?_)
  have hQ : Page c q := hpg q (List.mem_cons_of_mem _ hq)
  exact load64_memset_page s.mem P q 5 hP.1 hQ.1 (fun x => hnot (x ▸ hq))

/-- Freeing a page with at most one owner pushes it on the free list: the page
becomes the head, its count becomes 0 and it is filled with 1 behind its link. -/
theorem kfree_push (c : Layout) (s : KMem) (P n : Nat) (l : List Nat) (hok : c.ok)
    (hfl : FreeList c s l) (hnot : P ∉ l) (hP : Page c P) (h0 : P ≠ 0)
    (hn : s.ref (ipage c P) = .ret n) (h1 : n ≤ 1) :
    ∃ s', kfree c s P = .ret s' ∧ FreeList c s' (P :: l) ∧
      s'.refCount = s.refCount.set (ipage c P) 0 ∧ s'.freelist = P ∧
      s'.mem = store64 (memset s.mem P 1 PGSIZE) P s.freelist := by
  refine ⟨_, kfree_last c s P n hn h1 hP, ⟨?_, ?_⟩, rfl, rfl, rfl⟩
  · refine chain_cons.mpr ⟨rfl, h0, ?_⟩
    show Chain (store64 (memset s.mem P 1 PGSIZE) P s.freelist)
      (load64 (store64 (memset s.mem P 1 PGSIZE) P s.freelist) P) l
    rw [load64_store64_self _ _ _ (freelist_head_lt hok hfl)]
    refine chain_congr hfl.1 (fun q hq => ?_)
    have hQ : Page c q := hfl.2 q hq
    have hne : q ≠ P := fun x => hnot (x ▸ hq)
    rw [load64_store64_page _ P q _ hP.1 hQ.1 hne, load64_memset_page _ P q 1 hP.1 hQ.1 hne]
  · intro a ha
    cases ha with
    | head => exact hP
    | tail _ h => exact hfl.2 a h

theorem refcnt_incr_n_one (c : Layout) (s : KMem) (pa n : Nat)
    (hn : s.ref (ipage c pa) = .ret n) :
    refcnt_incr_n c s pa 1 = .ret (s.setRef (ipage c pa) ((n + 1) % 2 ^ 32)) := by
  have hi : (((n : Int) + 1) % 2 ^ 32).toNat = (n + 1) % 2 ^ 32 := by omega
  simp only [refcnt_incr_n, hn, Res.ret_bind, Res.pure_eq, hi]

theorem set_set_self (l : List Nat) (i a : Nat) (h : l[i]? = some a) (b : Nat) :
    (l.set i b).set i a = l := by
  rw [List.set_set]
  apply List.ext_getElem?
  intro j
  rw [List.getElem?_set]
  by_cases e : i = j
  · subst e
    have hi : i < l.length := by
      by_contra hc
      rw [List.getElem?_eq_none (by omega)] at h
      cases h
    simp [hi, h]
  · simp [e]

end OSLab

/-! ## Claims C4 (witness) and C7 to C9 -/

namespace OSLab

/-- C4, amended, at a concrete input: in `three_held_state` slots 0, 1, 2 are
released at ticks 7, 8, 9; the misses for (0,3), (0,4), (0,5) then claim slots
0, 1, 2 in that order. -/
theorem C4_lru_order_witness :
    Seg three_held_state (.buf 2) [.buf 2, .buf 1, .buf 0] .null ∧
    ∃ s1 s2 s3 s4 s5 s6, brelse 7 three_held_state (.buf 0) = .ret s1 ∧
      brelse 8 s1 (.buf 1) = .ret s2 ∧ brelse 9 s2 (.buf 2) = .ret s3 ∧
      (∃ yA yB yC, s3.rd (.buf 0) = .ret yA ∧ s3.rd (.buf 1) = .ret yB ∧
        s3.rd (.buf 2) = .ret yC ∧ yA.refcnt = 0 ∧ yB.refcnt = 0 ∧ yC.refcnt = 0) ∧
      bget 4 s3 0 3 = .ret (s4, .buf 0) ∧ bget 4 s4 0 4 = .ret (s5, .buf 1) ∧
      bget 4 s5 0 5 = .ret (s6, .buf 2) := by
  have hm : ∀ d b, (b ≠ 0 ∧ b ≠ 1 ∧ b ≠ 2) →
      Misses three_held_state [.buf 2, .buf 1, .buf 0] d b := by
    intro d b hb a ha x hx
    simp only [List.mem_cons, List.mem_singleton, List.not_mem_nil, or_false] at ha
    rcases ha with rfl | rfl | rfl <;> cases hx <;>
      (intro hid; have h2 : b = _ := hid.2.symm; subst h2; revert hb; decide)
  refine ⟨by decide, ?_⟩
  exact C4_lru_order_within_bucket 4 three_held_state ⟨false, 0, 0, false, 0, 0, .buf 2⟩
    [.buf 2, .buf 1, .buf 0] (.buf 0) (.buf 1) (.buf 2) ⟨false, 0, 2, true, 1, 0, .null⟩
    ⟨false, 0, 1, true, 1, 0, .buf 0⟩ ⟨false, 0, 0, true, 1, 0, .buf 1⟩ 7 8 9 0 3 0 4 0 5
    rfl (by decide) (by decide) rfl rfl (by decide) (by decide) (by decide) (by decide)
    (by decide) (by decide) rfl rfl rfl rfl rfl rfl rfl rfl rfl
    (by
      intro a ha h1 h2 h3
      simp only [List.mem_cons, List.mem_singleton, List.not_mem_nil, or_false] at ha
      rcases ha with rfl | rfl | rfl
      · exact (h3 rfl).elim
      · exact (h2 rfl).elim
      · exact (h1 rfl).elim)
    (by decide) (by decide) (by decide) (hm 0 3 (by decide)) (hm 0 4 (by decide))
    (hm 0 5 (by decide)) (by decide) (by decide) (by decide)

/-- C7 as stated fails when the head of the free list has a count other than
0: `kalloc` adds 1 to the count, it does not set it. On the small machine, with
page 12288 alone on the free list and its count raised to 1, `kalloc` returns
the page with count 2. -/
theorem C7_counterexample_counted_head :
    ∃ s s', counted_free = .ret s ∧ FreeList small s [12288] ∧
      s.ref (ipage small 12288) = .ret 1 ∧
      kalloc small s = .ret (s', 12288) ∧ s'.ref (ipage small 12288) = .ret 2 :=
  ⟨_, _, rfl, by decide, rfl, rfl, rfl⟩

/-- C7, amended. On a non-empty free list `kalloc` returns the head page, the
free list afterwards is the old list without its head, every byte of the page
is 5, the page's count is its old count plus 1 (modulo `2^32`), which is
exactly 1 when the head page had count 0, and every other count is unchanged;
memory outside the page is unchanged. -/
theorem C7_kalloc_success (c : Layout) (s : KMem) (P n : Nat) (t : List Nat)
    (hfl : FreeList c s (P :: t)) (hn : s.ref (ipage c P) = .ret n) :
    ∃ s', kalloc c s = .ret (s', P) ∧ s.freelist = P ∧ FreeList c s' t ∧
      (∀ a, P ≤ a → a < P + PGSIZE → s'.mem a = 5) ∧
      s'.ref (ipage c P) = .ret ((n + 1) % 2 ^ 32) ∧
      (n = 0 → s'.ref (ipage c P) = .ret 1) ∧
      (∀ j, j ≠ ipage c P → s'.ref j = s.ref j) ∧
      (∀ a, ¬ (P ≤ a ∧ a < P + PGSIZE) → s'.mem a = s.mem a) := by
  obtain ⟨s', hk, hfl', -, hrc, hmem⟩ := kalloc_pop c s P n t hfl hn
  have hr := ref_set s s' (ipage c P) (ipage c P) _ n hn hrc
  rw [if_pos rfl] at hr
  refine ⟨s', hk, (chain_cons.mp hfl.1).1, hfl', ?_, hr, ?_, ?_, ?_⟩
  · intro a h1 h2
    rw [hmem]
    simp only [memset]
    rw [if_pos ⟨h1, h2⟩]
  · intro h0
    rw [hr, h0]
    norm_num
  · intro j hj
    rw [ref_set s s' (ipage c P) j _ n hn hrc, if_neg hj]
  · intro a ha
    rw [hmem]
    simp only [memset]
    rw [if_neg ha]

/-- C7, amended, at a concrete input: `kalloc` on `one_free`. -/
theorem C7_kalloc_success_witness :
    ∃ s', kalloc small one_free = .ret (s', 12288) ∧ one_free.freelist = 12288 ∧
      FreeList small s' [] ∧
      (∀ a, 12288 ≤ a → a < 12288 + PGSIZE → s'.mem a = 5) ∧
      s'.ref (ipage small 12288) = .ret ((0 + 1) % 2 ^ 32) ∧
      (0 = 0 → s'.ref (ipage small 12288) = .ret 1) ∧
      (∀ j, j ≠ ipage small 12288 → s'.ref j = one_free.ref j) ∧
      (∀ a, ¬ (12288 ≤ a ∧ a < 12288 + PGSIZE) → s'.mem a = one_free.mem a) :=
  C7_kalloc_success small one_free 12288 0 [] (by decide) rfl

/-- C8. Shared-page semantics: from a free list whose head page `P` has count
0, after `P = kalloc()` and one share of `P`, the first `kfree(P)` leaves the
count of `P` at 1 and changes neither the free list, on which `P` is not, nor
memory; the second `kfree(P)` sets the count to 0 and makes `P` the head of the
free list. -/
theorem C8_shared_page_two_releases (c : Layout) (s : KMem) (P : Nat) (t : List Nat)
    (hok : c.ok) (hfl : FreeList c s (P :: t)) (h0 : s.ref (ipage c P) = .ret 0) :
    ∃ s1 s2 s3 s4, kalloc c s = .ret (s1, P) ∧ refcnt_incr_n c s1 P 1 = .ret s2 ∧
      kfree c s2 P = .ret s3 ∧ s3.ref (ipage c P) = .ret 1 ∧ FreeList c s3 t ∧ P ∉ t ∧
      s3.freelist = s2.freelist ∧ s3.mem = s2.mem ∧
      kfree c s3 P = .ret s4 ∧ s4.ref (ipage c P) = .ret 0 ∧ s4.freelist = P ∧
      FreeList c s4 (P :: t) := by
  obtain ⟨s1, hk, hfl1, hnot, hrc1, -⟩ := kalloc_pop c s P 0 t hfl h0
  have hP : Page c P := hfl.2 P (List.mem_cons_self _ _)
  have hP0 : P ≠ 0 := (chain_cons.mp hfl.1).2.1
  have e1 : (0 + 1) % 2 ^ 32 = 1 := by norm_num
  rw [e1] at hrc1
  have hr1 : s1.ref (ipage c P) = .ret 1 := by
    rw [ref_set s s1 (ipage c P) (ipage c P) 1 0 h0 hrc1, if_pos rfl]
  have hi := refcnt_incr_n_one c s1 P 1 hr1
  have e2 : (1 + 1) % 2 ^ 32 = 2 := by norm_num
  rw [e2] at hi
  have hr2 : (s1.setRef (ipage c P) 2).ref (ipage c P) = .ret 2 := by
    rw [ref_setRef s1 _ _ 2 1 hr1, if_pos rfl]
  have hf1 := kfree_shared c (s1.setRef (ipage c P) 2) P 2 hr2 (by omega)
  have hr3 : ((s1.setRef (ipage c P) 2).setRef (ipage c P) (2 - 1)).ref (ipage c P) = .ret 1 := by
    rw [ref_setRef _ _ _ (2 - 1) 2 hr2, if_pos rfl]
  have hfl3 : FreeList c ((s1.setRef (ipage c P) 2).setRef (ipage c P) (2 - 1)) t := hfl1
  obtain ⟨s4, hf2, hfl4, hrc4, hhd4, -⟩ :=
    kfree_push c _ P 1 t hok hfl3 hnot hP hP0 hr3 (by omega)
  refine ⟨s1, _, _, s4, hk, hi, hf1, hr3, hfl3, hnot, rfl, rfl, hf2, ?_, hhd4, hfl4⟩
  rw [ref_set _ s4 (ipage c P) (ipage c P) 0 1 hr3 hrc4, if_pos rfl]

/-- C8 at a concrete input: `one_free` on the small machine. -/
theorem C8_shared_page_witness :
    ∃ s1 s2 s3 s4, kalloc small one_free = .ret (s1, 12288) ∧
      refcnt_incr_n small s1 12288 1 = .ret s2 ∧
      kfree small s2 12288 = .ret s3 ∧ s3.ref (ipage small 12288) = .ret 1 ∧
      FreeList small s3 [] ∧ 12288 ∉ ([] : List Nat) ∧
      s3.freelist = s2.freelist ∧ s3.mem = s2.mem ∧
      kfree small s3 12288 = .ret s4 ∧ s4.ref (ipage small 12288) = .ret 0 ∧
      s4.freelist = 12288 ∧ FreeList small s4 [12288] :=
  C8_shared_page_two_releases small one_free 12288 [] (by decide) (by decide) rfl

/-- C9. Allocator round trip: from a free list whose head page `P` has count
0, `P = kalloc()` followed by `kfree(P)` restores the free list, as a sequence
of pages, and the whole reference-count table, and the next `kalloc()` returns
`P` again. -/
theorem C9_alloc_free_round_trip (c : Layout) (s : KMem) (P : Nat) (t : List Nat)
    (hok : c.ok) (hfl : FreeList c s (P :: t)) (h0 : s.ref (ipage c P) = .ret 0) :
    ∃ s1 s2 s3, kalloc c s = .ret (s1, P) ∧ kfree c s1 P = .ret s2 ∧
      FreeList c s2 (P :: t) ∧ s2.refCount = s.refCount ∧ kalloc c s2 = .ret (s3, P) := by
  obtain ⟨s1, hk, hfl1, hnot, hrc1, -⟩ := kalloc_pop c s P 0 t hfl h0
  have hP : Page c P := hfl.2 P (List.mem_cons_self _ _)
  have hP0 : P ≠ 0 := (chain_cons.mp hfl.1).2.1
  have e1 : (0 + 1) % 2 ^ 32 = 1 := by norm_num
  rw [e1] at hrc1
  have hr1 : s1.ref (ipage c P) = .ret 1 := by
    rw [ref_set s s1 (ipage c P) (ipage c P) 1 0 h0 hrc1, if_pos rfl]
  obtain ⟨s2, hf, hfl2, hrc2, -, -⟩ := kfree_push c s1 P 1 t hok hfl1 hnot hP hP0 hr1 (by omega)
  have hsome : s.refCount[ipage c P]? = some 0 := by
    simp only [KMem.ref] at h0
    cases hx : s.refCount[ipage c P]? with
    | none => rw [hx] at h0; cases h0
    | some v => rw [hx] at h0; cases h0; rfl
  have htab : s2.refCount = s.refCount := by
    rw [hrc2, hrc1]
    exact set_set_self s.refCount (ipage c P) 0 hsome 1
  have hr2 : s2.ref (ipage c P) = .ret 0 := by
    rw [ref_of_refCount htab]; exact h0
  obtain ⟨s3, hk3, -⟩ := kalloc_pop c s2 P 0 t hfl2 hr2
  exact ⟨s1, s2, s3, hk, hf, hfl2, htab, hk3⟩

/-- C9 at a concrete input: `one_free` on the small machine. -/
theorem C9_round_trip_witness :
    ∃ s1 s2 s3, kalloc small one_free = .ret (s1, 12288) ∧ kfree small s1 12288 = .ret s2 ∧
      FreeList small s2 [12288] ∧ s2.refCount = one_free.refCount ∧
      kalloc small s2 = .ret (s3, 12288) :=
  C9_alloc_free_round_trip small one_free 12288 [] (by decide) (by decide) rfl

end OSLab

/-! ## Claims C11, C12 and C20 -/

namespace OSLab

/-- C11. `kfree` of a shared page only decrements: when the count of `pa` is
greater than 1, `kfree(pa)` decreases it by exactly 1 and changes neither the
free list, nor memory, nor the count of any other page. -/
theorem C11_kfree_shared_only_decrements (c : Layout) (s : KMem) (pa n : Nat)
    (hn : s.ref (ipage c pa) = .ret n) (h1 : 1 < n) :
    ∃ s', kfree c s pa = .ret s' ∧ s'.ref (ipage c pa) = .ret (n - 1) ∧ n - 1 + 1 = n ∧
      (∀ j, j ≠ ipage c pa → s'.ref j = s.ref j) ∧ s'.freelist = s.freelist ∧
      s'.mem = s.mem ∧ s'.refCount.length = s.refCount.length := by
  refine ⟨_, kfree_shared c s pa n hn h1, ?_, by omega, ?_, rfl, rfl, ?_⟩
  · rw [ref_setRef s _ _ (n - 1) n hn, if_pos rfl]
  · intro j hj
    rw [ref_setRef s _ _ (n - 1) n hn, if_neg hj]
  · simp [KMem.setRef]

/-- C11 at a concrete input: `kfree(12288)` in `two_owners`. -/
theorem C11_kfree_shared_witness :
    ∃ s', kfree small two_owners 12288 = .ret s' ∧ s'.ref (ipage small 12288) = .ret (2 - 1) ∧
      2 - 1 + 1 = 2 ∧ (∀ j, j ≠ ipage small 12288 → s'.ref j = two_owners.ref j) ∧
      s'.freelist = two_owners.freelist ∧ s'.mem = two_owners.mem ∧
      s'.refCount.length = two_owners.refCount.length :=
  C11_kfree_shared_only_decrements small two_owners 12288 2 rfl (by decide)

/-- C12. Page exhaustion is not fatal: on an empty free list `kalloc`, and
`kalloc_freelock` called by a CPU that does not hold `kmem.lock`, return the
null address 0 and the state they were given. -/
theorem C12_kalloc_empty_returns_null (c : Layout) (s : KMem) (held : List Lock)
    (h0 : s.freelist = 0) (hk : Lock.kmem ∉ held) :
    kalloc c s = .ret (s, 0) ∧ kalloc_freelock held c s = .ret (s, 0) := by
  constructor
  · simp only [kalloc, acquire_nil, Res.ret_bind, h0, ne_eq, not_true_eq_false, if_false,
      Res.pure_eq]
  · simp only [kalloc_freelock, acquire, hk, if_false, Res.ret_bind, h0, ne_eq,
      not_true_eq_false, Res.pure_eq]

/-- C12 at a concrete input: `two_owners`, whose free list is empty, with the
caller of `kalloc_freelock` holding `ref_list.lock`. -/
theorem C12_kalloc_empty_witness :
    kalloc small two_owners = .ret (two_owners, 0) ∧
      kalloc_freelock [.ref_list] small two_owners = .ret (two_owners, 0) :=
  C12_kalloc_empty_returns_null small two_owners [.ref_list] rfl (by decide)

theorem bunpin_eq (s : BCache) (b : Ptr) (x : Buf) (hx : s.rd b = .ret x) :
    bunpin s b = .ret (s.set b { x with refcnt := uint_dec x.refcnt }) := by
  simp only [bunpin, hx, Res.ret_bind, acquire_nil, upd_eq s b _ x hx,
    rd_set_self s b x _ hx, Res.pure_eq]

theorem bpin_eq (s : BCache) (b : Ptr) (x : Buf) (hx : s.rd b = .ret x) :
    bpin s b = .ret (s.set b { x with refcnt := (x.refcnt + 1) % 2 ^ 32 }) := by
  simp only [bpin, hx, Res.ret_bind, acquire_nil, upd_eq s b _ x hx,
    rd_set_self s b x _ hx, Res.pure_eq]

/-- C20 (code evaluated at a failing input). In `two_held_state`, reached from
`binit` by two `bget` calls, the pool scan of `loop_find` selects slot 2,
unreferenced with the least timestamp. Slot 2 is on the list of bucket 1, not
on the list of bucket `ihash(blockno) = 0`, which is the bucket of the request
(0,4) and whose lock `bget` holds. `loop_find`, entered as `bget` enters it,
stops at that lock; entered with only `bcache.lock` held, its walk over the
list of bucket 0 runs through the null link at the end. -/
theorem C20_unlink_walk_leaves_the_list :
    (∀ fuel, two_held (fuel + 3) = .ret two_held_state) ∧
    loop_find_scan 0 two_held_state.buf .null (1 <<< 20) = (.buf 2, 0) ∧
    two_held_state.rd (.buf 2) = .ret ⟨false, 0, 0, false, 0, 0, .null⟩ ∧
    ihash two_held_state.NBUCKET 0 = 0 ∧ ihash two_held_state.NBUCKET 4 = 0 ∧
    two_held_state.rd (.head 0) = .ret ⟨false, 0, 0, false, 0, 0, .buf 1⟩ ∧
    Seg two_held_state (.buf 1) [.buf 1, .buf 0] .null ∧ Ptr.buf 2 ∉ [Ptr.buf 1, Ptr.buf 0] ∧
    two_held_state.rd (.head 1) = .ret ⟨false, 0, 0, false, 0, 0, .buf 3⟩ ∧
    Seg two_held_state (.buf 3) [.buf 3, .buf 2] .null ∧
    (∀ fuel n, loop_find (fuel + 3) two_held_state [.bcache, .bucket 0] (n + 1) .null
      (1 <<< 20) = .deadlock) ∧
    (∀ fuel n, loop_find (fuel + 3) two_held_state [.bcache] (n + 1) .null (1 <<< 20) =
      .fault) :=
  ⟨fun _ => rfl, rfl, rfl, rfl, rfl, rfl, by decide, by decide, rfl, by decide,
    fun _ _ => rfl, fun _ _ => rfl⟩

end OSLab

/-! ## Claim C18: the free list built at boot -/

namespace OSLab

theorem PGROUNDUP_spec (sz : Nat) (h : sz + PGSIZE ≤ 2 ^ 64) :
    PGROUNDUP sz % PGSIZE = 0 ∧ sz ≤ PGROUNDUP sz ∧ PGROUNDUP sz < sz + PGSIZE := by
  unfold PGROUNDUP PGSIZE at *
  norm_num at h ⊢
  omega

theorem mem_pages (p0 p : Nat) : ∀ n, p ∈ pages p0 n ↔ ∃ j, j < n ∧ p = p0 + j * PGSIZE := by
  intro n
  induction n with
  | zero => simp [pages]
  | succ n ih =>
    simp only [pages, List.mem_cons, ih]
    constructor
    · rintro (h | ⟨j, hj, h⟩)
      · exact ⟨n, by omega, h⟩
      · exact ⟨j, by omega, h⟩
    · rintro ⟨j, hj, h⟩
      by_cases e : j = n
      · subst e; exact Or.inl h
      · exact Or.inr ⟨j, by omega, h⟩

theorem set_same (l : List Nat) (i a : Nat) (h : l[i]? = some a) : l.set i a = l := by
  apply List.ext_getElem?
  intro j
  rw [List.getElem?_set]
  by_cases e : i = j
  · subst e
    have hi : i < l.length := by
      by_contra hc
      rw [List.getElem?_eq_none (by omega)] at h
      cases h
    simp [hi, h]
  · simp [e]

/-- The index of a page below `PHYSTOP` lies inside the table. -/
theorem ipage_lt (c : Layout) (hok : c.ok) (p : Nat) (h1 : c.kend ≤ p)
    (h2 : p + PGSIZE ≤ c.PHYSTOP) :
    ipage c p = (p - c.KERNBASE) / PGSIZE ∧ ipage c p < (c.PHYSTOP - c.KERNBASE) / PGSIZE := by
  obtain ⟨hk, hp⟩ := hok
  unfold ipage PGSIZE at *
  norm_num at hp ⊢
  have e : (p + 18446744073709551616 - c.KERNBASE) % 18446744073709551616 = p - c.KERNBASE := by
    omega
  rw [e]
  refine ⟨rfl, ?_⟩
  omega

end OSLab

namespace OSLab

end OSLab

/-! ## Claim C19: free list and reference counts agree -/

namespace OSLab

/-- The free list holds no page twice. -/
theorem chain_nodup {m : Nat → Nat} {l : List Nat} : ∀ {p : Nat}, Chain m p l → l.Nodup := by
  induction l with
  | nil => intro p _; exact List.nodup_nil
  | cons a l ih =>
    intro p h
    obtain ⟨_, _, h3⟩ := chain_cons.mp h
    exact List.nodup_cons.mpr ⟨chain_head_not_mem h, ih h3⟩

/-- Distinct pages have distinct entries in the table. -/
theorem ipage_inj (c : Layout) (hok : c.ok) (p q : Nat) (hp : Page c p) (hq : Page c q)
    (hne : p ≠ q) : ipage c p ≠ ipage c q := by
  obtain ⟨hk, hP⟩ := hok
  obtain ⟨a1, a2, a3⟩ := hp
  obtain ⟨b1, b2, b3⟩ := hq
  unfold ipage PGSIZE at *
  norm_num at hP ⊢
  have e1 : (p + 18446744073709551616 - c.KERNBASE) % 18446744073709551616 = p - c.KERNBASE := by
    omega
  have e2 : (q + 18446744073709551616 - c.KERNBASE) % 18446744073709551616 = q - c.KERNBASE := by
    omega
  rw [e1, e2]
  omega

/-- One round of the loop of `freerange`: `kfree` of the `k`-th page. -/
theorem freerange_step (c : Layout) (hok : c.ok) (hk0 : 0 < c.kend) (p0 pa_end k : Nat)
    (hp0 : p0 % PGSIZE = 0) (hs : c.kend ≤ p0) (he : pa_end ≤ c.PHYSTOP) (s : KMem)
    (hgo : p0 + k * PGSIZE + PGSIZE ≤ pa_end) (hfl : FreeList c s (pages p0 k))
    (hrc : s.refCount = List.replicate ((c.PHYSTOP - c.KERNBASE) / PGSIZE) 0) :
    ∃ s1, kfree c s (p0 + k * PGSIZE) = .ret s1 ∧ FreeList c s1 (pages p0 (k + 1)) ∧
      s1.refCount = List.replicate ((c.PHYSTOP - c.KERNBASE) / PGSIZE) 0 := by
  have hP : Page c (p0 + k * PGSIZE) := by
    refine ⟨?_, ?_, ?_⟩
    · unfold PGSIZE at *; omega
    · omega
    · unfold PGSIZE at *; omega
  have hne : p0 + k * PGSIZE ≠ 0 := by omega
  have hnot : p0 + k * PGSIZE ∉ pages p0 k := by
    intro hmem
    obtain ⟨j, hj, e⟩ := (mem_pages p0 _ k).mp hmem
    unfold PGSIZE at e
    omega
  obtain ⟨-, hlt⟩ := ipage_lt c hok (p0 + k * PGSIZE) (by omega) (by omega)
  have hsome : s.refCount[ipage c (p0 + k * PGSIZE)]? = some 0 := by
    rw [hrc, List.getElem?_replicate]
    simp [hlt]
  have hr : s.ref (ipage c (p0 + k * PGSIZE)) = .ret 0 := by
    simp only [KMem.ref, hsome]
  obtain ⟨s1, hf1, hfl1, hrc1, -, -⟩ :=
    kfree_push c s _ 0 (pages p0 k) hok hfl hnot hP hne hr (by omega)
  exact ⟨s1, hf1, hfl1, by rw [hrc1, set_same _ _ _ hsome, hrc]⟩

/-- Whenever the loop of `freerange` returns, all the pages up to `pa_end` are
on the free list and the table is still all zero. -/
theorem freerange_loop_ret (c : Layout) (hok : c.ok) (hk0 : 0 < c.kend) (p0 pa_end N : Nat)
    (hp0 : p0 % PGSIZE = 0) (hs : c.kend ≤ p0) (he : pa_end ≤ c.PHYSTOP)
    (hN : N = (pa_end - p0) / PGSIZE) :
    ∀ (fuel k : Nat) (s s' : KMem), k ≤ N → FreeList c s (pages p0 k) →
      s.refCount = List.replicate ((c.PHYSTOP - c.KERNBASE) / PGSIZE) 0 →
      freerange_loop c pa_end fuel s (p0 + k * PGSIZE) = .ret s' →
      FreeList c s' (pages p0 N) ∧
        s'.refCount = List.replicate ((c.PHYSTOP - c.KERNBASE) / PGSIZE) 0 := by
  intro fuel
  induction fuel with
  | zero => intro k s s' _ _ _ h; cases h
  | succ n ih =>
    intro k s s' hk hfl hrc h
    by_cases hgo : p0 + k * PGSIZE + PGSIZE ≤ pa_end
    · have hkN : k < N := by
        unfold PGSIZE at *
        omega
      obtain ⟨s1, hs1, hfl1, hrc1⟩ := freerange_step c hok hk0 p0 pa_end k hp0 hs he s hgo hfl hrc
      have hstep : p0 + k * PGSIZE + PGSIZE = p0 + (k + 1) * PGSIZE := by
        unfold PGSIZE; omega
      simp only [freerange_loop, hgo, if_true, hs1, Res.ret_bind] at h
      rw [hstep] at h
      exact ih (k + 1) s1 s' (by omega) hfl1 hrc1 h
    · have hkN : k = N := by
        unfold PGSIZE at *
        omega
      simp only [freerange_loop, hgo, if_false] at h
      cases h
      exact ⟨hkN ▸ hfl, hrc⟩

theorem kinv_boot (c : Layout) (m : Nat → Nat) (hok : c.ok) (hk0 : 0 < c.kend)
    (hw : c.kend + PGSIZE ≤ 2 ^ 64) (hal : c.PHYSTOP % PGSIZE = 0) (fuel : Nat) (s : KMem)
    (h : kinit fuel c (KMem.boot c m) = .ret s) : KInv c s := by
  obtain ⟨h1, h2, h3⟩ := PGROUNDUP_spec c.kend hw
  obtain ⟨hfl, hrc⟩ := freerange_loop_ret c hok hk0 (PGROUNDUP c.kend) c.PHYSTOP _ h1 h2
    (Nat.le_refl _) rfl fuel 0 (KMem.boot c m) s (Nat.zero_le _) ⟨rfl, fun a ha => by cases ha⟩
    rfl (by simpa [kinit, freerange] using h)
  refine ⟨_, hfl, ?_⟩
  intro p hp
  obtain ⟨a1, a2, a3⟩ := hp
  have hle : p + PGSIZE ≤ c.PHYSTOP := by
    unfold PGSIZE at *; omega
  obtain ⟨-, hlt⟩ := ipage_lt c hok p a2 hle
  refine ⟨0, ?_, ?_⟩
  · simp only [KMem.ref, hrc, List.getElem?_replicate, hlt, if_true]
  · refine ⟨fun _ => rfl, fun _ => ?_⟩
    rw [mem_pages]
    generalize PGROUNDUP c.kend = p0 at h1 h2 h3
    clear hlt hfl hrc h
    unfold PGSIZE at *
    exact ⟨(p - p0) / 4096, by omega, by omega⟩

theorem kinv_alloc (c : Layout) (hok : c.ok) (s s' : KMem) (p : Nat) (hi : KInv c s)
    (h : kalloc c s = .ret (s', p)) : KInv c s' := by
  obtain ⟨l, hfl, hcnt⟩ := hi
  cases l with
  | nil =>
    have h0 : s.freelist = 0 := hfl.1
    have : kalloc c s = .ret (s, 0) := by
      simp only [kalloc, acquire_nil, Res.ret_bind, h0, ne_eq, not_true_eq_false, if_false,
        Res.pure_eq]
    rw [this] at h
    cases h
    exact ⟨[], hfl, hcnt⟩
  | cons P t =>
    have hP : Page c P := hfl.2 P (List.mem_cons_self _ _)
    obtain ⟨n, hn, hiff⟩ := hcnt P hP
    have hn0 : n = 0 := hiff.mp (List.mem_cons_self _ _)
    subst hn0
    obtain ⟨s1, hk, hfl1, hnot, hrc1, -⟩ := kalloc_pop c s P 0 t hfl hn
    obtain ⟨e1, e2⟩ : s1 = s' ∧ P = p := by
      rw [hk] at h
      cases h
      exact ⟨rfl, rfl⟩
    subst e1 e2
    refine ⟨t, hfl1, ?_⟩
    intro q hq
    obtain ⟨k, hk', hiff'⟩ := hcnt q hq
    by_cases e : q = P
    · subst e
      refine ⟨(0 + 1) % 2 ^ 32, ?_, ?_⟩
      · rw [ref_set s s1 _ _ _ 0 hn hrc1, if_pos rfl]
      · constructor
        · intro hm; exact (hnot hm).elim
        · intro hz; norm_num at hz
    · refine ⟨k, ?_, ?_⟩
      · rw [ref_set s s1 _ _ _ 0 hn hrc1, if_neg (ipage_inj c hok q P hq hP e)]
        exact hk'
      · rw [← hiff']
        simp [e]

theorem kinv_free (c : Layout) (hok : c.ok) (hk0 : 0 < c.kend) (s s' : KMem) (pa n : Nat)
    (hi : KInv c s) (hp : Page c pa) (hn : s.ref (ipage c pa) = .ret n) (h1 : 1 ≤ n)
    (h : kfree c s pa = .ret s') : KInv c s' := by
  obtain ⟨l, hfl, hcnt⟩ := hi
  obtain ⟨n', hn', hiff⟩ := hcnt pa hp
  rw [hn] at hn'
  cases hn'
  have hnot : pa ∉ l := fun hm => by have := hiff.mp hm; omega
  by_cases hgt : 1 < n
  · rw [kfree_shared c s pa n hn hgt] at h
    cases h
    refine ⟨l, hfl, ?_⟩
    intro q hq
    obtain ⟨k, hk', hiff'⟩ := hcnt q hq
    by_cases e : q = pa
    · subst e
      refine ⟨n - 1, by rw [ref_setRef s _ _ _ n hn, if_pos rfl], ?_⟩
      constructor
      · intro hm; exact (hnot hm).elim
      · intro hz; omega
    · exact ⟨k, by rw [ref_setRef s _ _ _ n hn, if_neg (ipage_inj c hok q pa hq hp e)]; exact hk',
        hiff'⟩
  · have hne : pa ≠ 0 := by have := hp.2.1; omega
    obtain ⟨s1, hf, hfl1, hrc1, -, -⟩ := kfree_push c s pa n l hok hfl hnot hp hne hn (by omega)
    rw [hf] at h
    cases h
    refine ⟨pa :: l, hfl1, ?_⟩
    intro q hq
    obtain ⟨k, hk', hiff'⟩ := hcnt q hq
    by_cases e : q = pa
    · subst e
      exact ⟨0, by rw [ref_set s s' _ _ _ n hn hrc1, if_pos rfl],
        ⟨fun _ => rfl, fun _ => List.mem_cons_self _ _⟩⟩
    · refine ⟨k, ?_, ?_⟩
      · rw [ref_set s s' _ _ _ n hn hrc1, if_neg (ipage_inj c hok q pa hq hp e)]
        exact hk'
      · rw [← hiff']
        simp [e]

theorem kinv_share (c : Layout) (hok : c.ok) (s s' : KMem) (pa n : Nat)
    (hi : KInv c s) (hp : Page c pa) (hn : s.ref (ipage c pa) = .ret n) (h1 : 1 ≤ n)
    (h2 : n + 1 < 2 ^ 32) (h : refcnt_incr_n c s pa 1 = .ret s') : KInv c s' := by
  obtain ⟨l, hfl, hcnt⟩ := hi
  obtain ⟨n', hn', hiff⟩ := hcnt pa hp
  rw [hn] at hn'
  cases hn'
  have hnot : pa ∉ l := fun hm => by have := hiff.mp hm; omega
  rw [refcnt_incr_n_one c s pa n hn] at h
  cases h
  refine ⟨l, hfl, ?_⟩
  intro q hq
  obtain ⟨k, hk', hiff'⟩ := hcnt q hq
  by_cases e : q = pa
  · subst e
    refine ⟨(n + 1) % 2 ^ 32, by rw [ref_setRef s _ _ _ n hn, if_pos rfl], ?_⟩
    constructor
    · intro hm; exact (hnot hm).elim
    · intro hz
      rw [Nat.mod_eq_of_lt h2] at hz
      omega
  · exact ⟨k, by rw [ref_setRef s _ _ _ n hn, if_neg (ipage_inj c hok q pa hq hp e)]; exact hk',
      hiff'⟩

/-- Free list and counts agree in every state reachable without overflowing a
count. -/
theorem kinv_reach (c : Layout) (m : Nat → Nat) (hok : c.ok) (hk0 : 0 < c.kend)
    (hw : c.kend + PGSIZE ≤ 2 ^ 64) (hal : c.PHYSTOP % PGSIZE = 0) (s : KMem)
    (hr : KReach c m (fun n => n + 1 < 2 ^ 32) s) : KInv c s := by
  induction hr with
  | boot fuel s h => exact kinv_boot c m hok hk0 hw hal fuel s h
  | alloc s s' p _ h ih => exact kinv_alloc c hok s s' p ih h
  | free s s' pa n _ hp hn h1 h ih => exact kinv_free c hok hk0 s s' pa n ih hp hn h1 h
  | share s s' pa n _ hp hn h1 h2 h ih => exact kinv_share c hok s s' pa n ih hp hn h1 h2 h

end OSLab

namespace OSLab

theorem setRef_setRef (s : KMem) (i a b : Nat) : (s.setRef i a).setRef i b = s.setRef i b := by
  simp only [KMem.setRef, List.set_set]

theorem setRef_same (s : KMem) (i a : Nat) (h : s.ref i = .ret a) : s.setRef i a = s := by
  have hsome : s.refCount[i]? = some a := by
    simp only [KMem.ref] at h
    cases hx : s.refCount[i]? with
    | none => rw [hx] at h; cases h
    | some v => rw [hx] at h; cases h; rfl
  cases s
  simp only [KMem.setRef]
  congr
  exact set_same _ _ _ hsome

/-- Sharing a page with count 1 again and again reaches every count modulo
`2^32`, when a share is allowed at every count of at least 1. -/
theorem kreach_share_many (c : Layout) (m : Nat → Nat) (s : KMem) (P : Nat) (hP : Page c P)
    (hr : KReach c m (fun _ => True) s) (h1 : s.ref (ipage c P) = .ret 1) :
    ∀ k, k < 2 ^ 32 → KReach c m (fun _ => True) (s.setRef (ipage c P) ((1 + k) % 2 ^ 32)) := by
  intro k
  induction k with
  | zero =>
    intro _
    have e : (1 + 0) % 2 ^ 32 = 1 := by norm_num
    rw [e, setRef_same s _ 1 h1]
    exact hr
  | succ k ih =>
    intro hk
    have hprev := ih (by omega)
    have hv : (1 + k) % 2 ^ 32 = 1 + k := Nat.mod_eq_of_lt (by omega)
    rw [hv] at hprev
    have href : (s.setRef (ipage c P) (1 + k)).ref (ipage c P) = .ret (1 + k) := by
      rw [ref_setRef s _ _ _ 1 h1, if_pos rfl]
    have hinc := refcnt_incr_n_one c _ P (1 + k) href
    rw [setRef_setRef] at hinc
    have e : 1 + (k + 1) = 1 + k + 1 := by omega
    rw [e]
    exact KReach.share _ _ P (1 + k) hprev hP href (by omega) trivial hinc

/-- C19 as stated fails when a count overflows. On the small machine, after
`kinit` and one `kalloc`, which returns page 20480 with count 1, sharing that
page `2^32 - 1` times, each time at a count of at least 1, wraps its count to
0 while the page is not on the free list. -/
theorem C19_counterexample_share_overflow :
    ∃ s l, KReach small (fun _ => 0) (fun _ => True) s ∧ FreeList small s l ∧
      Page small 20480 ∧ 20480 ∉ l ∧ s.ref (ipage small 20480) = .ret 0 := by
  obtain ⟨s0, h0, hfl0, hrc0⟩ : ∃ s0, kinit 4 small (KMem.boot small (fun _ => 0)) = .ret s0 ∧
      FreeList small s0 [20480, 16384, 12288] ∧ s0.ref (ipage small 20480) = .ret 0 :=
    ⟨_, rfl, by decide, rfl⟩
  obtain ⟨s1, hk, hfl1, hnot, hrc1, -⟩ := kalloc_pop small s0 20480 0 _ hfl0 hrc0
  have hP : Page small 20480 := by decide
  have hr1 : KReach small (fun _ => 0) (fun _ => True) s1 :=
    KReach.alloc _ _ _ (KReach.boot 4 s0 h0) hk
  have h1 : s1.ref (ipage small 20480) = .ret 1 := by
    rw [ref_set s0 s1 _ _ _ 0 hrc0 hrc1, if_pos rfl]
    norm_num
  have hmany := kreach_share_many small _ s1 20480 hP hr1 h1 4294967295 (by norm_num)
  have e : (1 + 4294967295) % 2 ^ 32 = 0 := by norm_num
  rw [e] at hmany
  refine ⟨_, [16384, 12288], hmany, hfl1, hP, hnot, ?_⟩
  rw [ref_setRef s1 _ _ _ 1 h1, if_pos rfl]

/-- C19, amended. In every allocator state reachable from `kinit` by `kalloc`,
by `kfree` of a page whose count is at least 1 and by a share of a page whose
count is at least 1 and below `2^32 - 1` (so that the share does not wrap it),
the free list holds no page twice and a page of the allocatable range is on
the free list exactly when its count is 0. The layout is that of a 64-bit
machine whose kernel ends above address 0 and whose `PHYSTOP` is page-aligned. -/
theorem C19_free_list_matches_counts (c : Layout) (m : Nat → Nat) (s : KMem) (hok : c.ok)
    (hk0 : 0 < c.kend) (hw : c.kend + PGSIZE ≤ 2 ^ 64) (hal : c.PHYSTOP % PGSIZE = 0)
    (hr : KReach c m (fun n => n + 1 < 2 ^ 32) s) :
    ∃ l, FreeList c s l ∧ l.Nodup ∧ ∀ p, Page c p → (p ∈ l ↔ s.ref (ipage c p) = .ret 0) := by
  obtain ⟨l, hfl, hcnt⟩ := kinv_reach c m hok hk0 hw hal s hr
  refine ⟨l, hfl, chain_nodup hfl.1, ?_⟩
  intro p hp
  obtain ⟨n, hn, hiff⟩ := hcnt p hp
  rw [hn, hiff]
  constructor
  · intro e; rw [e]
  · intro e; cases e; rfl

/-- C19, amended, at a concrete input: the small machine after `kinit`, one
`kalloc` and one share of the page it returned. -/
theorem C19_free_list_matches_counts_witness :
    ∃ s0 s1 s2, kinit 4 small (KMem.boot small (fun _ => 0)) = .ret s0 ∧
      kalloc small s0 = .ret (s1, 20480) ∧ refcnt_incr_n small s1 20480 1 = .ret s2 ∧
      ∃ l, FreeList small s2 l ∧ l.Nodup ∧
        ∀ p, Page small p → (p ∈ l ↔ s2.ref (ipage small p) = .ret 0) :=
  ⟨_, _, _, rfl, rfl, rfl,
    C19_free_list_matches_counts small (fun _ => 0) _ (by decide) (by decide) (by decide)
      (by decide)
      (KReach.share _ _ 20480 1 (KReach.alloc _ _ _ (KReach.boot 4 _ rfl) rfl) (by decide) rfl
        (by decide) (by decide) rfl)⟩

end OSLab

/-! ## Claim C17: what `binit` builds -/

namespace OSLab

theorem mem_desc (a : Nat) (q : Ptr) : ∀ c, q ∈ desc a c ↔ ∃ k, a ≤ k ∧ k < a + c ∧ q = .buf k := by
  intro c
  induction c with
  | zero =>
    simp only [desc, List.not_mem_nil, false_iff]
    rintro ⟨k, h1, h2, -⟩
    omega
  | succ c ih =>
    simp only [desc, List.mem_cons, ih]
    constructor
    · rintro (h | ⟨k, h1, h2, h3⟩)
      · exact ⟨a + c, by omega, by omega, h⟩
      · exact ⟨k, h1, by omega, h3⟩
    · rintro ⟨k, h1, h2, h3⟩
      by_cases e : k = a + c
      · subst e; exact Or.inl h3
      · exact Or.inr ⟨k, h1, by omega, h3⟩

theorem desc_nodup (a : Nat) : ∀ c, (desc a c).Nodup := by
  intro c
  induction c with
  | zero => exact List.nodup_nil
  | succ c ih =>
    refine List.nodup_cons.mpr ⟨?_, ih⟩
    intro h
    obtain ⟨k, h1, h2, h3⟩ := (mem_desc a _ c).mp h
    cases h3
    omega

/-- The slots linked so far all lie below the next slot to link. -/
theorem linked_below (n i j k : Nat) (q : Ptr)
    (hq : q ∈ desc (k * n) (linked n i j k)) : ∃ m, q = .buf m ∧ m < i * n + j := by
  obtain ⟨m, h1, h2, h3⟩ := (mem_desc _ _ _).mp hq
  refine ⟨m, h3, ?_⟩
  unfold linked at h2
  split at h2
  next hlt =>
    have : (k + 1) * n ≤ i * n := Nat.mul_le_mul_right n hlt
    rw [Nat.succ_mul] at this
    omega
  next hge =>
    split at h2
    next e => subst e; omega
    next => omega

/-- One round of the inner loop of `binit`. -/
theorem binit_link_spec (NBUF NBUCKET n : Nat) (s : BCache) (i j : Nat)
    (hinv : BinitInv NBUF NBUCKET n s i j) (hi : i < NBUCKET) (hb : i * n + j < NBUF) :
    ∃ s', binit_link s i (i * n + j) = .ret s' ∧ BinitInv NBUF NBUCKET n s' i (j + 1) := by
  obtain ⟨hN, hB, hD, hbuf, hhead⟩ := hinv
  obtain ⟨h, hh, hz, hseg⟩ := hhead i hi
  obtain ⟨x, hx, hxz⟩ := hbuf _ hb
  have hx1 : (s.set (.buf (i * n + j)) { x with next := h.next }).rd (.head i) = .ret h := by
    rw [rd_set_ne s _ _ x _ hx (by simp)]; exact hh
  have hrd : ∀ q, ((s.set (.buf (i * n + j)) { x with next := h.next }).set (.head i)
      { h with next := .buf (i * n + j) }).rd q =
      if q = .head i then .ret { h with next := .buf (i * n + j) }
      else if q = .buf (i * n + j) then .ret { x with next := h.next } else s.rd q := by
    intro q
    rw [rd_set _ (.head i) q h _ hx1]
    split
    · rfl
    · exact rd_set s _ q x _ hx
  refine ⟨(s.set (.buf (i * n + j)) { x with next := h.next }).set (.head i)
    { h with next := .buf (i * n + j) }, ?_, by simp [hN], by simp [hB], by simp [hD], ?_, ?_⟩
  · simp only [binit_link, hh, Res.ret_bind, upd_eq s _ _ x hx, upd_eq _ _ _ h hx1]
  · intro k hk
    obtain ⟨y, hy, hyz⟩ := hbuf k hk
    rw [hrd]
    by_cases e : k = i * n + j
    · subst e
      rw [hx] at hy; cases hy
      refine ⟨{ x with next := h.next }, by simp, ?_⟩
      unfold Buf.zeroed at hxz ⊢
      rw [hxz]
    · exact ⟨y, by simp [e, hy], hyz⟩
  · intro k hk
    obtain ⟨g, hg, hgz, hgs⟩ := hhead k hk
    have keep : ∀ k', ∀ a ∈ desc (k' * n) (linked n i j k'), ∀ z, s.rd a = .ret z →
        ∃ y, ((s.set (.buf (i * n + j)) { x with next := h.next }).set (.head i)
          { h with next := .buf (i * n + j) }).rd a = .ret y ∧ y.next = z.next := by
      intro k' a ha z hz'
      obtain ⟨m, e, hm⟩ := linked_below n i j k' a ha
      subst e
      refine ⟨z, ?_, rfl⟩
      rw [hrd]
      have : m ≠ i * n + j := by omega
      simp [this, hz']
    rw [hrd]
    by_cases e : k = i
    · subst e
      rw [hh] at hg; cases hg
      refine ⟨{ h with next := .buf (k * n + j) }, by simp, ?_, ?_⟩
      · unfold Buf.zeroed at hgz ⊢
        rw [hgz]
      · have hl : linked n k (j + 1) k = j + 1 := by simp [linked]
        have hl' : linked n k j k = j := by simp [linked]
        rw [hl]
        rw [hl'] at hgs
        refine seg_cons.mpr ⟨rfl, by simp, { x with next := h.next }, ?_, ?_⟩
        · rw [hrd]; simp
        · have := seg_congr hgs (fun a ha z hz' => keep k a (by rw [hl']; exact ha) z hz')
          exact this
    · refine ⟨g, by simp [e, hg], hgz, ?_⟩
      have hl : linked n i (j + 1) k = linked n i j k := by
        unfold linked
        split
        · rfl
        · simp [e]
      rw [hl]
      exact seg_congr hgs (fun a ha z hz' => keep k a ha z hz')

/-- The inner loop of `binit` links the remaining slots of bucket `i`. -/
theorem binit_inner_spec (NBUF NBUCKET n i : Nat) (hi : i < NBUCKET) (hb : i * n + n ≤ NBUF) :
    ∀ (c j : Nat) (s : BCache), j + c = n → BinitInv NBUF NBUCKET n s i j →
      ∃ s', binit_inner i c (s, i * n + j) = .ret (s', i * n + n) ∧
        BinitInv NBUF NBUCKET n s' i n := by
  intro c
  induction c with
  | zero =>
    intro j s hj hinv
    have : j = n := by omega
    subst this
    exact ⟨s, rfl, hinv⟩
  | succ c ih =>
    intro j s hj hinv
    obtain ⟨s1, h1, hinv1⟩ := binit_link_spec NBUF NBUCKET n s i j hinv hi (by omega)
    obtain ⟨s', h', hinv'⟩ := ih (j + 1) s1 (by omega) hinv1
    refine ⟨s', ?_, hinv'⟩
    simp only [binit_inner, h1, Res.ret_bind]
    exact h'

theorem linked_next (n i k : Nat) : linked n i n k = linked n (i + 1) 0 k := by
  unfold linked
  by_cases h1 : k < i
  · have : k < i + 1 := by omega
    simp [h1, this]
  · by_cases h2 : k = i
    · subst h2; simp
    · have : ¬ k < i + 1 := by omega
      simp [h1, h2, this]

/-- The outer loop of `binit` does the remaining buckets. -/
theorem binit_outer_spec (NBUF NBUCKET : Nat) :
    ∀ (r i : Nat) (s : BCache), i + r = NBUCKET →
      BinitInv NBUF NBUCKET (NBUF / NBUCKET) s i 0 →
      ∃ s' b, binit_outer NBUF NBUCKET r i (s, i * (NBUF / NBUCKET)) = .ret (s', b) ∧
        BinitInv NBUF NBUCKET (NBUF / NBUCKET) s' NBUCKET 0 := by
  intro r
  induction r with
  | zero =>
    intro i s hi hinv
    have : i = NBUCKET := by omega
    subst this
    exact ⟨s, _, rfl, hinv⟩
  | succ r ih =>
    intro i s hi hinv
    have hlt : i < NBUCKET := by omega
    have hb : i * (NBUF / NBUCKET) + NBUF / NBUCKET ≤ NBUF := by
      have h1 : (i + 1) * (NBUF / NBUCKET) ≤ NBUCKET * (NBUF / NBUCKET) :=
        Nat.mul_le_mul_right _ (by omega)
      have h2 : NBUCKET * (NBUF / NBUCKET) ≤ NBUF := Nat.mul_div_le NBUF NBUCKET
      rw [Nat.succ_mul] at h1
      omega
    obtain ⟨s1, h1, hinv1⟩ := binit_inner_spec NBUF NBUCKET (NBUF / NBUCKET) i hlt hb
      (NBUF / NBUCKET) 0 s (by omega) hinv
    have hinv2 : BinitInv NBUF NBUCKET (NBUF / NBUCKET) s1 (i + 1) 0 := by
      obtain ⟨a1, a2, a3, a4, a5⟩ := hinv1
      refine ⟨a1, a2, a3, a4, ?_⟩
      intro k hk
      obtain ⟨g, hg, hgz, hgs⟩ := a5 k hk
      exact ⟨g, hg, hgz, by rw [← linked_next]; exact hgs⟩
    obtain ⟨s', b, h', hinv'⟩ := ih (i + 1) s1 (by omega) hinv2
    refine ⟨s', b, ?_, hinv'⟩
    have e : i * (NBUF / NBUCKET) + NBUF / NBUCKET = (i + 1) * (NBUF / NBUCKET) := by
      rw [Nat.succ_mul]
    simp only [binit_outer]
    have h1' : binit_inner i (NBUF / NBUCKET) (s, i * (NBUF / NBUCKET)) =
        .ret (s1, (i + 1) * (NBUF / NBUCKET)) := by
      rw [← e]; exact h1
    rw [h1']
    exact h'

theorem binit_zero_inv (NBUF NBUCKET n : Nat) :
    BinitInv NBUF NBUCKET n (BCache.zero NBUF NBUCKET) 0 0 := by
  refine ⟨by simp [BCache.zero, BCache.NBUF], by simp [BCache.zero, BCache.NBUCKET], rfl, ?_, ?_⟩
  · intro k hk
    refine ⟨Buf.zero, ?_, rfl⟩
    simp [BCache.rd, BCache.zero, List.getElem?_replicate, hk]
  · intro k hk
    refine ⟨Buf.zero, ?_, rfl, ?_⟩
    · simp [BCache.rd, BCache.zero, List.getElem?_replicate, hk]
    · have : linked n 0 0 k = 0 := by
        unfold linked
        by_cases e : k = 0 <;> simp [e]
      rw [this]
      exact rfl

/-- What `binit` builds, for any `NBUF` and `NBUCKET`: bucket `k` holds the
slots `k * (NBUF / NBUCKET)`, ..., `(k + 1) * (NBUF / NBUCKET) - 1`. -/
theorem binit_spec (NBUF NBUCKET : Nat) :
    ∃ s, binit NBUF NBUCKET = .ret s ∧ BinitInv NBUF NBUCKET (NBUF / NBUCKET) s NBUCKET 0 := by
  obtain ⟨s', b, h, hinv⟩ := binit_outer_spec NBUF NBUCKET NBUCKET 0 (BCache.zero NBUF NBUCKET)
    (by omega) (binit_zero_inv NBUF NBUCKET _)
  refine ⟨s', ?_, hinv⟩
  simp only [Nat.zero_mul] at h
  simp only [binit, h, Res.ret_bind, Res.pure_eq]

end OSLab

namespace OSLab

/-- C17 as stated fails when `NBUCKET` does not divide `NBUF`: `binit` links
`NBUF / NBUCKET` slots into each bucket. With `NBUF = 3` and `NBUCKET = 2`
bucket 0 holds slot 0, bucket 1 holds slot 1, and slot 2 is on no list. -/
theorem C17_counterexample_remainder_unlinked :
    ∃ s, binit 3 2 = .ret s ∧ s.NBUF = 3 ∧ s.NBUCKET = 2 ∧
      s.rd (.head 0) = .ret ⟨false, 0, 0, false, 0, 0, .buf 0⟩ ∧
      Seg s (.buf 0) [.buf 0] .null ∧
      s.rd (.head 1) = .ret ⟨false, 0, 0, false, 0, 0, .buf 1⟩ ∧
      Seg s (.buf 1) [.buf 1] .null ∧
      s.rd (.buf 2) = .ret ⟨false, 0, 0, false, 0, 0, .null⟩ ∧
      Ptr.buf 2 ∉ [Ptr.buf 0] ∧ Ptr.buf 2 ∉ [Ptr.buf 1] :=
  ⟨_, rfl, rfl, rfl, rfl, by decide, rfl, by decide, rfl, by decide, by decide⟩

/-- C17, amended. When `NBUCKET > 0` divides `NBUF`, `binit` on the
zero-initialised cache returns; the list of each bucket `i` is null-terminated
and holds, without repetition, the slots `i * (NBUF / NBUCKET)` up to
`(i + 1) * (NBUF / NBUCKET) - 1`; every slot `k` below `NBUF` has `refcnt` 0
and `valid` 0 and is on the list of bucket `k / (NBUF / NBUCKET)` and of no
other bucket. -/
theorem C17_binit_partitions_pool (NBUF NBUCKET : Nat) (hpos : 0 < NBUCKET)
    (hdiv : NBUCKET ∣ NBUF) :
    ∃ s, binit NBUF NBUCKET = .ret s ∧ s.NBUF = NBUF ∧ s.NBUCKET = NBUCKET ∧
      (∀ i, i < NBUCKET → ∃ h, s.rd (.head i) = .ret h ∧
        Seg s h.next (desc (i * (NBUF / NBUCKET)) (NBUF / NBUCKET)) .null ∧
        (desc (i * (NBUF / NBUCKET)) (NBUF / NBUCKET)).Nodup) ∧
      (∀ k, k < NBUF → (∃ x, s.rd (.buf k) = .ret x ∧ x.refcnt = 0 ∧ x.valid = false) ∧
        k / (NBUF / NBUCKET) < NBUCKET ∧
        ∀ i, i < NBUCKET →
          (.buf k ∈ desc (i * (NBUF / NBUCKET)) (NBUF / NBUCKET) ↔ i = k / (NBUF / NBUCKET))) := by
  obtain ⟨s, hs, hN, hB, -, hbuf, hhead⟩ := binit_spec NBUF NBUCKET
  refine ⟨s, hs, hN, hB, ?_, ?_⟩
  · intro i hi
    obtain ⟨h, hh, -, hseg⟩ := hhead i hi
    have hl : linked (NBUF / NBUCKET) NBUCKET 0 i = NBUF / NBUCKET := by simp [linked, hi]
    rw [hl] at hseg
    exact ⟨h, hh, hseg, desc_nodup _ _⟩
  · intro k hk
    obtain ⟨x, hx, hz⟩ := hbuf k hk
    have hmul : NBUCKET * (NBUF / NBUCKET) = NBUF := Nat.mul_div_cancel' hdiv
    generalize NBUF / NBUCKET = n at hmul ⊢
    have hn : 0 < n := by
      rcases Nat.eq_zero_or_pos n with e | e
      · rw [e] at hmul; omega
      · exact e
    have hkn : k / n < NBUCKET := by
      apply (Nat.div_lt_iff_lt_mul hn).mpr
      omega
    refine ⟨⟨x, hx, by rw [hz]; rfl, by rw [hz]; rfl⟩, hkn, ?_⟩
    intro i _
    rw [mem_desc]
    constructor
    · rintro ⟨m, h1, h2, h3⟩
      cases h3
      symm
      apply Nat.div_eq_of_lt_le
      · exact h1
      · rw [Nat.succ_mul]; exact h2
    · intro e
      subst e
      have h1 : k / n * n ≤ k := Nat.div_mul_le_self k n
      have h2 : k < k / n * n + n := by
        have := Nat.div_add_mod k n
        have := Nat.mod_lt k hn
        rw [Nat.mul_comm] at h1
        nlinarith [Nat.mul_comm n (k / n)]
      exact ⟨k, h1, h2, rfl⟩

/-- C17, amended, at a concrete input: `NBUF = 4`, `NBUCKET = 2`. -/
theorem C17_binit_partitions_witness :
    ∃ s, binit 4 2 = .ret s ∧ s.NBUF = 4 ∧ s.NBUCKET = 2 ∧
      (∀ i, i < 2 → ∃ h, s.rd (.head i) = .ret h ∧
        Seg s h.next (desc (i * (4 / 2)) (4 / 2)) .null ∧ (desc (i * (4 / 2)) (4 / 2)).Nodup) ∧
      (∀ k, k < 4 → (∃ x, s.rd (.buf k) = .ret x ∧ x.refcnt = 0 ∧ x.valid = false) ∧
        k / (4 / 2) < 2 ∧
        ∀ i, i < 2 → (.buf k ∈ desc (i * (4 / 2)) (4 / 2) ↔ i = k / (4 / 2))) :=
  C17_binit_partitions_pool 4 2 (by decide) (by decide)

end OSLab

/-! ## List segments: determinism and unlinking -/

namespace OSLab

/-- A segment that ends at a node is an initial part of the whole list. -/
theorem seg_split {s : BCache} {l : List Ptr} {b : Ptr} (hb : b ≠ .null) :
    ∀ {p : Ptr} {L : List Ptr}, Seg s p l b → Seg s p L .null → ∃ l2, L = l ++ b :: l2 := by
  induction l with
  | nil =>
    intro p L h1 h2
    have hp : p = b := h1
    cases L with
    | nil =>
      have h3 : p = .null := h2
      exact absurd (hp.symm.trans h3) hb
    | cons a L' =>
      obtain ⟨e, _, _⟩ := seg_cons.1 h2
      exact ⟨L', by rw [← e, hp]; rfl⟩
  | cons a l ih =>
    intro p L h1 h2
    obtain ⟨e1, ha, x, hx, h1'⟩ := seg_cons.1 h1
    cases L with
    | nil =>
      have h3 : p = .null := h2
      exact absurd (e1.symm.trans h3) ha
    | cons a' L' =>
      obtain ⟨e2, _, x', hx', h2'⟩ := seg_cons.1 h2
      have e3 : a = a' := e1.symm.trans e2
      subst e3
      rw [hx] at hx'; cases hx'
      obtain ⟨l2, hl2⟩ := ih h1' h2'
      exact ⟨l2, by rw [hl2]; rfl⟩

/-- The list behind a pointer is determined by the state. -/
theorem seg_unique {s : BCache} {l : List Ptr} :
    ∀ {p : Ptr} {l' : List Ptr}, Seg s p l .null → Seg s p l' .null → l = l' := by
  induction l with
  | nil =>
    intro p l' h1 h2
    have hp : p = .null := h1
    cases l' with
    | nil => rfl
    | cons a t =>
      obtain ⟨e, ha, _⟩ := seg_cons.1 h2
      exact absurd (e.symm.trans hp) ha
  | cons a l ih =>
    intro p l' h1 h2
    obtain ⟨e1, ha, x, hx, h1'⟩ := seg_cons.1 h1
    cases l' with
    | nil =>
      have h3 : p = .null := h2
      exact absurd (e1.symm.trans h3) ha
    | cons a' t =>
      obtain ⟨e2, _, x', hx', h2'⟩ := seg_cons.1 h2
      have e3 : a = a' := e1.symm.trans e2
      subst e3
      rw [hx] at hx'; cases hx'
      rw [ih h1' h2']

/-- Redirecting the link of `pre` past its successor `w` takes `w` off the list. -/
theorem seg_unlink {s s1 : BCache} {pre w : Ptr} {y xw : Buf} {l2 : List Ptr} {q : Ptr}
    (hy : s.rd pre = .ret y) (hw : s.rd w = .ret xw) (l0 : List Ptr) :
    ∀ {p : Ptr}, Seg s p (l0 ++ pre :: w :: l2) q → (l0 ++ pre :: w :: l2).Nodup →
      (∀ a ∈ l0 ++ pre :: l2,
        s1.rd a = if a = pre then .ret { y with next := xw.next } else s.rd a) →
      Seg s1 p (l0 ++ pre :: l2) q := by
  induction l0 with
  | nil =>
    intro p h hnd hrd
    simp only [List.nil_append] at h hnd hrd ⊢
    obtain ⟨e1, hp, y', hy', h'⟩ := seg_cons.1 h
    rw [hy] at hy'; cases hy'
    obtain ⟨e2, hwn, xw', hxw', h''⟩ := seg_cons.1 h'
    rw [hw] at hxw'; cases hxw'
    refine seg_cons.2 ⟨e1, hp, _, by rw [hrd pre (List.mem_cons_self _ _), if_pos rfl], ?_⟩
    refine seg_congr h'' (fun a ha z hz => ⟨z, ?_, rfl⟩)
    have hap : a ≠ pre := by
      intro e; rw [e] at ha; simp [ha] at hnd
    rw [hrd a (List.mem_cons_of_mem _ ha), if_neg hap]
    exact hz
  | cons c t ih =>
    intro p h hnd hrd
    simp only [List.cons_append] at h hnd hrd ⊢
    obtain ⟨e1, hc, z, hz, h'⟩ := seg_cons.1 h
    have hnd' := (List.nodup_cons.1 hnd).2
    have hcn := (List.nodup_cons.1 hnd).1
    have hcp : c ≠ pre := by
      intro e; rw [e] at hcn; simp at hcn
    exact seg_cons.2 ⟨e1, hc, z, by rw [hrd c (List.mem_cons_self _ _), if_neg hcp]; exact hz,
      ih h' hnd' (fun a ha => hrd a (List.mem_cons_of_mem _ ha))⟩

/-- The unlink walk stops only at `lru_buf`, with `pre` the node whose link
leads there. -/
theorem loop_find_walk_spec (s : BCache) (w : Ptr) (fuel : Nat) :
    ∀ (pre p pre' p' : Ptr), Seg s pre [pre] p →
      loop_find_walk s w fuel pre p = .ret (pre', p') →
      p' = w ∧ ∃ l0, Seg s pre (l0 ++ [pre']) w := by
  induction fuel with
  | zero => intro _ _ _ _ _ h; cases h
  | succ n ih =>
    intro pre p pre' p' hseg h
    simp only [loop_find_walk] at h
    obtain ⟨_, hpn, a, ha, hnext⟩ := seg_cons.1 hseg
    have hnx : a.next = p := hnext
    split at h
    next e =>
      cases h
      refine ⟨e, [], ?_⟩
      rw [← e]
      exact hseg
    next e =>
      obtain ⟨a', ha', h⟩ := Res.bind_eq_ret h
      obtain ⟨b, hb, h⟩ := Res.bind_eq_ret h
      rw [ha] at ha'; cases ha'
      have hpnn : p ≠ .null := by
        intro e; rw [e, rd_null] at hb; cases hb
      have hseg' : Seg s p [p] b.next := seg_cons.2 ⟨rfl, hpnn, b, hb, rfl⟩
      rw [hnx] at h
      obtain ⟨hw, l0, hl0⟩ := ih p b.next pre' p' hseg' h
      exact ⟨hw, pre :: l0, seg_cons.2 ⟨rfl, hpn, a, ha, by rw [hnx]; exact hl0⟩⟩

/-- What a returning `loop_find` did: its buffer `w` was unreferenced, the
lock of the bucket `ihash(w->blockno)` was free, the walk along that bucket's
list reached `w`, and the only store redirected the link of the node before. -/
theorem loop_find_spec (fuel : Nat) (s : BCache) (n : Nat) :
    ∀ (held : List Lock) (lru_buf : Ptr) (min_stamp : Nat) (r : BCache × List Lock × Ptr),
      loop_find fuel s held n lru_buf min_stamp = .ret r →
        ∃ xw hR pre y, s.rd r.2.2 = .ret xw ∧ xw.refcnt = 0 ∧
          Lock.bucket (ihash s.NBUCKET xw.blockno) ∉ held ∧
          s.rd (.head (ihash s.NBUCKET xw.blockno)) = .ret hR ∧
          (∃ l0, Seg s (.head (ihash s.NBUCKET xw.blockno)) (l0 ++ [pre]) r.2.2) ∧
          s.rd pre = .ret y ∧ r.1 = s.set pre { y with next := xw.next } := by
  induction n with
  | zero => intro held lru_buf min_stamp r h; cases h
  | succ n ih =>
    intro held lru_buf min_stamp r h
    simp only [loop_find] at h
    split at h
    next hne =>
      obtain ⟨v, hv, h⟩ := Res.bind_eq_ret h
      obtain ⟨held', hacq, h⟩ := Res.bind_eq_ret h
      have hnot : Lock.bucket (ihash s.NBUCKET v.blockno) ∉ held ∧
          held' = Lock.bucket (ihash s.NBUCKET v.blockno) :: held := by
        unfold acquire at hacq
        split at hacq
        · cases hacq
        · cases hacq; exact ⟨by assumption, rfl⟩
      split at h
      · have hrel : release held' (.bucket (ihash s.NBUCKET v.blockno)) = held := by
          rw [hnot.2]; simp [release]
        rw [hrel] at h
        exact ih _ _ _ _ h
      · next h0 =>
        obtain ⟨hR, hhR, h⟩ := Res.bind_eq_ret h
        obtain ⟨w, hwalk, h⟩ := Res.bind_eq_ret h
        obtain ⟨pre, p⟩ := w
        obtain ⟨x, hx, h⟩ := Res.bind_eq_ret h
        obtain ⟨s', hs', h⟩ := Res.bind_eq_ret h
        cases h
        obtain ⟨y, hy, hs2⟩ := upd_ret hs'
        have hseg : Seg s (.head (ihash s.NBUCKET v.blockno))
            [.head (ihash s.NBUCKET v.blockno)] hR.next :=
          seg_cons.2 ⟨rfl, by simp, hR, hhR, rfl⟩
        obtain ⟨hp, l0, hl0⟩ := loop_find_walk_spec s _ fuel _ _ _ _ hseg hwalk
        simp only at hx hy hs2 hp
        subst hp
        rw [hv] at hx; cases hx
        exact ⟨v, hR, pre, y, hv, by simpa using h0, hnot.1, hhR, ⟨l0, hl0⟩, hy, hs2⟩
    next => exact ih _ _ _ _ h

end OSLab

/-! ## The cache invariant: boot state and single-slot stores -/

namespace OSLab

theorem rd_buf_lt {s : BCache} {m : Nat} {x : Buf} (h : s.rd (.buf m) = .ret x) : m < s.NBUF := by
  by_contra hlt
  have e : s.buf[m]? = none := List.getElem?_eq_none (by unfold BCache.NBUF at hlt; omega)
  simp [BCache.rd, e] at h

theorem rd_head_lt {s : BCache} {k : Nat} {x : Buf} (h : s.rd (.head k) = .ret x) :
    k < s.NBUCKET := by
  by_contra hlt
  have e : s.hashtable[k]? = none :=
    List.getElem?_eq_none (by unfold BCache.NBUCKET at hlt; omega)
  simp [BCache.rd, e] at h

/-- The invariant with no slot exempt implies it with any slot exempt. -/
theorem cacheInv_weaken {NBUF NBUCKET : Nat} {s : BCache} {L : Nat → List Ptr} (e : Ptr)
    (hI : CacheInv NBUF NBUCKET s L .null) : CacheInv NBUF NBUCKET s L e :=
  ⟨hI.nbuf, hI.nbucket, hI.lists, hI.disjoint,
    fun m x _ hx hq => hI.homed m x (by simp) hx hq,
    fun m x _ hx hv => hI.first m x (by simp) hx hv⟩

/-- The state `binit` leaves satisfies the invariant. -/
theorem cacheInv_boot (NBUF NBUCKET : Nat) (s : BCache) (h : binit NBUF NBUCKET = .ret s) :
    CacheInv NBUF NBUCKET s (fun k => desc (k * (NBUF / NBUCKET)) (NBUF / NBUCKET)) .null := by
  obtain ⟨s0, hs0, hN, hB, -, hbuf, hhead⟩ := binit_spec NBUF NBUCKET
  rw [h] at hs0; cases hs0
  refine ⟨hN, hB, ?_, ?_, ?_, ?_⟩
  · intro k hk
    obtain ⟨hd, hh, hz, hseg⟩ := hhead k hk
    have hl : linked (NBUF / NBUCKET) NBUCKET 0 k = NBUF / NBUCKET := by simp [linked, hk]
    rw [hl] at hseg
    refine ⟨hd, hh, hz, hseg, desc_nodup _ _, ?_⟩
    intro a ha
    obtain ⟨m, -, -, e⟩ := (mem_desc _ _ _).mp ha
    exact ⟨m, e⟩
  · intro k1 k2 _ _ a h1 h2
    obtain ⟨m1, a1, b1, e1⟩ := (mem_desc _ _ _).mp h1
    obtain ⟨m2, a2, b2, e2⟩ := (mem_desc _ _ _).mp h2
    rw [e1] at e2; cases e2
    generalize NBUF / NBUCKET = n at a1 b1 a2 b2
    by_contra hne
    rcases Nat.lt_or_gt_of_ne hne with hlt | hlt
    · have h3 : (k1 + 1) * n ≤ k2 * n := Nat.mul_le_mul_right n hlt
      rw [Nat.succ_mul] at h3; omega
    · have h3 : (k2 + 1) * n ≤ k1 * n := Nat.mul_le_mul_right n hlt
      rw [Nat.succ_mul] at h3; omega
  · intro m x _ hx hq
    obtain ⟨x', hx', hz⟩ := hbuf m (hN ▸ rd_buf_lt hx)
    rw [hx] at hx'; cases hx'
    rw [hz] at hq
    simp [Buf.zero] at hq
  · intro m x _ hx hv
    obtain ⟨x', hx', hz⟩ := hbuf m (hN ▸ rd_buf_lt hx)
    rw [hx] at hx'; cases hx'
    rw [hz] at hv
    simp [Buf.zero] at hv

/-- A held buffer is a pool slot: the bucket heads carry neither a reference
nor a lock. -/
theorem holds_buf {NBUF NBUCKET : Nat} {s : BCache} {L : Nat → List Ptr} {e b : Ptr}
    (hI : CacheInv NBUF NBUCKET s L e) (hb : Holds s b) : ∃ m, b = .buf m := by
  obtain ⟨x, hx, hq⟩ := hb
  cases b with
  | null => rw [rd_null] at hx; cases hx
  | buf m => exact ⟨m, rfl⟩
  | head k =>
    obtain ⟨h, hh, hz, -⟩ := hI.lists k (hI.nbucket ▸ rd_head_lt hx)
    rw [hx] at hh; cases hh
    rw [hz] at hq
    simp [Buf.zero] at hq

/-- A store to the pool slot `m` that keeps its link preserves the invariant
when the stored value has its home and its place: the slot is on the list its
block number hashes to if it is referenced or locked, first with its identity
if it is valid, and a new identity is not that of another node of that list. -/
theorem cacheInv_store {NBUF NBUCKET : Nat} {s s' : BCache} {L : Nat → List Ptr} {m : Nat}
    {x v : Buf} (hI : CacheInv NBUF NBUCKET s L (.buf m)) (hx : s.rd (.buf m) = .ret x)
    (hrd : ∀ q, s'.rd q = if q = .buf m then .ret v else s.rd q)
    (hNB : s'.NBUCKET = s.NBUCKET) (hNF : s'.NBUF = s.NBUF) (hnext : v.next = x.next)
    (hhome : (v.refcnt ≠ 0 ∨ v.lock = true) →
      ihash NBUCKET v.blockno < NBUCKET ∧ .buf m ∈ L (ihash NBUCKET v.blockno))
    (hvalid : v.valid = true → ihash NBUCKET v.blockno < NBUCKET ∧
      First s (L (ihash NBUCKET v.blockno)) v.dev v.blockno (.buf m))
    (hid : v.is x.dev x.blockno ∨ ∀ a ∈ L (ihash NBUCKET v.blockno), ∀ y, s.rd a = .ret y →
      a ≠ .buf m → ¬ y.is v.dev v.blockno) :
    CacheInv NBUF NBUCKET s' L .null := by
  have hne : ∀ q, q ≠ .buf m → s'.rd q = s.rd q := fun q hq => by rw [hrd q, if_neg hq]
  have hself : s'.rd (.buf m) = .ret v := by rw [hrd, if_pos rfl]
  have hseg : ∀ l p q, Seg s p l q → Seg s' p l q := by
    intro l p q h
    refine seg_congr h (fun a _ z hz => ?_)
    by_cases e : a = .buf m
    · subst e
      rw [hx] at hz; cases hz
      exact ⟨v, hself, hnext⟩
    · exact ⟨z, by rw [hne a e]; exact hz, rfl⟩
  refine ⟨hNF.trans hI.nbuf, hNB.trans hI.nbucket, ?_, hI.disjoint, ?_, ?_⟩
  · intro k hk
    obtain ⟨h, hh, hz, hl, hnd, hp⟩ := hI.lists k hk
    exact ⟨h, by rw [hne _ (by simp)]; exact hh, hz, hseg _ _ _ hl, hnd, hp⟩
  · intro m' x' _ hx' hq
    by_cases e : m' = m
    · subst e
      rw [hself] at hx'; cases hx'
      exact hhome hq
    · have e' : Ptr.buf m' ≠ .buf m := by simpa using e
      rw [hne _ e'] at hx'
      exact hI.homed m' x' e' hx' hq
  · intro m' x' _ hx' hv
    by_cases e : m' = m
    · subst e
      rw [hself] at hx'; cases hx'
      obtain ⟨hlt, l1, l2, hL, hm⟩ := hvalid hv
      refine ⟨hlt, l1, l2, hL, ?_⟩
      obtain ⟨-, -, -, -, hnd, -⟩ := hI.lists _ hlt
      rw [hL] at hnd
      intro a ha z hz
      have hab : a ≠ .buf m' := by
        intro e; rw [e] at ha
        have := (List.nodup_append.1 hnd).2.2
        exact this ha (List.mem_cons_self _ _)
      rw [hne a hab] at hz
      exact hm a ha z hz
    · have e' : Ptr.buf m' ≠ .buf m := by simpa using e
      rw [hne _ e'] at hx'
      obtain ⟨hlt, l1, l2, hL, hm⟩ := hI.first m' x' e' hx' hv
      refine ⟨hlt, l1, l2, hL, ?_⟩
      intro a ha z hz
      by_cases hab : a = .buf m
      · subst hab
        rw [hself] at hz; cases hz
        intro hv'
        rcases hid with hl | hr
        · exact hm _ ha x hx ⟨hl.1.symm.trans hv'.1, hl.2.symm.trans hv'.2⟩
        · have hmem : Ptr.buf m' ∈ L (ihash NBUCKET v.blockno) := by
            rw [hv'.2, hL]; simp
          exact hr _ hmem x' hx' e' ⟨hv'.1.symm, hv'.2.symm⟩
      · rw [hne a hab] at hz
        exact hm a ha z hz

/-- A returning `brelse` of a held buffer preserves the invariant. -/
theorem cacheInv_brelse {NBUF NBUCKET : Nat} {s s' : BCache} {L : Nat → List Ptr}
    (hI : CacheInv NBUF NBUCKET s L .null) (ticks : Nat) (b : Ptr) (hb : Holds s b)
    (h : brelse ticks s b = .ret s') : CacheInv NBUF NBUCKET s' L .null := by
  obtain ⟨m, e⟩ := holds_buf hI hb
  subst e
  obtain ⟨x, hx, -⟩ := hb
  cases hl : x.lock with
  | false => simp [brelse, holdingsleep, hx, hl] at h
  | true =>
    obtain ⟨s'', hs'', hrd, hNB, hNF, -⟩ := brelse_eq ticks s _ x hx hl
    rw [h] at hs''; cases hs''
    exact cacheInv_store (cacheInv_weaken _ hI) hx hrd hNB hNF rfl
      (fun _ => hI.homed m x (by simp) hx (Or.inr hl))
      (fun hv => hI.first m x (by simp) hx hv) (Or.inl ⟨rfl, rfl⟩)

/-- A returning `bpin` of a held buffer preserves the invariant. -/
theorem cacheInv_bpin {NBUF NBUCKET : Nat} {s s' : BCache} {L : Nat → List Ptr}
    (hI : CacheInv NBUF NBUCKET s L .null) (b : Ptr) (hb : Holds s b)
    (h : bpin s b = .ret s') : CacheInv NBUF NBUCKET s' L .null := by
  obtain ⟨m, e⟩ := holds_buf hI hb
  subst e
  obtain ⟨x, hx, hq⟩ := hb
  rw [bpin_eq s _ x hx] at h
  cases h
  exact cacheInv_store (cacheInv_weaken _ hI) hx (fun q => rd_set s _ q x _ hx) (by simp)
    (by simp) rfl (fun _ => hI.homed m x (by simp) hx hq.symm)
    (fun hv => hI.first m x (by simp) hx hv) (Or.inl ⟨rfl, rfl⟩)

/-- A returning `bunpin` of a held buffer preserves the invariant. -/
theorem cacheInv_bunpin {NBUF NBUCKET : Nat} {s s' : BCache} {L : Nat → List Ptr}
    (hI : CacheInv NBUF NBUCKET s L .null) (b : Ptr) (hb : Holds s b)
    (h : bunpin s b = .ret s') : CacheInv NBUF NBUCKET s' L .null := by
  obtain ⟨m, e⟩ := holds_buf hI hb
  subst e
  obtain ⟨x, hx, hq⟩ := hb
  rw [bunpin_eq s _ x hx] at h
  cases h
  exact cacheInv_store (cacheInv_weaken _ hI) hx (fun q => rd_set s _ q x _ hx) (by simp)
    (by simp) rfl (fun _ => hI.homed m x (by simp) hx hq.symm)
    (fun hv => hI.first m x (by simp) hx hv) (Or.inl ⟨rfl, rfl⟩)

/-- The list of the bucket a lookup walks is the invariant's list. -/
theorem cacheInv_list {NBUF NBUCKET : Nat} {s : BCache} {L : Nat → List Ptr} {e : Ptr}
    (hI : CacheInv NBUF NBUCKET s L e) {k : Nat} {h : Buf} (hh : s.rd (.head k) = .ret h) :
    k < NBUCKET ∧ h.zeroed ∧ Seg s h.next (L k) .null ∧ (L k).Nodup ∧
      ∀ a ∈ L k, ∃ m, a = .buf m := by
  have hk : k < NBUCKET := hI.nbucket ▸ rd_head_lt hh
  obtain ⟨h', hh', r⟩ := hI.lists k hk
  rw [hh] at hh'; cases hh'
  exact ⟨hk, r⟩

/-- A cache hit preserves the invariant. -/
theorem cacheInv_hit {NBUF NBUCKET : Nat} {s : BCache} {L : Nat → List Ptr}
    (hI : CacheInv NBUF NBUCKET s L .null) (fuel dev blockno : Nat) (hd x : Buf) (b : Ptr)
    (hh : s.rd (.head (ihash s.NBUCKET blockno)) = .ret hd)
    (hs : bget_scan s dev blockno fuel hd.next = .ret b) (hb : b ≠ .null)
    (hx : s.rd b = .ret x) :
    CacheInv NBUF NBUCKET ((s.set b { x with refcnt := (x.refcnt + 1) % 2 ^ 32 }).set b x.hit)
      L .null ∧ ∃ m, b = .buf m := by
  obtain ⟨l, hl, hm, -, hb0⟩ := bget_scan_ret s dev blockno fuel _ _ hs
  obtain ⟨hk, -, hseg, -, hp⟩ := cacheInv_list hI hh
  obtain ⟨l2, hL⟩ := seg_split hb hl hseg
  have hmem : b ∈ L (ihash s.NBUCKET blockno) := by rw [hL]; simp
  obtain ⟨m, e⟩ := hp b hmem
  subst e
  rcases hb0 with hb0 | ⟨x', hx', hid⟩
  · exact (hb hb0).elim
  rw [hx] at hx'; cases hx'
  have hN := hI.nbucket
  refine ⟨cacheInv_store (cacheInv_weaken _ hI) hx (fun q => rd_set_set s _ q x _ _ hx)
    (by simp) (by simp) rfl (fun _ => ?_) (fun hv => hI.first m x (by simp) hx hv)
    (Or.inl ⟨rfl, rfl⟩), m, rfl⟩
  have e : x.hit.blockno = blockno := hid.2
  rw [e, ← hN]
  exact ⟨hN ▸ hk, hmem⟩

/-- Recycling a buffer of the request's own bucket preserves the invariant. -/
theorem cacheInv_local {NBUF NBUCKET : Nat} {s : BCache} {L : Nat → List Ptr}
    (hI : CacheInv NBUF NBUCKET s L .null) (fuel dev blockno : Nat) (hd x : Buf) (v : Ptr)
    (mstamp : Nat) (hh : s.rd (.head (ihash s.NBUCKET blockno)) = .ret hd)
    (hs : bget_scan s dev blockno fuel hd.next = .ret .null)
    (hlr : bget_lru s fuel hd.next .null (1 <<< 20) = .ret (v, mstamp)) (hv : v ≠ .null)
    (hx : s.rd v = .ret x) :
    CacheInv NBUF NBUCKET ((s.set v (x.recycled dev blockno)).set v (x.claim dev blockno))
      L .null ∧ ∃ m, v = .buf m := by
  obtain ⟨l, hl, hm, -, -⟩ := bget_scan_ret s dev blockno fuel _ _ hs
  obtain ⟨hk, -, hseg, -, hp⟩ := cacheInv_list hI hh
  have hlL := seg_unique hl hseg
  subst hlL
  have hmem : v ∈ L (ihash s.NBUCKET blockno) := by
    rcases bget_lru_mem s _ _ _ _ _ _ _ hl hlr with e | e
    · exact (hv e).elim
    · exact e
  obtain ⟨m, e⟩ := hp v hmem
  subst e
  have hN := hI.nbucket
  refine ⟨cacheInv_store (cacheInv_weaken _ hI) hx (fun q => rd_set_set s _ q x _ _ hx)
    (by simp) (by simp) rfl (fun _ => ?_) (fun hv => ?_) (Or.inr ?_), m, rfl⟩
  · have e : (x.claim dev blockno).blockno = blockno := rfl
    rw [e, ← hN]
    exact ⟨hN ▸ hk, hmem⟩
  · have e : (x.claim dev blockno).valid = false := rfl
    rw [e] at hv; cases hv
  · have e : (x.claim dev blockno).blockno = blockno := rfl
    have e2 : (x.claim dev blockno).dev = dev := rfl
    rw [e, e2, ← hN]
    intro a ha y hy _
    exact hm a ha y hy

end OSLab

/-! ## The cache invariant: moving a buffer to another bucket -/

namespace OSLab

/-- Reading the non-link fields off a zeroed head. -/
theorem zeroed_next {h : Buf} (hz : h.zeroed) (p : Ptr) : Buf.zeroed { h with next := p } := by
  unfold Buf.zeroed at hz ⊢
  rw [hz]

/-- Where the unlink walk of bucket `R` stopped: the buffer is a pool slot on
the list of `R`, and the node before it is another node of that list or the
head of `R`. -/
theorem unlink_facts {NBUF NBUCKET : Nat} {s : BCache} {L : Nat → List Ptr} {e : Ptr}
    (hI : CacheInv NBUF NBUCKET s L e) {R : Nat} {hR : Buf} {pre w : Ptr} {l0 l2 : List Ptr}
    (hhR : s.rd (.head R) = .ret hR) (hdec : .head R :: L R = l0 ++ pre :: w :: l2) :
    (l0 ++ pre :: w :: l2).Nodup ∧ (∃ j, w = .buf j) ∧ w ∈ L R ∧ pre ≠ w ∧
      (pre = .head R ∨ pre ∈ L R) ∧ Ptr.head R :: (L R).erase w = l0 ++ pre :: l2 := by
  obtain ⟨hRlt, hRz, hsegR, hndR, hpR⟩ := cacheInv_list hI hhR
  have hnotin : Ptr.head R ∉ L R := fun hm => by
    obtain ⟨m, e⟩ := hpR _ hm; cases e
  have hnd : (l0 ++ pre :: w :: l2).Nodup := by
    rw [← hdec]; exact List.nodup_cons.2 ⟨hnotin, hndR⟩
  have hwm : w ∈ Ptr.head R :: L R := by rw [hdec]; simp
  have hpm : pre ∈ Ptr.head R :: L R := by rw [hdec]; simp
  have hprew : pre ≠ w := by
    intro e
    have h1 := (List.nodup_append.1 hnd).2.1
    rw [e] at h1
    simp at h1
  have hwl0 : w ∉ l0 := fun hm =>
    (List.nodup_append.1 hnd).2.2 hm (by simp)
  have hwR : w ∈ L R := by
    rcases List.mem_cons.1 hwm with e | e
    · exfalso
      cases l0 with
      | nil =>
        simp only [List.nil_append, List.cons.injEq] at hdec
        exact hprew (hdec.1.symm.trans e.symm)
      | cons c t =>
        simp only [List.cons_append, List.cons.injEq] at hdec
        exact hwl0 (by rw [e, hdec.1]; simp)
    · exact e
  refine ⟨hnd, hpR _ hwR, hwR, hprew, ?_, ?_⟩
  · rcases List.mem_cons.1 hpm with e | e
    · exact Or.inl e
    · exact Or.inr e
  · have hne : Ptr.head R ≠ w := fun e => hnotin (e ▸ hwR)
    have h1 : (Ptr.head R :: L R).erase w = Ptr.head R :: (L R).erase w := by
      simp [List.erase_cons, hne]
    rw [← h1, hdec, List.erase_append_right _ hwl0]
    simp [List.erase_cons, hprew]

/-- Moving the buffer `w` from the list of bucket `R` to the front of the list
of bucket `X` (three stores, all to links) gives the invariant for the new
lists, with `w` exempt: its identity is still the old one. -/
theorem cacheInv_move {NBUF NBUCKET : Nat} {s t : BCache} {L L3 : Nat → List Ptr}
    {X R j : Nat} {hd hR y xw : Buf} {pre : Ptr} {l0 l2 : List Ptr}
    (hI : CacheInv NBUF NBUCKET s L .null) (hRX : R ≠ X)
    (hh : s.rd (.head X) = .ret hd) (hhR : s.rd (.head R) = .ret hR)
    (hdec : .head R :: L R = l0 ++ pre :: .buf j :: l2)
    (hy : s.rd pre = .ret y) (hw : s.rd (.buf j) = .ret xw)
    (hRw : ihash NBUCKET xw.blockno = R)
    (hrd : ∀ q, t.rd q =
      if q = .head X then .ret { hd with next := .buf j }
      else if q = .buf j then .ret { xw with next := hd.next }
      else if q = pre then .ret { y with next := xw.next } else s.rd q)
    (hNB : t.NBUCKET = s.NBUCKET) (hNF : t.NBUF = s.NBUF)
    (hL3X : L3 X = .buf j :: L X) (hL3R : L3 R = (L R).erase (.buf j))
    (hL3o : ∀ k, k ≠ X → k ≠ R → L3 k = L k) :
    CacheInv NBUF NBUCKET t L3 (.buf j) := by
  obtain ⟨hX, hdz, hsegX, hndX, hpX⟩ := cacheInv_list hI hh
  obtain ⟨hRlt, hRz, hsegR, hndR, hpR⟩ := cacheInv_list hI hhR
  obtain ⟨hnd, -, hwR, hprew, hpre, herase⟩ := unlink_facts hI hhR hdec
  have hpool : ∀ k, k < NBUCKET → ∀ a ∈ L k, ∃ m, a = .buf m := fun k hk => by
    obtain ⟨_, _, _, _, _, hp⟩ := hI.lists k hk
    exact hp
  have hpreX : pre ≠ .head X := by
    rcases hpre with e | e
    · rw [e]; intro e'; cases e'; exact hRX rfl
    · obtain ⟨m, e'⟩ := hpR _ e; rw [e']; simp
  have hwX : Ptr.buf j ∉ L X := fun hm => hRX (hI.disjoint R X hRlt hX _ hwR hm)
  have hpre_notin : ∀ k, k < NBUCKET → k ≠ R → pre ∉ L k := by
    intro k hk hkR hm
    rcases hpre with e | e
    · obtain ⟨m, e'⟩ := hpool k hk _ hm
      rw [e] at e'; cases e'
    · exact hkR (hI.disjoint k R hk hRlt _ hm e)
  have hw_notin : ∀ k, k < NBUCKET → k ≠ R → Ptr.buf j ∉ L k := fun k hk hkR hm =>
    hkR (hI.disjoint k R hk hRlt _ hm hwR)
  have hsame : ∀ a, a ≠ .head X → a ≠ .buf j → a ≠ pre → t.rd a = s.rd a := by
    intro a h1 h2 h3
    rw [hrd, if_neg h1, if_neg h2, if_neg h3]
  have hfields : ∀ q z3, t.rd q = .ret z3 → ∃ z, s.rd q = .ret z ∧ z3.valid = z.valid ∧
      z3.dev = z.dev ∧ z3.blockno = z.blockno ∧ z3.lock = z.lock ∧ z3.refcnt = z.refcnt := by
    intro q z3 hz
    rw [hrd] at hz
    by_cases h1 : q = .head X
    · rw [if_pos h1] at hz; cases hz
      exact ⟨hd, h1 ▸ hh, rfl, rfl, rfl, rfl, rfl⟩
    rw [if_neg h1] at hz
    by_cases h2 : q = .buf j
    · rw [if_pos h2] at hz; cases hz
      exact ⟨xw, h2 ▸ hw, rfl, rfl, rfl, rfl, rfl⟩
    rw [if_neg h2] at hz
    by_cases h3 : q = pre
    · rw [if_pos h3] at hz; cases hz
      exact ⟨y, h3 ▸ hy, rfl, rfl, rfl, rfl, rfl⟩
    rw [if_neg h3] at hz
    exact ⟨z3, hz, rfl, rfl, rfl, rfl, rfl⟩
  have hmiss : ∀ l l' d b, Misses s l d b → (∀ a ∈ l', a ∈ l) → Misses t l' d b := by
    intro l l' d b hm hsub a ha z3 hz3
    obtain ⟨z, hz, -, e1, e2, -, -⟩ := hfields a z3 hz3
    intro hid
    exact hm a (hsub a ha) z hz ⟨e1 ▸ hid.1, e2 ▸ hid.2⟩
  have hmem3 : ∀ k, k < NBUCKET → ∀ a, a ∈ L3 k →
      (a = .buf j ∧ k = X) ∨ (a ≠ .buf j ∧ a ∈ L k) := by
    intro k hk a ha
    by_cases hkX : k = X
    · subst hkX
      rw [hL3X] at ha
      rcases List.mem_cons.1 ha with e | e
      · exact Or.inl ⟨e, rfl⟩
      · exact Or.inr ⟨fun e' => hwX (e' ▸ e), e⟩
    by_cases hkR : k = R
    · subst hkR
      rw [hL3R] at ha
      have h1 := (List.Nodup.mem_erase_iff hndR).1 ha
      exact Or.inr ⟨h1.1, h1.2⟩
    rw [hL3o k hkX hkR] at ha
    exact Or.inr ⟨fun e' => hw_notin k hk hkR (e' ▸ ha), ha⟩
  have hmem3' : ∀ k, ∀ a, a ≠ .buf j → a ∈ L k → a ∈ L3 k := by
    intro k a hne ha
    by_cases hkX : k = X
    · subst hkX
      rw [hL3X]
      exact List.mem_cons_of_mem _ ha
    by_cases hkR : k = R
    · subst hkR
      rw [hL3R]
      exact (List.mem_erase_of_ne hne).2 ha
    rw [hL3o k hkX hkR]
    exact ha
  refine ⟨hNF.trans hI.nbuf, hNB.trans hI.nbucket, ?_, ?_, ?_, ?_⟩
  · intro k hk
    by_cases hkX : k = X
    · subst hkX
      refine ⟨{ hd with next := .buf j }, by rw [hrd, if_pos rfl], zeroed_next hdz _, ?_, ?_, ?_⟩
      · rw [hL3X]
        refine seg_cons.2 ⟨rfl, by simp, { xw with next := hd.next }, ?_, ?_⟩
        · rw [hrd, if_neg (by simp), if_pos rfl]
        · refine seg_congr hsegX (fun a ha z hz => ⟨z, ?_, rfl⟩)
          obtain ⟨m, e⟩ := hpX a ha
          rw [hsame a (by rw [e]; simp) (fun e' => hwX (e' ▸ ha))
            (fun e' => hpre_notin k hk (fun e2 => hRX e2.symm) (e' ▸ ha))]
          exact hz
      · rw [hL3X]
        exact List.nodup_cons.2 ⟨hwX, hndX⟩
      · intro a ha
        rw [hL3X] at ha
        rcases List.mem_cons.1 ha with e | e
        · exact ⟨j, e⟩
        · exact hpX a e
    by_cases hkR : k = R
    · subst hkR
      have hseg0 : Seg s (.head k) (l0 ++ pre :: .buf j :: l2) .null := by
        rw [← hdec]
        exact seg_cons.2 ⟨rfl, by simp, hR, hhR, hsegR⟩
      have hseg1 : Seg t (.head k) (l0 ++ pre :: l2) .null := by
        refine seg_unlink hy hw l0 hseg0 hnd (fun a ha => ?_)
        have haw : a ≠ .buf j := by
          intro e
          rw [← herase, e] at ha
          rcases List.mem_cons.1 ha with e' | e'
          · cases e'
          · exact ((List.Nodup.mem_erase_iff hndR).1 e').1 rfl
        have haX : a ≠ .head X := by
          intro e
          rw [← herase, e] at ha
          rcases List.mem_cons.1 ha with e' | e'
          · cases e'; exact hkX rfl
          · obtain ⟨m, e2⟩ := hpR _ (List.mem_of_mem_erase e')
            cases e2
        rw [hrd, if_neg haX, if_neg haw]
      rw [← herase] at hseg1
      obtain ⟨-, -, h3, hh3, hs3⟩ := seg_cons.1 hseg1
      refine ⟨h3, hh3, ?_, ?_, ?_, ?_⟩
      · rw [hrd, if_neg (by intro e; cases e; exact hkX rfl), if_neg (by simp)] at hh3
        by_cases hp : Ptr.head k = pre
        · rw [if_pos hp] at hh3; cases hh3
          rw [← hp, hhR] at hy; cases hy
          exact zeroed_next hRz _
        · rw [if_neg hp, hhR] at hh3; cases hh3
          exact hRz
      · rw [hL3R]; exact hs3
      · rw [hL3R]; exact hndR.erase _
      · intro a ha
        rw [hL3R] at ha
        exact hpR a (List.mem_of_mem_erase ha)
    obtain ⟨h, hhk, hz, hl, hndk, hp⟩ := hI.lists k hk
    refine ⟨h, ?_, hz, ?_, ?_, ?_⟩
    · rw [hrd, if_neg (by intro e; cases e; exact hkX rfl), if_neg (by simp)]
      have hp' : Ptr.head k ≠ pre := by
        intro e
        rcases hpre with e' | e'
        · rw [← e] at e'; cases e'; exact hkR rfl
        · obtain ⟨m, e2⟩ := hpR _ e'
          rw [← e] at e2; cases e2
      rw [if_neg hp']
      exact hhk
    · rw [hL3o k hkX hkR]
      refine seg_congr hl (fun a ha z hz => ⟨z, ?_, rfl⟩)
      obtain ⟨m, e⟩ := hp a ha
      rw [hsame a (by rw [e]; simp) (fun e' => hw_notin k hk hkR (e' ▸ ha))
        (fun e' => hpre_notin k hk hkR (e' ▸ ha))]
      exact hz
    · rw [hL3o k hkX hkR]; exact hndk
    · rw [hL3o k hkX hkR]; exact hp
  · intro k1 k2 hk1 hk2 a h1 h2
    rcases hmem3 k1 hk1 a h1 with ⟨e1, e1'⟩ | ⟨e1, m1⟩
    · rcases hmem3 k2 hk2 a h2 with ⟨e2, e2'⟩ | ⟨e2, m2⟩
      · rw [e1', e2']
      · exact (e2 e1).elim
    · rcases hmem3 k2 hk2 a h2 with ⟨e2, e2'⟩ | ⟨e2, m2⟩
      · exact (e1 e2).elim
      · exact hI.disjoint k1 k2 hk1 hk2 a m1 m2
  · intro m z3 hne hz3 hq
    obtain ⟨z, hz, -, -, e3, e4, e5⟩ := hfields _ z3 hz3
    rw [e3]
    rw [e4, e5] at hq
    obtain ⟨hlt, hm⟩ := hI.homed m z (by simp) hz hq
    exact ⟨hlt, hmem3' _ _ hne hm⟩
  · intro m z3 hne hz3 hv
    obtain ⟨z, hz, e1, e2, e3, -, -⟩ := hfields _ z3 hz3
    rw [e2, e3]
    rw [e1] at hv
    obtain ⟨hlt, l1, l2', hL, hm⟩ := hI.first m z (by simp) hz hv
    refine ⟨hlt, ?_⟩
    by_cases hkX : ihash NBUCKET z.blockno = X
    · rw [hkX] at hL ⊢
      refine ⟨.buf j :: l1, l2', by rw [hL3X, hL]; rfl, ?_⟩
      intro a ha z' hz'
      rcases List.mem_cons.1 ha with e | e
      · subst e
        rw [hrd, if_neg (by simp), if_pos rfl] at hz'
        cases hz'
        intro hid
        have hb : xw.blockno = z.blockno := hid.2
        rw [hb] at hRw
        exact hRX (hRw.symm.trans hkX)
      · exact hmiss l1 l1 _ _ hm (fun _ h => h) a e z' hz'
    by_cases hkR : ihash NBUCKET z.blockno = R
    · rw [hkR] at hL ⊢
      have hmw : Ptr.buf m ≠ .buf j := hne
      by_cases hin : Ptr.buf j ∈ l1
      · refine ⟨l1.erase (.buf j), l2', ?_, hmiss l1 _ _ _ hm (fun _ h => List.mem_of_mem_erase h)⟩
        rw [hL3R, hL, List.erase_append_left _ hin]
      · refine ⟨l1, l2'.erase (.buf j), ?_, hmiss l1 _ _ _ hm (fun _ h => h)⟩
        rw [hL3R, hL, List.erase_append_right _ hin]
        simp [List.erase_cons, hmw]
    · rw [hL3o _ hkX hkR]
      exact ⟨l1, l2', hL, hmiss l1 _ _ _ hm (fun _ h => h)⟩

end OSLab

/-! ## The cache invariant holds in every reachable state -/

namespace OSLab

/-- A returning `bget` preserves the invariant, for the lists it leaves. -/
theorem cacheInv_bget {NBUF NBUCKET : Nat} {s s' : BCache} {L : Nat → List Ptr}
    (hI : CacheInv NBUF NBUCKET s L .null) (fuel dev blockno : Nat) (b : Ptr)
    (h : bget fuel s dev blockno = .ret (s', b)) :
    ∃ L', CacheInv NBUF NBUCKET s' L' .null := by
  have hN := hI.nbucket
  subst hN
  rcases rd_cases s (.head (ihash s.NBUCKET blockno)) with ⟨hd, hh⟩ | hh
  swap
  · simp [bget, acquire_nil, hh] at h
  cases hsc : bget_scan s dev blockno fuel hd.next with
  | panic m => simp [bget, acquire_nil, hh, hsc] at h
  | fault => simp [bget, acquire_nil, hh, hsc] at h
  | deadlock => simp [bget, acquire_nil, hh, hsc] at h
  | fuel => simp [bget, acquire_nil, hh, hsc] at h
  | ret b0 =>
    obtain ⟨l, hl, hm, -, hb0⟩ := bget_scan_ret s dev blockno fuel _ _ hsc
    by_cases hnull : b0 = .null
    · subst hnull
      obtain ⟨hX, hdz, hsegX, hndX, hpX⟩ := cacheInv_list hI hh
      have hlL := seg_unique hl hsegX
      subst hlL
      cases hlr : bget_lru s fuel hd.next .null (1 <<< 20) with
      | panic m => rw [bget_miss fuel s dev blockno hd hh hsc, hlr] at h; exact absurd h (by simp)
      | fault => rw [bget_miss fuel s dev blockno hd hh hsc, hlr] at h; exact absurd h (by simp)
      | deadlock => rw [bget_miss fuel s dev blockno hd hh hsc, hlr] at h; exact absurd h (by simp)
      | fuel => rw [bget_miss fuel s dev blockno hd hh hsc, hlr] at h; exact absurd h (by simp)
      | ret vm =>
        obtain ⟨v, m⟩ := vm
        by_cases hv : v = .null
        · -- the cross-bucket path
          subst hv
          rw [bget_cross fuel s dev blockno hd m hh hsc hlr] at h
          obtain ⟨r, hr, h⟩ := Res.bind_eq_ret h
          obtain ⟨xw, hR, pre, y, hxw, -, hnot, hhR, ⟨l0, hl0⟩, hy, hs1⟩ :=
            loop_find_spec _ _ _ _ _ _ _ hr
          have hwn : r.2.2 ≠ .null := loop_find_ne_null _ _ _ _ _ _ _ hr
          obtain ⟨s1, held', w⟩ := r
          simp only [ne_eq] at hxw hl0 hs1 h hwn
          rw [if_pos hwn] at h
          have hRX : ihash s.NBUCKET xw.blockno ≠ ihash s.NBUCKET blockno := by
            intro e; apply hnot; rw [e]; simp
          obtain ⟨hRlt, hRz, hsegR, hndR, hpR⟩ := cacheInv_list hI hhR
          obtain ⟨l2, hdec⟩ := seg_split hwn hl0
            (seg_cons.2 ⟨rfl, by simp, hR, hhR, hsegR⟩ :
              Seg s (.head (ihash s.NBUCKET xw.blockno))
                (.head (ihash s.NBUCKET xw.blockno) :: L (ihash s.NBUCKET xw.blockno)) .null)
          rw [List.append_assoc, List.singleton_append] at hdec
          obtain ⟨-, ⟨j, hj⟩, hwR, hprew, hpre, -⟩ := unlink_facts hI hhR hdec
          subst hj
          have hpreX : Ptr.head (ihash s.NBUCKET blockno) ≠ pre := by
            rcases hpre with e | e
            · rw [e]; intro e'; exact hRX (Ptr.head.inj e').symm
            · obtain ⟨k, e'⟩ := hpR _ e; rw [e']; simp
          obtain ⟨h', hh', hc1⟩ := Res.bind_eq_ret h
          obtain ⟨t1, ht1, hc2⟩ := Res.bind_eq_ret hc1
          obtain ⟨t2, ht2, hfin⟩ := Res.bind_eq_ret hc2
          obtain ⟨xw', hxw', et1⟩ := upd_ret ht1
          obtain ⟨xh, hxh, et2⟩ := upd_ret ht2
          have hrd1 : ∀ q, s1.rd q = if q = pre then .ret { y with next := xw.next } else s.rd q :=
            fun q => by rw [hs1]; exact rd_set s pre q y _ hy
          have e1 : h' = hd := by
            rw [hrd1, if_neg hpreX, hh] at hh'; cases hh'; rfl
          have e2 : xw' = xw := by
            rw [hrd1, if_neg (fun e => hprew e.symm), hxw] at hxw'; cases hxw'; rfl
          subst e1 e2
          have hrd2 : ∀ q, t1.rd q =
              if q = .buf j then .ret { xw' with next := h'.next } else s1.rd q :=
            fun q => by rw [et1]; exact rd_set s1 _ q xw' _ hxw'
          have e3 : xh = h' := by
            rw [hrd2, if_neg (by simp), hh'] at hxh; cases hxh; rfl
          subst e3
          have hrd3 : ∀ q, t2.rd q =
              if q = .head (ihash s.NBUCKET blockno) then .ret { xh with next := .buf j }
              else if q = .buf j then .ret { xw' with next := xh.next }
              else if q = pre then .ret { y with next := xw'.next } else s.rd q := by
            intro q
            rw [et2, rd_set t1 _ q xh _ hxh]
            by_cases c1 : q = .head (ihash s.NBUCKET blockno)
            · rw [if_pos c1, if_pos c1]
            · rw [if_neg c1, if_neg c1, hrd2, hrd1]
          obtain ⟨L3, hL3X, hL3R, hL3o⟩ : ∃ L3 : Nat → List Ptr,
              L3 (ihash s.NBUCKET blockno) = .buf j :: L (ihash s.NBUCKET blockno) ∧
              L3 (ihash s.NBUCKET xw'.blockno) = (L (ihash s.NBUCKET xw'.blockno)).erase (.buf j) ∧
              ∀ k, k ≠ ihash s.NBUCKET blockno → k ≠ ihash s.NBUCKET xw'.blockno → L3 k = L k :=
            ⟨fun k => if k = ihash s.NBUCKET blockno then .buf j :: L (ihash s.NBUCKET blockno)
              else if k = ihash s.NBUCKET xw'.blockno then
                (L (ihash s.NBUCKET xw'.blockno)).erase (.buf j)
              else L k, by simp, by simp [hRX], fun k h1 h2 => by simp [h1, h2]⟩
          have hI3 := cacheInv_move hI hRX hh hhR hdec hy hxw rfl hrd3
            (by rw [et2, NBUCKET_set, et1, NBUCKET_set, hs1, NBUCKET_set])
            (by rw [et2, NBUF_set, et1, NBUF_set, hs1, NBUF_set]) hL3X hL3R hL3o
          have hw2 : t2.rd (.buf j) = .ret { xw' with next := xh.next } := by
            rw [hrd3, if_neg (by simp), if_pos rfl]
          obtain ⟨-, e⟩ := bget_find_ret t2 _ _ dev blockno _ _ hw2 hfin
          cases e
          refine ⟨L3, cacheInv_store hI3 hw2 (fun q => rd_set_set t2 _ q _ _ _ hw2)
            (by simp) (by simp) rfl (fun _ => ?_) (fun hv => ?_) (Or.inr ?_)⟩
          · have e : (Buf.claim { xw' with next := xh.next } dev blockno).blockno = blockno := rfl
            rw [e, hL3X]
            exact ⟨hX, List.mem_cons_self _ _⟩
          · have e : (Buf.claim { xw' with next := xh.next } dev blockno).valid = false := rfl
            rw [e] at hv; cases hv
          · have e : (Buf.claim { xw' with next := xh.next } dev blockno).blockno = blockno := rfl
            have e2 : (Buf.claim { xw' with next := xh.next } dev blockno).dev = dev := rfl
            rw [e, e2, hL3X]
            intro a ha z hz hne
            rcases List.mem_cons.1 ha with e' | e'
            · exact (hne e').elim
            obtain ⟨k, ek⟩ := hpX a e'
            rw [hrd3, if_neg (by rw [ek]; simp), if_neg hne] at hz
            by_cases c : a = pre
            · rw [if_pos c] at hz; cases hz
              intro hid
              exact hm a e' y (c ▸ hy) hid
            · rw [if_neg c] at hz
              exact hm a e' z hz
        · -- the local path
          have hvl : v ∈ L (ihash s.NBUCKET blockno) := by
            rcases bget_lru_mem s _ _ _ _ _ _ _ hl hlr with e | e
            · exact (hv e).elim
            · exact e
          obtain ⟨-, -, -, -, -, x, hx⟩ := seg_to_mem hl hvl
          obtain ⟨-, e⟩ := bget_local_ret fuel s dev blockno hd x v m _ hh hsc hlr hv hx h
          cases e
          exact ⟨L, (cacheInv_local hI fuel dev blockno hd x b m hh hsc hlr hv hx).1⟩
    · rcases hb0 with hb0 | ⟨x, hx, hid⟩
      · exact (hnull hb0).elim
      obtain ⟨-, e⟩ := bget_hit_ret fuel s dev blockno hd x b0 _ hh hsc hnull hx h
      cases e
      exact ⟨L, (cacheInv_hit hI fuel dev blockno hd x b hh hsc hnull hx).1⟩

end OSLab

/-! ## Claims C14 and C15: invariants of the reachable cache states -/

namespace OSLab

@[simp] theorem NBUF_virtio_disk_rw (s : BCache) (b : Ptr) (w : Nat) :
    (virtio_disk_rw s b w).NBUF = s.NBUF := rfl

/-- A returning `bread` preserves the invariant, for the lists it leaves. -/
theorem cacheInv_bread {NBUF NBUCKET : Nat} {s s' : BCache} {L : Nat → List Ptr}
    (hI : CacheInv NBUF NBUCKET s L .null) (fuel dev blockno : Nat) (b : Ptr)
    (h : bread fuel s dev blockno = .ret (s', b)) :
    ∃ L', CacheInv NBUF NBUCKET s' L' .null := by
  unfold bread at h
  obtain ⟨r, hg, h1⟩ := Res.bind_eq_ret h
  obtain ⟨s1, b1⟩ := r
  obtain ⟨L1, hI1⟩ := cacheInv_bget hI fuel dev blockno b1 hg
  obtain ⟨hF, ⟨x0, hx0, hlock⟩, -⟩ := bget_post fuel s dev blockno s1 b1 hg
  simp only at h1
  obtain ⟨x, hx, h2⟩ := Res.bind_eq_ret h1
  rw [hx0] at hx; cases hx
  cases hv : x0.valid with
  | true =>
    simp [hv] at h2
    obtain ⟨e1, -⟩ := h2
    subst e1
    exact ⟨L1, hI1⟩
  | false =>
    simp only [hv, Bool.not_false, if_true] at h2
    obtain ⟨s3, hs3, h3⟩ := Res.bind_eq_ret h2
    cases h3
    obtain ⟨x', hx', es3⟩ := upd_ret hs3
    rw [rd_virtio_disk_rw, hx0] at hx'; cases hx'
    obtain ⟨hb, hd, l, x2, hh, hl, hm, -, hx2, hid⟩ := hF
    rw [hx0] at hx2; cases hx2
    have hN1 := hI1.nbucket
    rw [hN1] at hh
    obtain ⟨hk, -, hseg, -, hp⟩ := cacheInv_list hI1 hh
    obtain ⟨l2, hL⟩ := seg_split hb hl hseg
    obtain ⟨m, e⟩ := hp b (by rw [hL]; simp)
    subst e
    have hrd : ∀ q, s'.rd q = if q = .buf m then .ret { x0 with valid := true } else s1.rd q := by
      intro q
      rw [es3, rd_set _ _ q x0 _ (by rw [rd_virtio_disk_rw]; exact hx0), rd_virtio_disk_rw]
    refine ⟨L1, cacheInv_store (cacheInv_weaken _ hI1) hx0 hrd (by rw [es3]; simp)
      (by rw [es3]; simp) rfl (fun _ => hI1.homed m x0 (by simp) hx0 (Or.inr hlock))
      (fun _ => ?_) (Or.inl ⟨rfl, rfl⟩)⟩
    show ihash NBUCKET x0.blockno < NBUCKET ∧
      First s1 (L1 (ihash NBUCKET x0.blockno)) x0.dev x0.blockno (.buf m)
    rw [hid.1, hid.2]
    exact ⟨hk, l, l2, hL, hm⟩

/-- Every reachable state satisfies the cache invariant for some lists. -/
theorem cacheInv_reach {NBUF NBUCKET : Nat} {s : BCache} (hr : Reach NBUF NBUCKET s) :
    ∃ L, CacheInv NBUF NBUCKET s L .null := by
  induction hr with
  | boot h => exact ⟨_, cacheInv_boot NBUF NBUCKET _ h⟩
  | bget fuel dev blockno _ h ih =>
    obtain ⟨L, hI⟩ := ih
    exact cacheInv_bget hI fuel dev blockno _ h
  | bread fuel dev blockno _ h ih =>
    obtain ⟨L, hI⟩ := ih
    exact cacheInv_bread hI fuel dev blockno _ h
  | brelse ticks b _ hb h ih =>
    obtain ⟨L, hI⟩ := ih
    exact ⟨L, cacheInv_brelse hI ticks b hb h⟩
  | bpin b _ hb h ih =>
    obtain ⟨L, hI⟩ := ih
    exact ⟨L, cacheInv_bpin hI b hb h⟩
  | bunpin b _ hb h ih =>
    obtain ⟨L, hI⟩ := ih
    exact ⟨L, cacheInv_bunpin hI b hb h⟩

/-- Two nodes of a list that are each the first with an identity they both
carry are the same node. -/
theorem first_unique {s : BCache} {dev blockno : Nat} {a a' : Ptr} {x x' : Buf}
    (hx : s.rd a = .ret x) (hx' : s.rd a' = .ret x') (hid : x.is dev blockno)
    (hid' : x'.is dev blockno) :
    ∀ (l1 l1' l2 l2' : List Ptr), l1 ++ a :: l2 = l1' ++ a' :: l2' →
      Misses s l1 dev blockno → Misses s l1' dev blockno → a = a' := by
  intro l1
  induction l1 with
  | nil =>
    intro l1' l2 l2' e hm hm'
    cases l1' with
    | nil =>
      simp only [List.nil_append, List.cons.injEq] at e
      exact e.1
    | cons c t =>
      simp only [List.nil_append, List.cons_append, List.cons.injEq] at e
      exact absurd hid (hm' a (by rw [e.1]; simp) x hx)
  | cons c t ih =>
    intro l1' l2 l2' e hm hm'
    cases l1' with
    | nil =>
      simp only [List.nil_append, List.cons_append, List.cons.injEq] at e
      exact absurd hid' (hm a' (by rw [← e.1]; simp) x' hx')
    | cons c' t' =>
      simp only [List.cons_append, List.cons.injEq] at e
      exact ih t' l2 l2' e.2 (fun q hq => hm q (List.mem_cons_of_mem _ hq))
        (fun q hq => hm' q (List.mem_cons_of_mem _ hq))

/-- A valid buffer is a pool slot: the bucket heads are never valid. -/
theorem valid_buf {NBUF NBUCKET : Nat} {s : BCache} {L : Nat → List Ptr} {e p : Ptr} {x : Buf}
    (hI : CacheInv NBUF NBUCKET s L e) (hx : s.rd p = .ret x) (hv : x.valid = true) :
    ∃ m, p = .buf m := by
  cases p with
  | null => rw [rd_null] at hx; cases hx
  | buf m => exact ⟨m, rfl⟩
  | head k =>
    obtain ⟨h, hh, hz, -⟩ := hI.lists k (hI.nbucket ▸ rd_head_lt hx)
    rw [hx] at hh; cases hh
    rw [hz] at hv
    simp [Buf.zero] at hv

/-- C14: in every cache state reachable from `binit` by returning calls of
`bget`, `bread`, `brelse`, `bpin` and `bunpin` (the last three on buffers the
caller holds), two distinct buffers that are both valid do not have the same
`(dev, blockno)` pair. -/
theorem C14_valid_buffers_have_distinct_identities (NBUF NBUCKET : Nat) (s : BCache)
    (hr : Reach NBUF NBUCKET s) (p q : Ptr) (x y : Buf) (hx : s.rd p = .ret x)
    (hy : s.rd q = .ret y) (hpq : p ≠ q) (hvx : x.valid = true) (hvy : y.valid = true) :
    ¬ (x.dev = y.dev ∧ x.blockno = y.blockno) := by
  obtain ⟨L, hI⟩ := cacheInv_reach hr
  obtain ⟨m, e⟩ := valid_buf hI hx hvx
  obtain ⟨m', e'⟩ := valid_buf hI hy hvy
  subst e e'
  rintro ⟨hd, hb⟩
  obtain ⟨-, l1, l2, hL, hm⟩ := hI.first m x (by simp) hx hvx
  obtain ⟨-, l1', l2', hL', hm'⟩ := hI.first m' y (by simp) hy hvy
  rw [← hb] at hL'
  rw [← hd, ← hb] at hm'
  exact hpq (first_unique hx hy ⟨rfl, rfl⟩ ⟨hd.symm, hb.symm⟩ l1 l1' l2 l2'
    (hL.symm.trans hL') hm hm')

/-- C14 at a concrete input: after blocks (1,5) and (1,7) were read in the
boot state with 4 buffers and 2 buckets, slots 3 and 2 are both valid and
their identities differ. -/
theorem C14_valid_buffers_witness :
    Reach 4 2 two_read_state ∧ ¬ ((1 : Nat) = 1 ∧ (5 : Nat) = 7) :=
  have hr : Reach 4 2 two_read_state :=
    Reach.bread 4 1 7 (Reach.bread 4 1 5 (Reach.boot rfl : Reach 4 2 boot_state) rfl) rfl
  ⟨hr, C14_valid_buffers_have_distinct_identities 4 2 two_read_state hr (.buf 3) (.buf 2)
    ⟨true, 1, 5, true, 1, 0, .buf 2⟩ ⟨true, 1, 7, true, 1, 0, .null⟩ rfl rfl (by decide) rfl rfl⟩

/-- C15: in every cache state reachable from `binit` by returning calls of
`bget`, `bread`, `brelse`, `bpin` and `bunpin` (the last three on buffers the
caller holds), every bucket has a null-terminated, duplicate-free list, and a
buffer with `refcnt > 0` is on the list of bucket `k` exactly when
`k = ihash(blockno)` for its current block number, which is a bucket index. -/
theorem C15_referenced_buffer_on_its_bucket_list (NBUF NBUCKET : Nat) (s : BCache)
    (hr : Reach NBUF NBUCKET s) :
    s.NBUCKET = NBUCKET ∧ ∃ L : Nat → List Ptr,
      (∀ k, k < NBUCKET → ∃ h, s.rd (.head k) = .ret h ∧ Seg s h.next (L k) .null ∧
        (L k).Nodup) ∧
      ∀ m x, s.rd (.buf m) = .ret x → 0 < x.refcnt →
        ihash NBUCKET x.blockno < NBUCKET ∧
        ∀ k, k < NBUCKET → (.buf m ∈ L k ↔ k = ihash NBUCKET x.blockno) := by
  obtain ⟨L, hI⟩ := cacheInv_reach hr
  refine ⟨hI.nbucket, L, ?_, ?_⟩
  · intro k hk
    obtain ⟨h, hh, -, hl, hnd, -⟩ := hI.lists k hk
    exact ⟨h, hh, hl, hnd⟩
  · intro m x hx hpos
    obtain ⟨hlt, hmem⟩ := hI.homed m x (by simp) hx (Or.inl (by omega))
    refine ⟨hlt, fun k hk => ⟨fun h => hI.disjoint k _ hk hlt _ h hmem, fun e => ?_⟩⟩
    rw [e]
    exact hmem

/-- C15 at a concrete input: the state after blocks (1,5) and (1,7) were read
in the boot state with 4 buffers and 2 buckets. -/
theorem C15_referenced_buffer_witness :
    Reach 4 2 two_read_state ∧ two_read_state.NBUCKET = 2 ∧ ∃ L : Nat → List Ptr,
      (∀ k, k < 2 → ∃ h, two_read_state.rd (.head k) = .ret h ∧
        Seg two_read_state h.next (L k) .null ∧ (L k).Nodup) ∧
      ∀ m x, two_read_state.rd (.buf m) = .ret x → 0 < x.refcnt →
        ihash 2 x.blockno < 2 ∧ ∀ k, k < 2 → (.buf m ∈ L k ↔ k = ihash 2 x.blockno) :=
  have hr : Reach 4 2 two_read_state :=
    Reach.bread 4 1 7 (Reach.bread 4 1 5 (Reach.boot rfl : Reach 4 2 boot_state) rfl) rfl
  ⟨hr, C15_referenced_buffer_on_its_bucket_list 4 2 two_read_state hr⟩

end OSLab

/-! ## Runs: agreement with the state-passing routines -/

namespace OSLab

theorem Run.bind_apply {σ α β : Type} (m : Run σ α) (f : α → Run σ β) (s : σ) :
    (m >>= f) s = Run.bind m f s := rfl

theorem Run.pure_apply {σ α : Type} (a : α) (s : σ) : (pure a : Run σ α) s = (s, .ret a) := rfl

/-- The run of `bwrite` stops as `bwrite` does, and returns with the globals
`bwrite` returns. -/
theorem bwrite_run_result (s : BCache) (b : Ptr) :
    Run.result (bwrite_run b s) = bwrite s b := by
  rcases rd_cases s b with ⟨x, hx⟩ | hx
  · cases hl : x.lock <;>
      simp [bwrite_run, bwrite, Run.bind_apply, Run.bind, Run.read, Run.stmt, Run.panic,
        Run.result, holdingsleep, hx, hl]
  · simp [bwrite_run, bwrite, Run.bind_apply, Run.bind, Run.read, Run.stmt, Run.panic,
      Run.result, holdingsleep, hx]

/-- The run of `brelse` stops as `brelse` does, and returns with the globals
`brelse` returns. -/
theorem brelse_run_result (ticks : Nat) (s : BCache) (b : Ptr) :
    Run.result (brelse_run ticks b s) = brelse ticks s b := by
  rcases rd_cases s b with ⟨x, hx⟩ | hx
  swap
  · simp [brelse_run, brelse, Run.bind_apply, Run.bind, Run.read, Run.panic, Run.result,
      holdingsleep, hx]
  cases hl : x.lock with
  | false =>
    simp [brelse_run, brelse, Run.bind_apply, Run.bind, Run.read, Run.panic, Run.result,
      holdingsleep, hx, hl]
  | true =>
    have e1 := rd_set_self s b x { x with lock := false } hx
    by_cases hz : uint_dec x.refcnt = 0
    · have e2 := rd_set_self _ b _ { x with lock := false, refcnt := 0 } e1
      simp only [brelse_run, brelse, Run.bind_apply, Run.bind, Run.read, Run.stmt, Run.panic,
        Run.pure_apply, Run.result, holdingsleep, hx, Res.ret_bind, Res.pure_eq, hl,
        Bool.not_true, Bool.false_eq_true, if_false, releasesleep, upd_eq s b _ x hx, e1,
        acquire_nil, upd_eq _ b _ _ e1, hz, e2, if_true, upd_eq _ b _ _ e2]
    · have e2 := rd_set_self _ b _ { x with lock := false, refcnt := uint_dec x.refcnt } e1
      simp only [brelse_run, brelse, Run.bind_apply, Run.bind, Run.read, Run.stmt, Run.panic,
        Run.pure_apply, Run.result, holdingsleep, hx, Res.ret_bind, Res.pure_eq, hl,
        Bool.not_true, Bool.false_eq_true, if_false, releasesleep, upd_eq s b _ x hx, e1,
        acquire_nil, upd_eq _ b _ _ e1, e2, hz]

/-- The run of `kfree` stops as `kfree` does, and returns with the globals
`kfree` returns. -/
theorem kfree_run_result (c : Layout) (s : KMem) (pa : Nat) :
    Run.result (kfree_run c pa s) = kfree c s pa := by
  cases hn : s.ref (ipage c pa) with
  | ret n =>
    by_cases h1 : 1 < n
    · simp [kfree_run, kfree, Run.bind_apply, Run.bind, Run.read, Run.stmt, Run.pure_apply,
        Run.result, acquire_reflock, acquire_nil, hn, h1]
    · by_cases hp : pa % PGSIZE ≠ 0 ∨ pa < c.kend ∨ pa ≥ c.PHYSTOP
      · simp only [kfree_run, kfree, Run.bind_apply, Run.bind, Run.read, Run.panic, Run.result,
          acquire_reflock, acquire_nil, Res.ret_bind, hn, gt_iff_lt, h1, if_false, hp, if_true]
      · simp only [kfree_run, kfree, Run.bind_apply, Run.bind, Run.read, Run.stmt, Run.panic,
          Run.pure_apply, Run.result, acquire_reflock, acquire_nil, Res.ret_bind, hn, gt_iff_lt,
          h1, if_false, hp, release_reflock, release, List.erase_cons_head, acquire,
          List.not_mem_nil, Res.pure_eq, KMem.setRef]
  | panic m => simp [kfree_run, kfree, Run.bind_apply, Run.bind, Run.read, Run.result,
      acquire_reflock, acquire_nil, hn]
  | fault => simp [kfree_run, kfree, Run.bind_apply, Run.bind, Run.read, Run.result,
      acquire_reflock, acquire_nil, hn]
  | deadlock => simp [kfree_run, kfree, Run.bind_apply, Run.bind, Run.read, Run.result,
      acquire_reflock, acquire_nil, hn]
  | fuel => simp [kfree_run, kfree, Run.bind_apply, Run.bind, Run.read, Run.result,
      acquire_reflock, acquire_nil, hn]

end OSLab

/-! ## Claims C10, C13 and C16: checked preconditions and the recency stamp -/

namespace OSLab

/-- C10 as stated fails in two ways, both because `kfree` reads the count of
`ipage(pa)` before it validates `pa`. On the small machine page 12288 is
allocated and shared once, so its count is 2; the address 12289 is not a
multiple of `PGSIZE`, yet `kfree(12289)` decrements the count of page 12288 to
1 and returns. And `kfree(PHYSTOP)` stops at the read of `refCount[4]`, one
past the end of the table, before the test that would panic. -/
theorem C10_counterexample_count_read_first :
    ∃ s s', shared_page = .ret s ∧ s.ref (ipage small 12288) = .ret 2 ∧
      12289 % PGSIZE ≠ 0 ∧ ipage small 12289 = ipage small 12288 ∧
      kfree_run small 12289 s = (s', .ret ()) ∧ s'.ref (ipage small 12288) = .ret 1 ∧
      kfree small s 12289 = .ret s' ∧ kfree small s 12289 ≠ .panic "kfree" ∧
      small.PHYSTOP = 24576 ∧ ipage small 24576 = 4 ∧ s.refCount.length = 4 ∧
      kfree_run small 24576 s = (s, .fault) ∧ kfree small s 24576 = .fault :=
  ⟨_, _, rfl, rfl, by decide, rfl, rfl, rfl, rfl, by
    intro h
    have e : kfree small
        ⟨0, [0, 2, 0, 0], memset (fun _ => 0) 12288 5 PGSIZE⟩ 12289 =
        .ret ⟨0, [0, 1, 0, 0], memset (fun _ => 0) 12288 5 PGSIZE⟩ := rfl
    exact absurd (e.symm.trans h) (by simp), rfl, rfl, rfl, rfl, rfl⟩

/-- C10, amended. Freeing an invalid address is fatal when the count read for
it is at most 1: for an address `pa` that is not a multiple of `PGSIZE`, or is
below `end`, or is at or above `PHYSTOP`, whose entry `refCount[ipage(pa)]` is
inside the table and at most 1, `kfree(pa)` reaches `panic("kfree")` with the
free list, the count table and memory as they were. -/
theorem C10_kfree_invalid_panics (c : Layout) (s : KMem) (pa n : Nat)
    (hn : s.ref (ipage c pa) = .ret n) (h1 : n ≤ 1)
    (hp : pa % PGSIZE ≠ 0 ∨ pa < c.kend ∨ pa ≥ c.PHYSTOP) :
    kfree_run c pa s = (s, .panic "kfree") ∧ kfree c s pa = .panic "kfree" := by
  have h1' : ¬ 1 < n := by omega
  refine ⟨?_, kfree_invalid c s pa n hn h1 hp⟩
  simp only [kfree_run, Run.bind_apply, Run.bind, Run.read, Run.panic, acquire_reflock,
    acquire_nil, hn, gt_iff_lt, h1', if_false, hp, if_true]

/-- C10, amended, at a concrete input: `kfree(12289)` in `one_free`, where the
count of page 12288 is 0. -/
theorem C10_kfree_invalid_witness :
    kfree_run small 12289 one_free = (one_free, .panic "kfree") ∧
      kfree small one_free 12289 = .panic "kfree" :=
  C10_kfree_invalid_panics small one_free 12289 0 rfl (by decide) (Or.inl (by decide))

/-- C13. The lock-held precondition is checked first: on a buffer whose
exclusive lock the caller does not hold, the run of `brelse` stops at
`panic("brelse")` and the run of `bwrite` at `panic("bwrite")`, in both cases
with the globals (every buffer's `refcnt`, `timestamp` and lock state, and the
record of driver calls) exactly as they were. When the lock is held neither
panics: `brelse` returns and `bwrite` returns after one driver call. -/
theorem C13_lock_checked_first (ticks : Nat) (s : BCache) (b : Ptr) (x : Buf)
    (hx : s.rd b = .ret x) :
    (x.lock = false → brelse_run ticks b s = (s, .panic "brelse") ∧
      bwrite_run b s = (s, .panic "bwrite") ∧ brelse ticks s b = .panic "brelse" ∧
      bwrite s b = .panic "bwrite") ∧
    (x.lock = true → (∃ s', brelse_run ticks b s = (s', .ret ()) ∧ brelse ticks s b = .ret s') ∧
      bwrite_run b s = (virtio_disk_rw s b 1, .ret ()) ∧
      bwrite s b = .ret (virtio_disk_rw s b 1)) := by
  constructor
  · intro hl
    refine ⟨?_, ?_, ?_, ?_⟩
    · simp [brelse_run, Run.bind_apply, Run.bind, Run.read, Run.panic, holdingsleep, hx, hl]
    · simp [bwrite_run, Run.bind_apply, Run.bind, Run.read, Run.panic, holdingsleep, hx, hl]
    · simp only [brelse, holdingsleep, hx, Res.ret_bind, Res.pure_eq, hl, Bool.not_false,
        if_true]
    · simp only [bwrite, holdingsleep, hx, Res.ret_bind, Res.pure_eq, hl, Bool.not_false,
        if_true]
  · intro hl
    refine ⟨?_, ?_, ?_⟩
    · obtain ⟨s', hs', -⟩ := brelse_eq ticks s b x hx hl
      refine ⟨s', ?_, hs'⟩
      have hr := brelse_run_result ticks s b
      rw [hs'] at hr
      generalize brelse_run ticks b s = r at hr
      obtain ⟨t, o⟩ := r
      cases o <;> simp [Run.result] at hr
      rw [hr]
    · simp [bwrite_run, Run.bind_apply, Run.bind, Run.read, Run.stmt, holdingsleep, hx, hl]
    · simp only [bwrite, holdingsleep, hx, Res.ret_bind, Res.pure_eq, hl, Bool.not_true,
        Bool.false_eq_true, if_false]

/-- C13 at two concrete inputs: slot 0 of `late_state`, whose lock is not
held, and slot 0 of `three_held_state`, whose lock is held. -/
theorem C13_lock_checked_witness :
    (brelse_run 3 (.buf 0) late_state = (late_state, .panic "brelse") ∧
      bwrite_run (.buf 0) late_state = (late_state, .panic "bwrite") ∧
      brelse 3 late_state (.buf 0) = .panic "brelse" ∧
      bwrite late_state (.buf 0) = .panic "bwrite") ∧
    ((∃ s', brelse_run 3 (.buf 0) three_held_state = (s', .ret ()) ∧
        brelse 3 three_held_state (.buf 0) = .ret s') ∧
      bwrite_run (.buf 0) three_held_state = (virtio_disk_rw three_held_state (.buf 0) 1, .ret ()) ∧
      bwrite three_held_state (.buf 0) = .ret (virtio_disk_rw three_held_state (.buf 0) 1)) :=
  ⟨(C13_lock_checked_first 3 late_state (.buf 0) ⟨false, 0, 0, false, 0, 1048576, .null⟩
      rfl).1 rfl,
    (C13_lock_checked_first 3 three_held_state (.buf 0) ⟨false, 0, 2, true, 1, 0, .null⟩
      rfl).2 rfl⟩

/-- C16 as stated fails for `bunpin`: in `three_held_state` slot 0 has
`refcnt` 1 and timestamp 0; with the tick counter at 7, `bunpin` takes its
`refcnt` to 0 and leaves the timestamp 0. -/
theorem C16_counterexample_bunpin_does_not_stamp :
    ∃ s', three_held_state.rd (.buf 0) = .ret ⟨false, 0, 2, true, 1, 0, .null⟩ ∧
      bunpin three_held_state (.buf 0) = .ret s' ∧
      s'.rd (.buf 0) = .ret ⟨false, 0, 2, true, 0, 0, .null⟩ ∧ (0 : Nat) ≠ 7 :=
  ⟨_, rfl, rfl, rfl, by decide⟩

/-- C16, amended. `brelse(b)` with the lock held decrements `refcnt`; when that
takes it from 1 to 0 the timestamp becomes the tick counter, and when it leaves
`refcnt` other than 0 the timestamp is unchanged. `bunpin(b)`, on any buffer,
its lock held or not, decrements `refcnt` and never changes the timestamp. -/
theorem C16_stamp_on_release_only (ticks : Nat) (s : BCache) (b : Ptr) (x : Buf)
    (hx : s.rd b = .ret x) :
    (x.lock = true → ∃ s1 y1, brelse ticks s b = .ret s1 ∧ s1.rd b = .ret y1 ∧
      y1.refcnt = uint_dec x.refcnt ∧ (x.refcnt = 1 → y1.refcnt = 0 ∧ y1.timestamp = ticks) ∧
      (y1.refcnt ≠ 0 → y1.timestamp = x.timestamp)) ∧
    (∃ s2 y2, bunpin s b = .ret s2 ∧ s2.rd b = .ret y2 ∧ y2.refcnt = uint_dec x.refcnt ∧
      (x.refcnt = 1 → y2.refcnt = 0) ∧ y2.timestamp = x.timestamp ∧ y2.lock = x.lock) := by
  constructor
  · intro hl
    obtain ⟨s1, hs1, hrd1, -⟩ := brelse_eq ticks s b x hx hl
    have h1 := hrd1 b
    rw [if_pos rfl] at h1
    refine ⟨s1, x.released ticks, hs1, h1, rfl, ?_, ?_⟩
    · intro h
      simp [Buf.released, uint_dec, h]
    · intro h
      have h' : uint_dec x.refcnt ≠ 0 := h
      simp only [Buf.released, h', if_false]
  · refine ⟨_, { x with refcnt := uint_dec x.refcnt }, bunpin_eq s b x hx,
      rd_set_self s b x _ hx, rfl, ?_, rfl, rfl⟩
    intro h
    simp [uint_dec, h]

/-- C16, amended, at two concrete inputs: slot 0 of `three_held_state`, held
with one reference, released or unpinned with the tick counter at 7; and slot
0 of `three_released_state`, whose lock is free, unpinned. -/
theorem C16_stamp_on_release_witness :
    ((∃ s1 y1, brelse 7 three_held_state (.buf 0) = .ret s1 ∧ s1.rd (.buf 0) = .ret y1 ∧
        y1.refcnt = uint_dec 1 ∧ (1 = 1 → y1.refcnt = 0 ∧ y1.timestamp = 7) ∧
        (y1.refcnt ≠ 0 → y1.timestamp = 0)) ∧
      (∃ s2 y2, bunpin three_held_state (.buf 0) = .ret s2 ∧ s2.rd (.buf 0) = .ret y2 ∧
        y2.refcnt = uint_dec 1 ∧ (1 = 1 → y2.refcnt = 0) ∧ y2.timestamp = 0 ∧
        y2.lock = true)) ∧
    (∃ s2 y2, bunpin three_released_state (.buf 0) = .ret s2 ∧ s2.rd (.buf 0) = .ret y2 ∧
      y2.refcnt = uint_dec 0 ∧ (0 = 1 → y2.refcnt = 0) ∧ y2.timestamp = 7 ∧ y2.lock = false) :=
  ⟨⟨(C16_stamp_on_release_only 7 three_held_state (.buf 0) ⟨false, 0, 2, true, 1, 0, .null⟩
        rfl).1 rfl,
      (C16_stamp_on_release_only 7 three_held_state (.buf 0) ⟨false, 0, 2, true, 1, 0, .null⟩
        rfl).2⟩,
    (C16_stamp_on_release_only 7 three_released_state (.buf 0) ⟨false, 0, 2, false, 0, 7, .null⟩
      rfl).2⟩

end OSLab
